import Mathlib

/-!
# gp: graph parser (scanner, shunting-yard parser, stack evaluator, sampler)

A shallow embedding of `src/gp.hpp`.

Conventions of the embedding.

* Every way in which the C++ program can stop without returning a value is a
  constructor of `Fault`: a failed `assert`, `top()`/`pop()` of an empty
  `std::stack` (undefined behaviour), an exception thrown by `std::stod` or by
  `unordered_map::at`, an out-of-range conversion to `int64_t`, an integer
  remainder by zero.  Functions that can stop that way return `Except Fault _`.
* Loops whose termination is not structural carry a step budget; running out
  of it is reported as `Fault.fuel`, which is a statement about the model and
  not a behaviour of the program.
* `real_t` (`float` in the source) is modelled by exact rational arithmetic,
  extended with the IEEE-754 values negative zero, the two infinities and NaN.
  Binary rounding and the finite range of `float`/`double` are not modelled, so
  a computation in the model agrees with the source wherever the binary32
  arithmetic involved is exact.  A statement that needs a text to be read
  without `std::out_of_range`, or a value to be read or returned exactly, says
  so with `literalInRange`, `isBinary64` or `isBinary32`.
* The transcendental functions of `<cmath>` are a parameter (`Libm`).
-/

namespace gp

/-! ## Token model -/

/-- The `enum class TokenType`. -/
inductive TokenType
  | Unknown
  | InputX
  | Variable
  | Sine
  | Cosine
  | Tangent
  | ArcSine
  | ArcCosine
  | ArcTangent
  | Log
  | Exp
  | Sqrt
  | Abs
  | NumberLiteral
  | Add
  | Sub
  | Mul
  | Div
  | Mod
  | Pow
  | Neg
  | LeftParent
  | RightParent
  deriving DecidableEq, Repr

/-- The `struct Token`: the scanned text and the kind. -/
structure Token where
  Data : String := ""
  Type_ : TokenType := TokenType.Unknown
  deriving DecidableEq, Repr

deriving instance DecidableEq for Except

/-- The operand kinds: what `parse` appends to the output directly. -/
def TokenType.isOperand : TokenType → Bool
  | TokenType.InputX => true
  | TokenType.Variable => true
  | TokenType.NumberLiteral => true
  | _ => false

/-- The kinds of the binary operators `+ - * / % ^`. -/
def TokenType.isBinaryOperator : TokenType → Bool
  | TokenType.Add => true
  | TokenType.Sub => true
  | TokenType.Mul => true
  | TokenType.Div => true
  | TokenType.Mod => true
  | TokenType.Pow => true
  | _ => false

/-- The kinds of the ten unary functions. -/
def TokenType.isFunction : TokenType → Bool
  | TokenType.Sine => true
  | TokenType.Cosine => true
  | TokenType.Tangent => true
  | TokenType.ArcSine => true
  | TokenType.ArcCosine => true
  | TokenType.ArcTangent => true
  | TokenType.Log => true
  | TokenType.Exp => true
  | TokenType.Sqrt => true
  | TokenType.Abs => true
  | _ => false

/-- The ways in which the program stops without returning a value. -/
inductive Fault
  /-- An `assert(...)` whose condition is false. -/
  | assertion
  /-- The call `top()` or `pop()` on an empty `std::stack`. -/
  | emptyStack
  /-- The exception `std::invalid_argument` thrown by `std::stod`. -/
  | invalidArgument
  /-- The exception `std::out_of_range` thrown by `unordered_map::at`. -/
  | outOfRange
  /-- A `static_cast<int64_t>` of a value that `int64_t` cannot hold. -/
  | undefinedCast
  /-- An integer `%` whose result is undefined (divisor zero, or overflow). -/
  | integerDivide
  /-- The step budget of the model ran out (no behaviour of the program). -/
  | fuel
  deriving DecidableEq, Repr

namespace scanner

/-- The `enum class CharType`. -/
inductive CharType
  | Unknown
  | Whitespace
  | Number
  | Identifier
  | OperatorAndPunctuator
  deriving DecidableEq, Repr

/-- The function `GetCharType`. -/
def GetCharType (c : Char) : CharType :=
  if ' ' = c ∨ '\t' = c ∨ '\r' = c ∨ '\n' = c then CharType.Whitespace
  else if '0' ≤ c ∧ c ≤ '9' then CharType.Number
  else if ('a' ≤ c ∧ c ≤ 'z') ∨ ('A' ≤ c ∧ c ≤ 'Z') then CharType.Identifier
  else if c = '+' ∨ c = '-' ∨ c = '*' ∨ c = '/' ∨ c = '%' ∨ c = '^' ∨ c = '(' ∨ c = ')' then
    CharType.OperatorAndPunctuator
  else CharType.Unknown

/-- The loop condition `GetCharType(_src[_index]) == CharType::Number`. -/
def isNumber (c : Char) : Bool := decide (GetCharType c = CharType.Number)

/-- The loop condition `GetCharType(_src[_index]) == CharType::Identifier`. -/
def isIdentifier (c : Char) : Bool := decide (GetCharType c = CharType.Identifier)

/-- The table `_identifierToTokenType`. -/
def _identifierToTokenType (s : String) : Option TokenType :=
  if s = "sin" then some TokenType.Sine
  else if s = "cos" then some TokenType.Cosine
  else if s = "tan" then some TokenType.Tangent
  else if s = "asin" then some TokenType.ArcSine
  else if s = "acos" then some TokenType.ArcCosine
  else if s = "atan" then some TokenType.ArcTangent
  else if s = "log" then some TokenType.Log
  else if s = "exp" then some TokenType.Exp
  else if s = "sqrt" then some TokenType.Sqrt
  else if s = "abs" then some TokenType.Abs
  else none

/-- The table `_opToTokenType`. -/
def _opToTokenType (c : Char) : Option TokenType :=
  if c = '+' then some TokenType.Add
  else if c = '-' then some TokenType.Sub
  else if c = '*' then some TokenType.Mul
  else if c = '/' then some TokenType.Div
  else if c = '%' then some TokenType.Mod
  else if c = '^' then some TokenType.Pow
  else if c = '(' then some TokenType.LeftParent
  else if c = ')' then some TokenType.RightParent
  else none

/-- The `CharType::Number` case of `Scan`: the token and the rest of the source. -/
def scanNumber (src : List Char) : Token × List Char :=
  match src.dropWhile isNumber with
  | '.' :: r2 =>
    (⟨String.mk (src.takeWhile isNumber ++ '.' :: r2.takeWhile isNumber),
        TokenType.NumberLiteral⟩, r2.dropWhile isNumber)
  | r1 => (⟨String.mk (src.takeWhile isNumber), TokenType.NumberLiteral⟩, r1)

/-- The `CharType::Identifier` case of `Scan`: the token and the rest of the source. -/
def scanIdentifier (src : List Char) : Token × List Char :=
  (⟨String.mk (src.takeWhile isIdentifier),
    match _identifierToTokenType (String.mk (src.takeWhile isIdentifier)) with
    | some t => t
    | none =>
      if String.mk (src.takeWhile isIdentifier) = "x" then TokenType.InputX
      else TokenType.Variable⟩,
   src.dropWhile isIdentifier)

/-- The reclassification of a `Sub` token, given the tokens emitted so far. -/
def reclassify (_result : List Token) (t : TokenType) : TokenType :=
  if t = TokenType.Sub then
    match _result.getLast? with
    | some back =>
      if back.Type_ ≠ TokenType.NumberLiteral ∧ back.Type_ ≠ TokenType.RightParent then
        TokenType.Neg
      else t
    | none => TokenType.Neg
  else t

/-- The `while (_index < _src_len)` loop of `Scan`; `src` is the source from
`_index` on, `_result` the tokens emitted so far. -/
def ScanLoop : Nat → List Char → List Token → Except Fault (List Token)
  | _, [], _result => .ok _result
  | 0, _ :: _, _ => .error Fault.fuel
  | fuel + 1, c :: rest, _result =>
    match GetCharType c with
    | CharType.Unknown => ScanLoop fuel rest _result
    | CharType.Whitespace => ScanLoop fuel rest _result
    | CharType.Number =>
      ScanLoop fuel (scanNumber (c :: rest)).2 (_result ++ [(scanNumber (c :: rest)).1])
    | CharType.Identifier =>
      ScanLoop fuel (scanIdentifier (c :: rest)).2 (_result ++ [(scanIdentifier (c :: rest)).1])
    | CharType.OperatorAndPunctuator =>
      match _opToTokenType c with
      | none => .error Fault.assertion
      | some t => ScanLoop fuel rest (_result ++ [⟨String.mk [c], reclassify _result t⟩])

/-- The texts that `Scan` emits as a `Variable` token: a non-empty run of
letters that is neither `x` nor the name of a function. -/
def isVariableName (s : String) : Prop :=
  s.data ≠ [] ∧ (∀ c ∈ s.data, isIdentifier c = true) ∧ s ≠ "x" ∧
    _identifierToTokenType s = none

/-- The loop of `Scan` run on the rest `src` of the source after the tokens
`_result`.  Each iteration consumes a character, so the budget is one step per
character. -/
def scanFrom (src : List Char) (_result : List Token) : Except Fault (List Token) :=
  ScanLoop src.length src _result

/-- The function `Scan`. -/
def Scan (_src : String) : Except Fault (List Token) :=
  scanFrom _src.data []

end scanner

open scanner

/-! ## Parser (shunting-yard) -/

/-- The table `_priority`, read with `operator[]`: a kind that is not a key of
the table (`Mod` among them) is inserted with the value `0`. -/
def _priority (t : TokenType) : Int :=
  match t with
  | TokenType.LeftParent => 0
  | TokenType.Add => 1
  | TokenType.Sub => 1
  | TokenType.Mul => 2
  | TokenType.Div => 2
  | TokenType.Pow => 3
  | TokenType.Neg => 4
  | TokenType.Sine => 5
  | TokenType.Cosine => 5
  | TokenType.Tangent => 5
  | TokenType.ArcSine => 5
  | TokenType.ArcCosine => 5
  | TokenType.Abs => 5
  | TokenType.ArcTangent => 5
  | TokenType.Log => 5
  | TokenType.Exp => 5
  | TokenType.Sqrt => 5
  | _ => 0

/-- The loop of the `RightParent` case of `parse`, with the `_stack.pop()` that
follows it: operators are moved to the output until a left parenthesis is on
top, and the top is then popped.  The head of the list is the top of `_stack`. -/
def popToLeftParent : List Token → List Token → Except Fault (List Token × List Token)
  | [], _ => .error Fault.emptyStack
  | top :: _stack, _postfix_ =>
    if top.Type_ ≠ TokenType.LeftParent then popToLeftParent _stack (_postfix_ ++ [top])
    else .ok (_stack, _postfix_)

/-- The loop of the `default` case of `parse`: operators whose priority is at
least the priority of the token `t` are moved to the output. -/
def popHigher (t : Token) : List Token → List Token → Except Fault (List Token × List Token)
  | [], _postfix_ => .ok ([], _postfix_)
  | top :: _stack, _postfix_ =>
    if _priority t.Type_ ≤ _priority top.Type_ then
      if top.Type_ = TokenType.RightParent then .error Fault.assertion
      else popHigher t _stack (_postfix_ ++ [top])
    else .ok (top :: _stack, _postfix_)

/-- The body of the `for` loop of `parse`, for one token. -/
def parseStep (_stack _postfix_ : List Token) (t : Token) :
    Except Fault (List Token × List Token) :=
  match t.Type_ with
  | TokenType.InputX => .ok (_stack, _postfix_ ++ [t])
  | TokenType.Variable => .ok (_stack, _postfix_ ++ [t])
  | TokenType.NumberLiteral => .ok (_stack, _postfix_ ++ [t])
  | TokenType.LeftParent => .ok (t :: _stack, _postfix_)
  | TokenType.RightParent => popToLeftParent _stack _postfix_
  | _ =>
    match popHigher t _stack _postfix_ with
    | .error e => .error e
    | .ok (_stack1, _postfix1) => .ok (t :: _stack1, _postfix1)

/-- The `for` loop of `parse` over the scanned tokens, followed by the final
loop that moves what is left on the stack to the output. -/
def parseLoop : List Token → List Token → List Token → Except Fault (List Token)
  | [], _stack, _postfix_ => .ok (_postfix_ ++ _stack)
  | t :: _scanned, _stack, _postfix_ =>
    match parseStep _stack _postfix_ t with
    | .error e => .error e
    | .ok (_stack1, _postfix1) => parseLoop _scanned _stack1 _postfix1

/-- The function `GraphParser::parse`. -/
def parse (_scanned : List Token) : Except Fault (List Token) :=
  parseLoop _scanned [] []

/-! ## The numeric type -/

/-- The type `real_t` (and `double`): an exact rational, negative zero, an
infinity with its sign (`true` is negative), or NaN.  `fin 0` is positive zero. -/
inductive real_t
  | fin (q : ℚ)
  | negZero
  | inf (neg : Bool)
  | nan
  deriving DecidableEq

namespace real_t

/-- The zero with the given sign bit. -/
def zero (neg : Bool) : real_t := if neg then negZero else fin 0

/-- The finite value `q`, with the sign bit `neg` when `q` is zero. -/
def ofRat (neg : Bool) (q : ℚ) : real_t := if q = 0 then zero neg else fin q

/-- The sign bit. -/
def signbit : real_t → Bool
  | fin q => decide (q < 0)
  | negZero => true
  | inf neg => neg
  | nan => false

/-- Whether the value is one of the two zeros. -/
def isZero : real_t → Bool
  | fin q => decide (q = 0)
  | negZero => true
  | _ => false

/-- The arithmetic negation (IEEE-754: the sign bit is flipped). -/
def neg : real_t → real_t
  | fin q => if q = 0 then negZero else fin (-q)
  | negZero => fin 0
  | inf s => inf (!s)
  | nan => nan

/-- The operator `+` of `real_t`. -/
def add : real_t → real_t → real_t
  | nan, _ => nan
  | _, nan => nan
  | inf s, inf t => if s = t then inf s else nan
  | inf s, _ => inf s
  | _, inf t => inf t
  | negZero, negZero => negZero
  | negZero, fin q => fin q
  | fin p, negZero => fin p
  | fin p, fin q => fin (p + q)

/-- The operator `-` of `real_t`. -/
def sub (a b : real_t) : real_t := add a (neg b)

/-- The operator `*` of `real_t`. -/
def mul : real_t → real_t → real_t
  | nan, _ => nan
  | _, nan => nan
  | inf s, b => if b.isZero then nan else inf (xor s b.signbit)
  | a, inf t => if a.isZero then nan else inf (xor a.signbit t)
  | fin p, fin q => ofRat (xor (decide (p < 0)) (decide (q < 0))) (p * q)
  | fin p, negZero => zero (xor (decide (p < 0)) true)
  | negZero, fin q => zero (xor true (decide (q < 0)))
  | negZero, negZero => fin 0

/-- The operator `/` of `real_t`: a division by zero gives an infinity or NaN. -/
def div : real_t → real_t → real_t
  | nan, _ => nan
  | _, nan => nan
  | inf _, inf _ => nan
  | inf s, b => inf (xor s b.signbit)
  | a, inf t => zero (xor a.signbit t)
  | a, negZero => if a.isZero then nan else inf (xor a.signbit true)
  | negZero, fin q => if q = 0 then nan else zero (xor true (decide (q < 0)))
  | fin p, fin q =>
    if q = 0 then (if p = 0 then nan else inf (decide (p < 0)))
    else ofRat (xor (decide (p < 0)) (decide (q < 0))) (p / q)

/-- The function `std::abs`. -/
def abs : real_t → real_t
  | fin q => fin |q|
  | negZero => fin 0
  | inf _ => inf false
  | nan => nan

/-- The comparison `a <= b`; false when an operand is NaN. -/
def le : real_t → real_t → Bool
  | nan, _ => false
  | _, nan => false
  | inf s, inf t => s || !t
  | inf s, _ => s
  | _, inf t => !t
  | negZero, negZero => true
  | negZero, fin q => decide (0 ≤ q)
  | fin p, negZero => decide (p ≤ 0)
  | fin p, fin q => decide (p ≤ q)

/-- The comparison `a == b`: the two zeros are equal, NaN is equal to nothing. -/
def eq : real_t → real_t → Bool
  | nan, _ => false
  | _, nan => false
  | a, b => le a b && le b a

/-- The comparison `a > b`; false when an operand is NaN. -/
def gt : real_t → real_t → Bool
  | nan, _ => false
  | _, nan => false
  | a, b => !le a b

/-- The value of an integer, as `to_string` of an `int64_t` followed by `stod` gives it. -/
def ofInt (z : Int) : real_t := fin z

end real_t

/-- The functions of `<cmath>` whose values the model does not compute:
the transcendental functions, and `std::pow` outside the exact case. -/
structure Libm where
  sin : real_t → real_t
  cos : real_t → real_t
  tan : real_t → real_t
  asin : real_t → real_t
  acos : real_t → real_t
  atan : real_t → real_t
  log : real_t → real_t
  exp : real_t → real_t
  sqrt : real_t → real_t
  pow : real_t → real_t → real_t

/-- The function `std::pow`: exact for a non-zero finite base and an integer
exponent, otherwise the value of the library function. -/
def pow (m : Libm) (a b : real_t) : real_t :=
  match a, b with
  | real_t.fin p, real_t.fin q =>
    if p ≠ 0 ∧ q.den = 1 then real_t.fin (p ^ q.num) else m.pow a b
  | _, _ => m.pow a b

/-! ## Text of a number: `std::to_string` and `std::stod` -/

/-- The digits of `n`, padded with zeros on the left to at least `width` characters. -/
def padded (width n : Nat) : List Char :=
  List.replicate (width - (Nat.toDigits 10 n).length) '0' ++ Nat.toDigits 10 n

/-- The non-negative rational `q` times `10^6`, rounded to the nearest integer,
a tie to the even one (the rounding of `printf`). -/
def scaled6 (q : ℚ) : Nat :=
  let s := q.num.natAbs * 10 ^ 6
  let d := s / q.den
  let r := s % q.den
  if 2 * r > q.den ∨ (2 * r = q.den ∧ d % 2 = 1) then d + 1 else d

/-- The format `%f` for a non-negative rational: six digits after the point. -/
def fixed6 (q : ℚ) : List Char :=
  Nat.toDigits 10 (scaled6 q / 10 ^ 6) ++ '.' :: padded 6 (scaled6 q % 10 ^ 6)

/-- The function `std::to_string` on a `float`: the format `%f`.  NaN is written
`nan`; the sign that a platform may print in front of it is not modelled. -/
def to_string : real_t → String
  | real_t.fin q => String.mk (if q < 0 then '-' :: fixed6 (-q) else fixed6 q)
  | real_t.negZero => "-0.000000"
  | real_t.inf neg => if neg then "-inf" else "inf"
  | real_t.nan => "nan"

/-- The function `std::to_string` on an `int64_t`. -/
def to_string_int (z : Int) : String :=
  String.mk (if z < 0 then '-' :: Nat.toDigits 10 z.natAbs else Nat.toDigits 10 z.natAbs)

/-- The ten decimal digits. -/
def decimalDigits : List Char := ['0', '1', '2', '3', '4', '5', '6', '7', '8', '9']

/-- The function `isspace` of the C locale. -/
def isspace (c : Char) : Bool :=
  c = ' ' || c = '\t' || c = '\n' || c = '\x0b' || c = '\x0c' || c = '\r'

/-- The function `isdigit`. -/
def isdigit (c : Char) : Bool := decide ('0' ≤ c ∧ c ≤ '9')

/-- The function `isxdigit`. -/
def isxdigit (c : Char) : Bool :=
  isdigit c || decide ('a' ≤ c ∧ c ≤ 'f') || decide ('A' ≤ c ∧ c ≤ 'F')

/-- The value of a hexadecimal digit. -/
def xdigitValue (c : Char) : Nat :=
  if isdigit c then c.toNat - 48 else if 'a' ≤ c ∧ c ≤ 'f' then c.toNat - 87 else c.toNat - 55

/-- The number written by a run of digits in the given base. -/
def digitsValue (base : Nat) (ds : List Char) : Nat :=
  ds.foldl (fun n c => base * n + xdigitValue c) 0

/-- The exponent part of a number: the marker (`e` or `p`), an optional sign
and a non-empty run of decimal digits; `0` when there is no such part. -/
def exponentPart (marker : Char) (cs : List Char) : Int :=
  match cs with
  | [] => 0
  | e :: rest =>
    if e.toLower = marker then
      match rest with
      | '-' :: ds => -(digitsValue 10 (ds.takeWhile isdigit) : Int)
      | '+' :: ds => (digitsValue 10 (ds.takeWhile isdigit) : Int)
      | ds => (digitsValue 10 (ds.takeWhile isdigit) : Int)
    else 0

/-- The digits before the point, the digits after it and the rest, for a
mantissa whose digits satisfy `isd`. -/
def mantissaParts (isd : Char → Bool) (cs : List Char) : List Char × List Char × List Char :=
  match cs.dropWhile isd with
  | '.' :: r2 => (cs.takeWhile isd, r2.takeWhile isd, r2.dropWhile isd)
  | r1 => (cs.takeWhile isd, [], r1)

/-- The value of the longest prefix that is a number of the given base, with
the given exponent base and marker; `none` when no digit is there. -/
def mantissaValue (isd : Char → Bool) (base ebase : Nat) (marker : Char) (cs : List Char) :
    Option ℚ :=
  match mantissaParts isd cs with
  | (ip, fp, rest) =>
    if ip = [] ∧ fp = [] then none
    else some ((digitsValue base (ip ++ fp) : ℚ) / (base : ℚ) ^ fp.length
      * (ebase : ℚ) ^ exponentPart marker rest)

/-- The unsigned part of the subject sequence of `strtod`: `inf`, `nan`, a
hexadecimal or a decimal floating constant. -/
def stodBody (cs : List Char) : Option real_t :=
  if (cs.take 3).map Char.toLower = ['i', 'n', 'f'] then some (real_t.inf false)
  else if (cs.take 3).map Char.toLower = ['n', 'a', 'n'] then some real_t.nan
  else
    let hex : Option ℚ := match cs with
      | '0' :: x :: rest => if x.toLower = 'x' then mantissaValue isxdigit 16 2 'p' rest else none
      | _ => none
    match hex with
    | some q => some (real_t.fin q)
    | none => (mantissaValue isdigit 10 10 'e' cs).map real_t.fin

/-- The expression `static_cast<real_t>(std::stod(s))`: leading white space is
skipped, then an optional sign and the longest prefix that is a number are
read; `none` when there is no such prefix (`std::invalid_argument`).  The
value is exact: the `std::out_of_range` of a number outside the range of
`double` belongs to the finite range, which the model leaves out. -/
def stod (s : String) : Option real_t :=
  match s.data.dropWhile isspace with
  | '-' :: cs => (stodBody cs).map real_t.neg
  | '+' :: cs => stodBody cs
  | cs => stodBody cs

/-- The expression `static_cast<int64_t>(v)` on a `double`: the truncation
toward zero, undefined when it is not an `int64_t`. -/
def toInt64 : real_t → Option Int
  | real_t.fin q =>
    if -(2 : Int) ^ 63 ≤ Int.tdiv q.num q.den ∧ Int.tdiv q.num q.den < (2 : Int) ^ 63 then
      some (Int.tdiv q.num q.den)
    else none
  | real_t.negZero => some 0
  | _ => none

/-! ## Evaluator -/

/-- The member `m_VariableMap`: the bindings in the order given, the first
binding of a name being the one that counts. -/
abbrev VariableMap := List (String × real_t)

/-- The macro `GP_EVAL_FUNCTION_SWITCH`: one value is popped, the function is
applied to its number and the text of the result is pushed. -/
def GP_EVAL_FUNCTION_SWITCH (FUNC : real_t → real_t) :
    List Token → Except Fault (List Token)
  | [] => .error Fault.emptyStack
  | _t1 :: _stack =>
    if _t1.Type_ ≠ TokenType.NumberLiteral then .error Fault.assertion
    else
      match stod _t1.Data with
      | none => .error Fault.invalidArgument
      | some v => .ok (⟨to_string (FUNC v), TokenType.NumberLiteral⟩ :: _stack)

/-- The macro `GP_EVAL_OPERATOR_SWITCH` (and the `Pow` case, which has the same
shape): the right operand is popped, then the left one, and the text of the
result is pushed. -/
def GP_EVAL_OPERATOR_SWITCH (OP : real_t → real_t → real_t) :
    List Token → Except Fault (List Token)
  | [] => .error Fault.emptyStack
  | [_] => .error Fault.emptyStack
  | _t2 :: _t1 :: _stack =>
    if _t1.Type_ ≠ TokenType.NumberLiteral then .error Fault.assertion
    else if _t2.Type_ ≠ TokenType.NumberLiteral then .error Fault.assertion
    else
      match stod _t1.Data with
      | none => .error Fault.invalidArgument
      | some _a =>
        match stod _t2.Data with
        | none => .error Fault.invalidArgument
        | some _b => .ok (⟨to_string (OP _a _b), TokenType.NumberLiteral⟩ :: _stack)

/-- The operator `%` of `int64_t`. -/
def int64Mod (_a _b : Int) : Except Fault Int :=
  if _b = 0 then .error Fault.integerDivide
  else if _a = -(2 : Int) ^ 63 ∧ _b = -1 then .error Fault.integerDivide
  else .ok (Int.tmod _a _b)

/-- The `Mod` case of `evaluate`. -/
def evalMod : List Token → Except Fault (List Token)
  | [] => .error Fault.emptyStack
  | [_] => .error Fault.emptyStack
  | _t2 :: _t1 :: _stack =>
    if _t1.Type_ ≠ TokenType.NumberLiteral then .error Fault.assertion
    else if _t2.Type_ ≠ TokenType.NumberLiteral then .error Fault.assertion
    else
      match stod _t1.Data with
      | none => .error Fault.invalidArgument
      | some va =>
        match toInt64 va with
        | none => .error Fault.undefinedCast
        | some _a =>
          match stod _t2.Data with
          | none => .error Fault.invalidArgument
          | some vb =>
            match toInt64 vb with
            | none => .error Fault.undefinedCast
            | some _b =>
              match int64Mod _a _b with
              | .error e => .error e
              | .ok r => .ok (⟨to_string_int r, TokenType.NumberLiteral⟩ :: _stack)

/-- The `Neg` case of `evaluate`: a minus sign is put in front of the text. -/
def evalNeg : List Token → Except Fault (List Token)
  | [] => .error Fault.emptyStack
  | _t1 :: _stack =>
    if _t1.Type_ ≠ TokenType.NumberLiteral then .error Fault.assertion
    else .ok (⟨"-" ++ _t1.Data, TokenType.NumberLiteral⟩ :: _stack)

/-- The body of the `for` loop of `evaluate`, for one token of the postfix
sequence.  The head of the list is the top of `_stack`. -/
def evaluateStep (m : Libm) (vars : VariableMap) (_xValue : real_t) (_stack : List Token)
    (t : Token) : Except Fault (List Token) :=
  match t.Type_ with
  | TokenType.NumberLiteral => .ok (t :: _stack)
  | TokenType.Neg => evalNeg _stack
  | TokenType.Sine => GP_EVAL_FUNCTION_SWITCH m.sin _stack
  | TokenType.Cosine => GP_EVAL_FUNCTION_SWITCH m.cos _stack
  | TokenType.Tangent => GP_EVAL_FUNCTION_SWITCH m.tan _stack
  | TokenType.ArcSine => GP_EVAL_FUNCTION_SWITCH m.asin _stack
  | TokenType.ArcCosine => GP_EVAL_FUNCTION_SWITCH m.acos _stack
  | TokenType.ArcTangent => GP_EVAL_FUNCTION_SWITCH m.atan _stack
  | TokenType.Log => GP_EVAL_FUNCTION_SWITCH m.log _stack
  | TokenType.Exp => GP_EVAL_FUNCTION_SWITCH m.exp _stack
  | TokenType.Sqrt => GP_EVAL_FUNCTION_SWITCH m.sqrt _stack
  | TokenType.Abs => GP_EVAL_FUNCTION_SWITCH real_t.abs _stack
  | TokenType.Add => GP_EVAL_OPERATOR_SWITCH real_t.add _stack
  | TokenType.Sub => GP_EVAL_OPERATOR_SWITCH real_t.sub _stack
  | TokenType.Mul => GP_EVAL_OPERATOR_SWITCH real_t.mul _stack
  | TokenType.Div => GP_EVAL_OPERATOR_SWITCH real_t.div _stack
  | TokenType.Mod => evalMod _stack
  | TokenType.Pow => GP_EVAL_OPERATOR_SWITCH (pow m) _stack
  | TokenType.InputX => .ok (⟨to_string _xValue, TokenType.NumberLiteral⟩ :: _stack)
  | TokenType.Variable =>
    match vars.lookup t.Data with
    | none => .error Fault.outOfRange
    | some v => .ok (⟨to_string v, TokenType.NumberLiteral⟩ :: _stack)
  | _ => .error Fault.assertion

/-- The `for` loop of `evaluate`: the stack after the tokens of `_postfix`. -/
def evaluateLoop (m : Libm) (vars : VariableMap) (_xValue : real_t) :
    List Token → List Token → Except Fault (List Token)
  | [], _stack => .ok _stack
  | t :: _postfix_, _stack =>
    match evaluateStep m vars _xValue _stack t with
    | .error e => .error e
    | .ok _stack1 => evaluateLoop m vars _xValue _postfix_ _stack1

/-- The end of `evaluate`: the assertion that the stack is not empty and the
conversion of the text on top of it. -/
def evaluateResult : List Token → Except Fault real_t
  | [] => .error Fault.assertion
  | top :: _ =>
    match stod top.Data with
    | none => .error Fault.invalidArgument
    | some v => .ok v

/-- The function `GraphParser::evaluate`. -/
def evaluate (m : Libm) (vars : VariableMap) (_postfix_ : List Token) (_xValue : real_t) :
    Except Fault real_t :=
  match evaluateLoop m vars _xValue _postfix_ [] with
  | .error e => .error e
  | .ok _stack => evaluateResult _stack

/-- A token with the binding of its name, when it is a named variable that
the map binds: the numeric text of the bound value. -/
def bindVariable (vars : VariableMap) (t : Token) : Token :=
  if t.Type_ = TokenType.Variable then
    match vars.lookup t.Data with
    | some v => ⟨to_string v, TokenType.NumberLiteral⟩
    | none => t
  else t

/-! ## Sampler -/

/-- The type `vec2`: a sample. -/
structure vec2 where
  x : real_t
  y : real_t
  deriving DecidableEq

/-- The two `for` loops of `exec`: `up` tells which one (`x <= _xEnd` when it
is true, `x >= _xEnd` otherwise). -/
def execLoop (m : Libm) (vars : VariableMap) (_parsed : List Token) (_xEnd _xStep : real_t)
    (up : Bool) : Nat → real_t → List vec2 → Except Fault (List vec2)
  | fuel, x, _result =>
    if (if up then real_t.le x _xEnd else real_t.le _xEnd x) = true then
      match fuel with
      | 0 => .error Fault.fuel
      | fuel + 1 =>
        match evaluate m vars _parsed x with
        | .error e => .error e
        | .ok y => execLoop m vars _parsed _xEnd _xStep up fuel (real_t.add x _xStep)
            (_result ++ [⟨x, y⟩])
    else .ok _result

/-- The function `GraphParser::exec`; `fuel` bounds the number of samples. -/
def exec (m : Libm) (fuel : Nat) (_expr : String) (_xBegin _xEnd _xStep : real_t)
    (_varMap : VariableMap) : Except Fault (List vec2) :=
  match Scan (_expr ++ " ") with
  | .error e => .error e
  | .ok _scanned =>
    match parse _scanned with
    | .error e => .error e
    | .ok _parsed =>
      execLoop m _varMap _parsed _xEnd _xStep (real_t.gt _xStep (real_t.fin 0)) fuel _xBegin []

/-- The value of an expression at one coordinate: what `exec` computes for one
sample (scan of the expression followed by a blank, parse, evaluate). -/
def evaluateExpression (m : Libm) (vars : VariableMap) (_expr : String) (x : real_t) :
    Except Fault real_t :=
  match Scan (_expr ++ " ") with
  | .error e => .error e
  | .ok _scanned =>
    match parse _scanned with
    | .error e => .error e
    | .ok _parsed => evaluate m vars _parsed x

/-- A stand-in for the platform library, to instantiate statements that hold
for every library: the sine of a zero is that zero, every other value is NaN. -/
def Libm.atZero : Libm :=
  ⟨fun v => if v.isZero then v else real_t.nan, fun _ => real_t.nan, fun _ => real_t.nan,
   fun _ => real_t.nan, fun _ => real_t.nan, fun _ => real_t.nan, fun _ => real_t.nan,
   fun _ => real_t.nan, fun _ => real_t.nan, fun _ _ => real_t.nan⟩

/-! ## Well-formed expressions -/

/-- What the grammar of expressions expects next in a token sequence. -/
inductive Expect
  /-- The start of an operand: a literal, `x`, a variable, `(`, a function. -/
  | operand
  /-- The `(` that follows the name of a function. -/
  | leftParent
  /-- After a complete operand: a binary operator, `)`, or the end. -/
  | operator
  deriving DecidableEq

/-- The token sequences of the grammar
`E ::= P | P op E`, `P ::= literal | x | variable | ( E ) | f ( E )`
with `op` one of `+ - * / ^` (the tokens `Add`, `Sub`, `Mul`, `Div`, `Pow`),
or `%` outside every parenthesis: parentheses are balanced (`n` of them are
open) and every operator has its operands.  The unary minus is not part of it. -/
def wellFormedFrom : Expect → Nat → List Token → Bool
  | Expect.operator, 0, [] => true
  | _, _, [] => false
  | Expect.operand, n, t :: ts =>
    if t.Type_.isOperand then wellFormedFrom Expect.operator n ts
    else if t.Type_ = TokenType.LeftParent then wellFormedFrom Expect.operand (n + 1) ts
    else if t.Type_.isFunction then wellFormedFrom Expect.leftParent n ts
    else false
  | Expect.leftParent, n, t :: ts =>
    if t.Type_ = TokenType.LeftParent then wellFormedFrom Expect.operand (n + 1) ts else false
  | Expect.operator, n, t :: ts =>
    if t.Type_ = TokenType.RightParent then
      match n with
      | 0 => false
      | k + 1 => wellFormedFrom Expect.operator k ts
    else if t.Type_ = TokenType.Mod then
      if n = 0 then wellFormedFrom Expect.operand n ts else false
    else if t.Type_.isBinaryOperator then wellFormedFrom Expect.operand n ts
    else false

/-- A well-formed expression, as a token sequence. -/
def wellFormed (ts : List Token) : Bool := wellFormedFrom Expect.operand 0 ts

/-- The number of values on the evaluation stack after a postfix sequence of
operands, functions and binary operators, from `d` values; `none` when a token
finds too few values, or is of another kind. -/
def stackEffect : Nat → List Token → Option Nat
  | d, [] => some d
  | d, t :: p =>
    if t.Type_.isOperand then stackEffect (d + 1) p
    else if t.Type_.isFunction then (if 1 ≤ d then stackEffect d p else none)
    else if t.Type_.isBinaryOperator then (if 2 ≤ d then stackEffect (d - 1) p else none)
    else none

/-- The number of binary operators in a list of tokens. -/
def binaryCount (l : List Token) : Nat := l.countP (fun t => t.Type_.isBinaryOperator)

/-- The number of left parentheses in a list of tokens. -/
def parenCount (l : List Token) : Nat := l.countP (fun t => decide (t.Type_ = TokenType.LeftParent))

/-- A token that is a function or a binary operator. -/
def isOperation (t : Token) : Prop :=
  t.Type_.isBinaryOperator = true ∨ t.Type_.isFunction = true

/-- The invariant of `parse` on a well-formed expression, between two tokens:
the operator stack `S` holds operations and left parentheses, as many of these
as parentheses are open; the output `P` is a postfix sequence that leaves one
value for each binary operator on the stack, and one more after a complete
operand; and no function is on top of the stack when an operand is expected. -/
def parseInvariant (st : Expect) (n : Nat) (S P : List Token) : Prop :=
  (∀ t ∈ S, isOperation t ∨ t.Type_ = TokenType.LeftParent) ∧
  parenCount S = n ∧
  stackEffect 0 P = some (binaryCount S + (if st = Expect.operator then 1 else 0)) ∧
  (st = Expect.operand → ∀ top rest, S = top :: rest → top.Type_.isFunction = false)

/-- A token that `evaluate` keeps on its stack: a number with a text that
`stod` reads. -/
def isNumeric (t : Token) : Prop :=
  t.Type_ = TokenType.NumberLiteral ∧ (stod t.Data).isSome = true

/-- A token that `evaluate` can read given the map: the text of a literal is a
number, the name of a variable is bound. -/
def isReadable (vars : VariableMap) (t : Token) : Prop :=
  (t.Type_ = TokenType.NumberLiteral → (stod t.Data).isSome = true) ∧
  (t.Type_ = TokenType.Variable → vars.lookup t.Data ≠ none)

/-- The samples at the given coordinates, in their order: the value of each is
`evaluate` of the parsed expression at the coordinate, and the first fault
stops the sampling. -/
def sampleAll (m : Libm) (vars : VariableMap) (_parsed : List Token) :
    List real_t → Except Fault (List vec2)
  | [] => .ok []
  | x :: xs =>
    match evaluate m vars _parsed x with
    | .error e => .error e
    | .ok y =>
      match sampleAll m vars _parsed xs with
      | .error e => .error e
      | .ok r => .ok (⟨x, y⟩ :: r)

/-- The coordinates `xBegin + k * xStep` for `k = 0, ..., n - 1`. -/
def coordinates (xBegin xStep : ℚ) (n : Nat) : List real_t :=
  (List.range n).map (fun (k : Nat) => real_t.fin (xBegin + (k : ℚ) * xStep))

/-- The texts of the tokens, one after the other. -/
def tokenText : List Token → List Char
  | [] => []
  | t :: ts => t.Data.data ++ tokenText ts

/-- Every character but the decimal point. -/
def notPoint (c : Char) : Bool := decide (c ≠ '.')

/-- The characters that `Scan` keeps in a token: the digits, the ASCII letters
and the characters `+ - * / % ^ ( )`. -/
def isKept (c : Char) : Bool :=
  decide (('0' ≤ c ∧ c ≤ '9') ∨ ('a' ≤ c ∧ c ≤ 'z') ∨ ('A' ≤ c ∧ c ≤ 'Z') ∨
    c = '+' ∨ c = '-' ∨ c = '*' ∨ c = '/' ∨ c = '%' ∨ c = '^' ∨ c = '(' ∨ c = ')')

/-- A token that is a left or a right parenthesis. -/
def isParenthesis (t : Token) : Bool :=
  decide (t.Type_ = TokenType.LeftParent) || decide (t.Type_ = TokenType.RightParent)

/-- A token that is not a parenthesis. -/
def notParenthesis (t : Token) : Bool := !isParenthesis t

/-- A token of one of the three operand kinds of `parse`. -/
def isOperandToken (t : Token) : Bool := t.Type_.isOperand

/-- Balanced parentheses, with `d` parentheses open before the tokens: no right
parenthesis without an open left one, and none left open at the end.  The
tokens of the other kinds are free. -/
def balancedFrom : Nat → List Token → Bool
  | d, [] => decide (d = 0)
  | d, t :: ts =>
    if t.Type_ = TokenType.LeftParent then balancedFrom (d + 1) ts
    else if t.Type_ = TokenType.RightParent then
      (match d with
        | 0 => false
        | d1 + 1 => balancedFrom d1 ts)
    else balancedFrom d ts

/-- A token sequence with balanced parentheses. -/
def balanced (ts : List Token) : Bool := balancedFrom 0 ts

/-- The range in which `std::stod` reads a number without `std::out_of_range`:
the exact value `q` of the text is zero, or its magnitude lies between the
least normal `double`, `2^-1022`, and the greatest finite one,
`(2^53 - 1) * 2^971`.  The comparison is made on the numerator and the
denominator of `q`. -/
def inDoubleRange (q : ℚ) : Bool :=
  decide (q = 0) ||
    (decide (q.den ≤ q.num.natAbs * 2 ^ 1022) &&
      decide (q.num.natAbs ≤ (2 ^ 53 - 1) * 2 ^ 971 * q.den))

/-- A token whose text is a finite number in the range of `double`. -/
def literalInRange (t : Token) : Bool :=
  match stod t.Data with
  | some (real_t.fin q) => inDoubleRange q
  | _ => false

/-- A value of the type `double` (binary64), zero or normal: in the range of
`double`, with a significand of at most 53 bits.  `std::stod` returns the
value of a text exactly when the value is one of these. -/
def isBinary64 (q : ℚ) : Prop :=
  inDoubleRange q = true ∧ ∃ m e : Int, q = m * (2 : ℚ) ^ e ∧ |m| < 2 ^ 53

/-- A value of the type `real_t`, which is `float` (binary32), zero or normal:
a magnitude between `2^-126` and `(2^24 - 1) * 2^104`, with a significand of at
most 24 bits.  The conversion of a `double` to `real_t` is exact on these. -/
def isBinary32 (q : ℚ) : Prop :=
  (q = 0 ∨ ((1 : ℚ) / 2 ^ 126 ≤ |q| ∧ |q| ≤ (2 ^ 24 - 1) * 2 ^ 104)) ∧
    ∃ m e : Int, q = m * (2 : ℚ) ^ e ∧ |m| < 2 ^ 24

/-! ## The scanner: general facts -/

namespace scanner

theorem scanNumber_length (c : Char) (rest : List Char)
    (h : GetCharType c = CharType.Number) :
    (scanNumber (c :: rest)).2.length ≤ rest.length := by
  have hc : isNumber c = true := by simp [isNumber, h]
  have h1 : (List.dropWhile isNumber (c :: rest)).length ≤ rest.length := by
    rw [List.dropWhile_cons_of_pos hc]
    exact (List.dropWhile_sublist _).length_le
  unfold scanNumber
  split
  · rename_i r2 heq
    have h2 : (List.dropWhile isNumber r2).length ≤ r2.length :=
      (List.dropWhile_sublist _).length_le
    rw [heq] at h1
    simp only [List.length_cons] at h1
    simp only
    omega
  · exact h1

theorem scanIdentifier_length (c : Char) (rest : List Char)
    (h : GetCharType c = CharType.Identifier) :
    (scanIdentifier (c :: rest)).2.length ≤ rest.length := by
  have hc : isIdentifier c = true := by simp [isIdentifier, h]
  unfold scanIdentifier
  rw [List.dropWhile_cons_of_pos hc]
  exact (List.dropWhile_sublist _).length_le

theorem opToTokenType_isSome (c : Char)
    (h : GetCharType c = CharType.OperatorAndPunctuator) :
    ∃ t, _opToTokenType c = some t := by
  unfold GetCharType at h
  split_ifs at h with h1 h2 h3 h4
  rcases h4 with h | h | h | h | h | h | h | h <;> subst h <;> exact ⟨_, rfl⟩

/-- With one step per character the loop of `Scan` never runs out of budget and
never fails, and a larger budget changes nothing. -/
theorem ScanLoop_fuel : ∀ (f1 f2 : Nat) (src : List Char) (acc : List Token),
    src.length ≤ f1 → src.length ≤ f2 →
    ScanLoop f1 src acc = ScanLoop f2 src acc ∧ ∃ r, ScanLoop f1 src acc = .ok r := by
  intro f1
  induction f1 with
  | zero =>
    intro f2 src acc h1 _
    have : src = [] := List.length_eq_zero.mp (Nat.le_zero.mp h1)
    subst this
    cases f2 <;> simp [ScanLoop]
  | succ f1 ih =>
    intro f2 src acc h1 h2
    cases src with
    | nil => cases f2 <;> simp [ScanLoop]
    | cons c rest =>
      cases f2 with
      | zero => simp at h2
      | succ f2 =>
        simp only [List.length_cons, Nat.add_le_add_iff_right] at h1 h2
        simp only [ScanLoop]
        cases hc : GetCharType c with
        | Unknown => exact ih f2 rest acc h1 h2
        | Whitespace => exact ih f2 rest acc h1 h2
        | Number =>
          have hl := scanNumber_length c rest hc
          exact ih f2 _ _ (by omega) (by omega)
        | Identifier =>
          have hl := scanIdentifier_length c rest hc
          exact ih f2 _ _ (by omega) (by omega)
        | OperatorAndPunctuator =>
          obtain ⟨t, ht⟩ := opToTokenType_isSome c hc
          simp only [ht]
          exact ih f2 rest _ h1 h2

theorem scanFrom_nil (acc : List Token) : scanFrom [] acc = .ok acc := by
  simp [scanFrom, ScanLoop]

/-- One iteration of the loop of `Scan`, without the budget. -/
theorem scanFrom_cons (c : Char) (rest : List Char) (acc : List Token) :
    scanFrom (c :: rest) acc =
      match GetCharType c with
      | CharType.Unknown => scanFrom rest acc
      | CharType.Whitespace => scanFrom rest acc
      | CharType.Number =>
        scanFrom (scanNumber (c :: rest)).2 (acc ++ [(scanNumber (c :: rest)).1])
      | CharType.Identifier =>
        scanFrom (scanIdentifier (c :: rest)).2 (acc ++ [(scanIdentifier (c :: rest)).1])
      | CharType.OperatorAndPunctuator =>
        match _opToTokenType c with
        | none => .error Fault.assertion
        | some t => scanFrom rest (acc ++ [⟨String.mk [c], reclassify acc t⟩]) := by
  simp only [scanFrom, List.length_cons, ScanLoop]
  cases hc : GetCharType c with
  | Unknown => rfl
  | Whitespace => rfl
  | Number =>
    have hl := scanNumber_length c rest hc
    exact (ScanLoop_fuel _ _ _ (acc ++ [(scanNumber (c :: rest)).1]) hl (le_refl _)).1
  | Identifier =>
    have hl := scanIdentifier_length c rest hc
    exact (ScanLoop_fuel _ _ _ (acc ++ [(scanIdentifier (c :: rest)).1]) hl (le_refl _)).1
  | OperatorAndPunctuator =>
    cases _opToTokenType c <;> rfl

/-- The scan from any point succeeds, and keeps the tokens emitted before. -/
theorem scanFrom_ok : ∀ (n : Nat) (src : List Char) (acc : List Token), src.length ≤ n →
    ∃ more, scanFrom src acc = .ok (acc ++ more) := by
  intro n
  induction n with
  | zero =>
    intro src acc h
    have : src = [] := List.length_eq_zero.mp (Nat.le_zero.mp h)
    subst this
    exact ⟨[], by simp [scanFrom_nil]⟩
  | succ n ih =>
    intro src acc h
    cases src with
    | nil => exact ⟨[], by simp [scanFrom_nil]⟩
    | cons c rest =>
      simp only [List.length_cons, Nat.add_le_add_iff_right] at h
      rw [scanFrom_cons]
      cases hc : GetCharType c with
      | Unknown => exact ih rest acc h
      | Whitespace => exact ih rest acc h
      | Number =>
        have hl := scanNumber_length c rest hc
        obtain ⟨more, hm⟩ := ih (scanNumber (c :: rest)).2 (acc ++ [(scanNumber (c :: rest)).1])
          (by omega)
        exact ⟨_ :: more, by simpa using hm⟩
      | Identifier =>
        have hl := scanIdentifier_length c rest hc
        obtain ⟨more, hm⟩ := ih (scanIdentifier (c :: rest)).2
          (acc ++ [(scanIdentifier (c :: rest)).1]) (by omega)
        exact ⟨_ :: more, by simpa using hm⟩
      | OperatorAndPunctuator =>
        obtain ⟨t, ht⟩ := opToTokenType_isSome c hc
        simp only [ht]
        obtain ⟨more, hm⟩ := ih rest (acc ++ [⟨String.mk [c], reclassify acc t⟩]) h
        exact ⟨_ :: more, by simpa using hm⟩

theorem takeWhile_append_stop {p : Char → Bool} (l : List Char) (d : Char) (post : List Char)
    (hd : p d = false) : List.takeWhile p (l ++ d :: post) = List.takeWhile p l := by
  induction l with
  | nil => simp [List.takeWhile_cons, hd]
  | cons a l ih =>
    simp only [List.cons_append, List.takeWhile_cons]
    split <;> simp [ih]

theorem dropWhile_append_stop {p : Char → Bool} (l : List Char) (d : Char) (post : List Char)
    (hd : p d = false) :
    List.dropWhile p (l ++ d :: post) = List.dropWhile p l ++ d :: post := by
  induction l with
  | nil => simp [List.dropWhile_cons, hd]
  | cons a l ih =>
    simp only [List.cons_append, List.dropWhile_cons]
    split <;> simp [ih]

/-- A number that is followed by a character that is neither a digit nor a
point is scanned as it is at the end of the source. -/
theorem scanNumber_append (src : List Char) (d : Char) (post : List Char)
    (hd : isNumber d = false) (hdot : d ≠ '.') :
    scanNumber (src ++ d :: post) = ((scanNumber src).1, (scanNumber src).2 ++ d :: post) := by
  unfold scanNumber
  rw [dropWhile_append_stop src d post hd, takeWhile_append_stop src d post hd]
  cases h : List.dropWhile isNumber src with
  | nil =>
    simp only [List.nil_append]
    split
    · rename_i r2 heq
      injection heq with h1 h2
      exact absurd h1 hdot
    · rfl
  | cons y r =>
    by_cases hy : y = '.'
    · subst hy
      simp only [List.cons_append]
      rw [dropWhile_append_stop r d post hd, takeWhile_append_stop r d post hd]
    · simp only [List.cons_append]
      split
      · rename_i r2 heq
        injection heq with h1 h2
        exact absurd h1 hy
      · split
        · rename_i r2 heq
          injection heq with h1 h2
          exact absurd h1 hy
        · rfl

theorem scanIdentifier_append (src : List Char) (d : Char) (post : List Char)
    (hd : isIdentifier d = false) :
    scanIdentifier (src ++ d :: post) =
      ((scanIdentifier src).1, (scanIdentifier src).2 ++ d :: post) := by
  unfold scanIdentifier
  rw [dropWhile_append_stop src d post hd, takeWhile_append_stop src d post hd]

/-- The scan of a source up to a character `d` that ends every token (neither a
digit, nor a letter, nor a point) is the scan of the part before `d`, and the
scan goes on from `d` with the tokens of that part. -/
theorem scanFrom_append : ∀ (n : Nat) (pre : List Char) (d : Char) (post : List Char)
    (acc : List Token), pre.length ≤ n →
    isNumber d = false → isIdentifier d = false → d ≠ '.' →
    scanFrom (pre ++ d :: post) acc =
      match scanFrom pre acc with
      | .ok ts => scanFrom (d :: post) ts
      | .error e => .error e := by
  intro n
  induction n with
  | zero =>
    intro pre d post acc h _ _ _
    have : pre = [] := List.length_eq_zero.mp (Nat.le_zero.mp h)
    subst this
    simp [scanFrom_nil]
  | succ n ih =>
    intro pre d post acc h hn hi hdot
    cases pre with
    | nil => simp [scanFrom_nil]
    | cons c rest =>
      simp only [List.length_cons, Nat.add_le_add_iff_right] at h
      rw [List.cons_append, scanFrom_cons, scanFrom_cons c rest]
      cases hc : GetCharType c with
      | Unknown => exact ih rest d post acc h hn hi hdot
      | Whitespace => exact ih rest d post acc h hn hi hdot
      | Number =>
        have hl := scanNumber_length c rest hc
        have := scanNumber_append (c :: rest) d post hn hdot
        rw [List.cons_append] at this
        simp only [this]
        exact ih _ d post _ (by omega) hn hi hdot
      | Identifier =>
        have hl := scanIdentifier_length c rest hc
        have := scanIdentifier_append (c :: rest) d post hi
        rw [List.cons_append] at this
        simp only [this]
        exact ih _ d post _ (by omega) hn hi hdot
      | OperatorAndPunctuator =>
        obtain ⟨t, ht⟩ := opToTokenType_isSome c hc
        simp only [ht]
        exact ih rest d post _ h hn hi hdot

/-- One iteration of the loop of `Scan` on a minus sign. -/
theorem scanFrom_minus (post : List Char) (ts : List Token) :
    scanFrom ('-' :: post) ts = scanFrom post (ts ++ [⟨"-", reclassify ts TokenType.Sub⟩]) := by
  rw [scanFrom_cons]
  rfl


/-- The scan of a run of letters that ends the source. -/
theorem scanFrom_letters (l : List Char) (acc : List Token) (hne : l ≠ [])
    (hl : ∀ c ∈ l, isIdentifier c = true) :
    scanFrom l acc = .ok (acc ++ [(scanIdentifier l).1]) := by
  cases l with
  | nil => exact absurd rfl hne
  | cons c rest =>
    have hc : GetCharType c = CharType.Identifier := by
      have := hl c (List.mem_cons_self _ _)
      simpa [isIdentifier] using this
    rw [scanFrom_cons, hc]
    have : (scanIdentifier (c :: rest)).2 = [] := by
      unfold scanIdentifier
      exact List.dropWhile_eq_nil_iff.mpr hl
    simp only [this, scanFrom_nil]

theorem scanIdentifier_variable (s : String) (h : isVariableName s) :
    (scanIdentifier s.data).1 = ⟨s, TokenType.Variable⟩ := by
  obtain ⟨_, hl, hx, hf⟩ := h
  unfold scanIdentifier
  have : List.takeWhile isIdentifier s.data = s.data := List.takeWhile_eq_self_iff.mpr hl
  simp only [this]
  simp [hf, hx]

end scanner

/-! ## The parser: general facts -/

theorem parseStep_operand (s p : List Token) (t : Token) (h : t.Type_.isOperand = true) :
    parseStep s p t = .ok (s, p ++ [t]) := by
  obtain ⟨d, ty⟩ := t
  cases ty <;> simp [TokenType.isOperand] at h <;> rfl

/-- The `default` case of `parse`, for a binary operator, `Neg` or a function. -/
theorem parseStep_default (s p : List Token) (t : Token)
    (h : t.Type_.isBinaryOperator = true ∨ t.Type_ = TokenType.Neg ∨
      t.Type_.isFunction = true) :
    parseStep s p t =
      match popHigher t s p with
      | .error e => .error e
      | .ok (s1, p1) => .ok (t :: s1, p1) := by
  obtain ⟨d, ty⟩ := t
  cases ty <;> simp [TokenType.isBinaryOperator, TokenType.isFunction] at h <;> rfl

theorem parseStep_leftParent (s p : List Token) (t : Token)
    (h : t.Type_ = TokenType.LeftParent) : parseStep s p t = .ok (t :: s, p) := by
  obtain ⟨d, ty⟩ := t
  simp only at h
  subst h
  rfl

theorem parseStep_rightParent (s p : List Token) (t : Token)
    (h : t.Type_ = TokenType.RightParent) : parseStep s p t = popToLeftParent s p := by
  obtain ⟨d, ty⟩ := t
  simp only at h
  subst h
  rfl

theorem popHigher_nil (t : Token) (p : List Token) : popHigher t [] p = .ok ([], p) := rfl

theorem popHigher_keep (t top : Token) (s p : List Token)
    (h : _priority top.Type_ < _priority t.Type_) :
    popHigher t (top :: s) p = .ok (top :: s, p) := by
  simp [popHigher, not_le.mpr h]

theorem popHigher_pop (t top : Token) (s p : List Token)
    (h : _priority t.Type_ ≤ _priority top.Type_) (hr : top.Type_ ≠ TokenType.RightParent) :
    popHigher t (top :: s) p = popHigher t s (p ++ [top]) := by
  simp [popHigher, h, hr]

theorem ne_rightParent_of_default (t : Token)
    (h : t.Type_.isBinaryOperator = true ∨ t.Type_ = TokenType.Neg ∨
      t.Type_.isFunction = true) : t.Type_ ≠ TokenType.RightParent := by
  obtain ⟨d, ty⟩ := t
  cases ty <;> simp [TokenType.isBinaryOperator, TokenType.isFunction] at h ⊢

theorem stackEffect_append : ∀ (p q : List Token) (d : Nat),
    stackEffect d (p ++ q) = (stackEffect d p).bind (fun d1 => stackEffect d1 q) := by
  intro p
  induction p with
  | nil => intro q d; rfl
  | cons t p ih =>
    intro q d
    simp only [List.cons_append, stackEffect]
    split_ifs <;> first | exact ih q _ | rfl

theorem binaryCount_append (l1 l2 : List Token) :
    binaryCount (l1 ++ l2) = binaryCount l1 + binaryCount l2 := by
  simp [binaryCount, List.countP_append]

theorem parenCount_append (l1 l2 : List Token) :
    parenCount (l1 ++ l2) = parenCount l1 + parenCount l2 := by
  simp [parenCount, List.countP_append]

theorem isOperation_kinds (t : Token) (h : isOperation t) :
    t.Type_.isOperand = false ∧ t.Type_ ≠ TokenType.LeftParent ∧
      t.Type_ ≠ TokenType.RightParent ∧
      (t.Type_.isBinaryOperator = true → t.Type_.isFunction = false) := by
  obtain ⟨d, ty⟩ := t
  cases ty <;> simp [isOperation, TokenType.isBinaryOperator, TokenType.isFunction,
    TokenType.isOperand] at h ⊢

theorem parenCount_operations (l : List Token) (h : ∀ t ∈ l, isOperation t) :
    parenCount l = 0 := by
  unfold parenCount
  rw [List.countP_eq_zero]
  intro t ht
  simpa using (isOperation_kinds t (h t ht)).2.1

/-- Moving operations from the operator stack to the output keeps the output a
postfix sequence: each binary operator finds its two values. -/
theorem stackEffect_operations : ∀ (l : List Token) (k : Nat), (∀ t ∈ l, isOperation t) →
    stackEffect (binaryCount l + k + 1) l = some (k + 1) := by
  intro l
  induction l with
  | nil => intro k _; simp [stackEffect, binaryCount]
  | cons t l ih =>
    intro k h
    have ht := h t (List.mem_cons_self _ _)
    have hk := isOperation_kinds t ht
    have hl : ∀ u ∈ l, isOperation u := fun u hu => h u (List.mem_cons_of_mem _ hu)
    have hih := ih k hl
    by_cases hb : t.Type_.isBinaryOperator = true
    · have hc : binaryCount (t :: l) = binaryCount l + 1 := by
        simp [binaryCount, List.countP_cons, hb]
      have hf := hk.2.2.2 hb
      simp only [stackEffect, hk.1, hf, hb, hc]
      have h2 : 2 ≤ binaryCount l + 1 + k + 1 := by omega
      have h3 : binaryCount l + 1 + k + 1 - 1 = binaryCount l + k + 1 := by omega
      simp [h2, h3, hih]
    · have hf : t.Type_.isFunction = true := by
        rcases ht with h1 | h1
        · exact absurd h1 hb
        · exact h1
      have hc : binaryCount (t :: l) = binaryCount l := by
        simp [binaryCount, List.countP_cons, hb]
      simp only [stackEffect, hk.1, hf, hc]
      have h1 : 1 ≤ binaryCount l + k + 1 := by omega
      simp [h1, hih]

theorem popToLeftParent_found (top : Token) (s p : List Token)
    (h : top.Type_ = TokenType.LeftParent) : popToLeftParent (top :: s) p = .ok (s, p) := by
  simp [popToLeftParent, h]

theorem popToLeftParent_pop (top : Token) (s p : List Token)
    (h : top.Type_ ≠ TokenType.LeftParent) :
    popToLeftParent (top :: s) p = popToLeftParent s (p ++ [top]) := by
  simp [popToLeftParent, h]

theorem priority_function (t : TokenType) (h : t.isFunction = true) : _priority t = 5 := by
  cases t <;> simp [TokenType.isFunction] at h <;> rfl

/-- The loop of the `default` case moves operations only, and stops below a
left parenthesis, when the priority of the token is positive or no parenthesis
is on the stack. -/
theorem popHigher_operations (t : Token) : ∀ (S P : List Token),
    (∀ u ∈ S, isOperation u ∨ u.Type_ = TokenType.LeftParent) →
    (0 < _priority t.Type_ ∨ parenCount S = 0) →
    ∃ popped S1, S = popped ++ S1 ∧ (∀ u ∈ popped, isOperation u) ∧
      popHigher t S P = .ok (S1, P ++ popped) := by
  intro S
  induction S with
  | nil => intro P _ _; exact ⟨[], [], rfl, by simp, by simp [popHigher]⟩
  | cons top S ih =>
    intro P hS hp
    by_cases hle : _priority t.Type_ ≤ _priority top.Type_
    · have htop : isOperation top := by
        rcases hS top (List.mem_cons_self _ _) with h | h
        · exact h
        · exfalso
          rcases hp with hp | hp
          · rw [h] at hle
            have : _priority TokenType.LeftParent = 0 := rfl
            omega
          · simp [parenCount, List.countP_cons, h] at hp
      have hS1 : ∀ u ∈ S, isOperation u ∨ u.Type_ = TokenType.LeftParent :=
        fun u hu => hS u (List.mem_cons_of_mem _ hu)
      have hp1 : 0 < _priority t.Type_ ∨ parenCount S = 0 := by
        rcases hp with hp | hp
        · exact Or.inl hp
        · right
          have : parenCount (top :: S) = parenCount S := by
            simp [parenCount, List.countP_cons, (isOperation_kinds top htop).2.1]
          omega
      obtain ⟨popped, S1, hsplit, hops, hpop⟩ := ih (P ++ [top]) hS1 hp1
      refine ⟨top :: popped, S1, by simp [hsplit], ?_, ?_⟩
      · intro u hu
        rcases List.mem_cons.mp hu with h | h
        · exact h ▸ htop
        · exact hops u h
      · rw [popHigher_pop t top S P hle (isOperation_kinds top htop).2.2.1, hpop]
        simp
    · exact ⟨[], top :: S, rfl, by simp, by
        rw [popHigher_keep t top S P (not_le.mp hle)]
        simp⟩

/-- The loop of the `RightParent` case moves operations only and finds a left
parenthesis, when one is on the stack. -/
theorem popToLeftParent_operations : ∀ (S P : List Token),
    (∀ u ∈ S, isOperation u ∨ u.Type_ = TokenType.LeftParent) → 0 < parenCount S →
    ∃ popped lp S1, S = popped ++ lp :: S1 ∧ lp.Type_ = TokenType.LeftParent ∧
      (∀ u ∈ popped, isOperation u) ∧ popToLeftParent S P = .ok (S1, P ++ popped) := by
  intro S
  induction S with
  | nil => intro P _ h; simp [parenCount] at h
  | cons top S ih =>
    intro P hS hp
    by_cases hl : top.Type_ = TokenType.LeftParent
    · exact ⟨[], top, S, rfl, hl, by simp, by
        rw [popToLeftParent_found top S P hl]
        simp⟩
    · have htop : isOperation top := by
        rcases hS top (List.mem_cons_self _ _) with h | h
        · exact h
        · exact absurd h hl
      have hS1 : ∀ u ∈ S, isOperation u ∨ u.Type_ = TokenType.LeftParent :=
        fun u hu => hS u (List.mem_cons_of_mem _ hu)
      have hp1 : 0 < parenCount S := by
        have : parenCount (top :: S) = parenCount S := by
          simp [parenCount, List.countP_cons, hl]
        omega
      obtain ⟨popped, lp, S1, hsplit, hlp, hops, hpop⟩ := ih (P ++ [top]) hS1 hp1
      refine ⟨top :: popped, lp, S1, by simp [hsplit], hlp, ?_, ?_⟩
      · intro u hu
        rcases List.mem_cons.mp hu with h | h
        · exact h ▸ htop
        · exact hops u h
      · rw [popToLeftParent_pop top S P hl, hpop]
        simp

theorem priority_binary (t : TokenType) (h : t.isBinaryOperator = true) :
    _priority t < 5 ∧ (t ≠ TokenType.Mod → 0 < _priority t) := by
  cases t <;> simp [TokenType.isBinaryOperator] at h <;> simp [_priority]

theorem stackEffect_output (P popped S1 : List Token) (k : Nat)
    (hP : stackEffect 0 P = some (binaryCount (popped ++ S1) + 1))
    (hops : ∀ u ∈ popped, isOperation u) (hk : binaryCount S1 = k) :
    stackEffect 0 (P ++ popped) = some (k + 1) := by
  rw [stackEffect_append, hP, Option.some_bind, binaryCount_append, hk]
  exact stackEffect_operations popped k hops

theorem wellFormedFrom_operator (n : Nat) (t : Token) (ts : List Token) :
    wellFormedFrom Expect.operator n (t :: ts) =
      if t.Type_ = TokenType.RightParent then
        match n with
        | 0 => false
        | k + 1 => wellFormedFrom Expect.operator k ts
      else if t.Type_ = TokenType.Mod then
        if n = 0 then wellFormedFrom Expect.operand n ts else false
      else if t.Type_.isBinaryOperator then wellFormedFrom Expect.operand n ts
      else false := by
  cases n <;> rfl

/-- On a well-formed expression `parse` pops no empty stack, and its output is
a postfix sequence that leaves exactly one value. -/
theorem parseLoop_wellFormed : ∀ (ts : List Token) (st : Expect) (n : Nat) (S P : List Token),
    wellFormedFrom st n ts = true → parseInvariant st n S P →
    ∃ p, parseLoop ts S P = .ok p ∧ stackEffect 0 p = some 1 := by
  intro ts
  induction ts with
  | nil =>
    intro st n S P hwf hinv
    obtain ⟨hS, hpc, hse, _⟩ := hinv
    have hst : st = Expect.operator ∧ n = 0 := by
      cases st <;> cases n <;> simp [wellFormedFrom] at hwf ⊢
    obtain ⟨hst, hn⟩ := hst
    subst hst hn
    have hops : ∀ u ∈ S, isOperation u := by
      intro u hu
      rcases hS u hu with h | h
      · exact h
      · exfalso
        have : 0 < parenCount S := by
          unfold parenCount
          exact List.countP_pos_iff.mpr ⟨u, hu, by simpa using h⟩
        omega
    refine ⟨P ++ S, rfl, ?_⟩
    simp only [if_true] at hse
    have := stackEffect_output P S [] 0 (by simpa using hse) hops rfl
    simpa using this
  | cons t ts ih =>
    intro st n S P hwf hinv
    obtain ⟨hS, hpc, hse, htop⟩ := hinv
    simp only [parseLoop]
    cases st with
    | operand =>
      simp only [wellFormedFrom] at hwf
      simp only [reduceCtorEq, if_false, Nat.add_zero] at hse
      by_cases h1 : t.Type_.isOperand = true
      · rw [if_pos h1] at hwf
        rw [parseStep_operand S P t h1]
        refine ih Expect.operator n S (P ++ [t]) hwf ⟨hS, hpc, ?_, by simp⟩
        rw [stackEffect_append, hse]
        simp [stackEffect, h1]
      · rw [if_neg h1] at hwf
        by_cases h2 : t.Type_ = TokenType.LeftParent
        · rw [if_pos h2] at hwf
          rw [parseStep_leftParent S P t h2]
          refine ih Expect.operand (n + 1) (t :: S) P hwf ⟨?_, ?_, ?_, ?_⟩
          · intro u hu
            rcases List.mem_cons.mp hu with h | h
            · exact Or.inr (h ▸ h2)
            · exact hS u h
          · simp [parenCount, List.countP_cons, h2] at hpc ⊢
            exact hpc
          · simp [binaryCount, List.countP_cons, h2, TokenType.isBinaryOperator] at hse ⊢
            exact hse
          · intro _ top rest he
            injection he with he1 _
            rw [← he1, h2]
            rfl
        · rw [if_neg h2] at hwf
          by_cases h3 : t.Type_.isFunction = true
          · rw [if_pos h3] at hwf
            have hpop : popHigher t S P = .ok (S, P) := by
              cases S with
              | nil => rfl
              | cons top rest =>
                have hnf := htop rfl top rest rfl
                have hlt : _priority top.Type_ < _priority t.Type_ := by
                  rw [priority_function _ h3]
                  rcases hS top (List.mem_cons_self _ _) with h | h
                  · rcases h with h | h
                    · exact (priority_binary _ h).1
                    · rw [h] at hnf
                      exact absurd hnf (by simp)
                  · rw [h]
                    decide
                exact popHigher_keep t top rest P hlt
            rw [parseStep_default S P t (Or.inr (Or.inr h3)), hpop]
            have hnb : t.Type_.isBinaryOperator = false := by
              have := (isOperation_kinds t (Or.inr h3))
              cases hb : t.Type_.isBinaryOperator
              · rfl
              · exact absurd h3 (by simp [this.2.2.2 hb])
            refine ih Expect.leftParent n (t :: S) P hwf ⟨?_, ?_, ?_, by simp⟩
            · intro u hu
              rcases List.mem_cons.mp hu with h | h
              · exact Or.inl (h ▸ Or.inr h3)
              · exact hS u h
            · simp [parenCount, List.countP_cons, h2] at hpc ⊢
              exact hpc
            · simp [binaryCount, List.countP_cons, hnb] at hse ⊢
              exact hse
          · rw [if_neg h3] at hwf
            exact absurd hwf (by simp)
    | leftParent =>
      simp only [wellFormedFrom] at hwf
      simp only [reduceCtorEq, if_false, Nat.add_zero] at hse
      by_cases h2 : t.Type_ = TokenType.LeftParent
      · rw [if_pos h2] at hwf
        rw [parseStep_leftParent S P t h2]
        refine ih Expect.operand (n + 1) (t :: S) P hwf ⟨?_, ?_, ?_, ?_⟩
        · intro u hu
          rcases List.mem_cons.mp hu with h | h
          · exact Or.inr (h ▸ h2)
          · exact hS u h
        · simp [parenCount, List.countP_cons, h2] at hpc ⊢
          exact hpc
        · simp [binaryCount, List.countP_cons, h2, TokenType.isBinaryOperator] at hse ⊢
          exact hse
        · intro _ top rest he
          injection he with he1 _
          rw [← he1, h2]
          rfl
      · rw [if_neg h2] at hwf
        exact absurd hwf (by simp)
    | operator =>
      rw [wellFormedFrom_operator] at hwf
      simp only [if_true] at hse
      by_cases h1 : t.Type_ = TokenType.RightParent
      · rw [if_pos h1] at hwf
        cases n with
        | zero => exact absurd hwf (by simp)
        | succ k =>
          simp only at hwf
          obtain ⟨popped, lp, S1, hsplit, hlp, hops, hpop⟩ :=
            popToLeftParent_operations S P hS (by omega)
          rw [parseStep_rightParent S P t h1, hpop]
          subst hsplit
          have hnb : binaryCount (lp :: S1) = binaryCount S1 := by
            simp [binaryCount, List.countP_cons, hlp, TokenType.isBinaryOperator]
          refine ih Expect.operator k S1 (P ++ popped) hwf ⟨?_, ?_, ?_, by simp⟩
          · intro u hu
            exact hS u (by simp [hu])
          · rw [parenCount_append, parenCount_operations popped hops] at hpc
            simp [parenCount, List.countP_cons, hlp] at hpc ⊢
            omega
          · simp only [if_true]
            exact stackEffect_output P popped (lp :: S1) _ hse hops hnb
      · rw [if_neg h1] at hwf
        have hbin : t.Type_.isBinaryOperator = true ∧
            (0 < _priority t.Type_ ∨ parenCount S = 0) ∧
            wellFormedFrom Expect.operand n ts = true := by
          by_cases h2 : t.Type_ = TokenType.Mod
          · rw [if_pos h2] at hwf
            by_cases h3 : n = 0
            · rw [if_pos h3] at hwf
              exact ⟨by rw [h2]; rfl, Or.inr (by omega), hwf⟩
            · rw [if_neg h3] at hwf
              exact absurd hwf (by simp)
          · rw [if_neg h2] at hwf
            by_cases h3 : t.Type_.isBinaryOperator = true
            · rw [if_pos h3] at hwf
              exact ⟨h3, Or.inl ((priority_binary _ h3).2 h2), hwf⟩
            · rw [if_neg h3] at hwf
              exact absurd hwf (by simp)
        obtain ⟨hb, hp, hwf1⟩ := hbin
        obtain ⟨popped, S1, hsplit, hops, hpop⟩ := popHigher_operations t S P hS hp
        rw [parseStep_default S P t (Or.inl hb), hpop]
        subst hsplit
        have hnl := (isOperation_kinds t (Or.inl hb)).2.1
        refine ih Expect.operand n (t :: S1) (P ++ popped) hwf1 ⟨?_, ?_, ?_, ?_⟩
        · intro u hu
          rcases List.mem_cons.mp hu with h | h
          · exact Or.inl (h ▸ Or.inl hb)
          · exact hS u (by simp [h])
        · rw [parenCount_append, parenCount_operations popped hops] at hpc
          simp [parenCount, List.countP_cons, hnl] at hpc ⊢
          exact hpc
        · simp only [reduceCtorEq, if_false, Nat.add_zero]
          have hc : binaryCount (t :: S1) = binaryCount S1 + 1 := by
            simp [binaryCount, List.countP_cons, hb]
          rw [hc]
          exact stackEffect_output P popped S1 _ hse hops rfl
        · intro _ top rest he
          injection he with he1 _
          rw [← he1]
          exact (isOperation_kinds t (Or.inl hb)).2.2.2 hb

theorem popHigher_mem (t : Token) : ∀ (S P S1 P1 : List Token),
    popHigher t S P = .ok (S1, P1) → ∀ u, u ∈ S1 ∨ u ∈ P1 → u ∈ S ∨ u ∈ P := by
  intro S
  induction S with
  | nil =>
    intro P S1 P1 h u hu
    simp only [popHigher, Except.ok.injEq, Prod.mk.injEq] at h
    obtain ⟨h1, h2⟩ := h
    subst h1 h2
    exact hu
  | cons top S ih =>
    intro P S1 P1 h u hu
    simp only [popHigher] at h
    split_ifs at h with h1 h2
    · have := ih (P ++ [top]) S1 P1 h u hu
      rcases this with h3 | h3
      · exact Or.inl (List.mem_cons_of_mem _ h3)
      · rcases List.mem_append.mp h3 with h4 | h4
        · exact Or.inr h4
        · exact Or.inl (by simp at h4; simp [h4])
    · simp only [Except.ok.injEq, Prod.mk.injEq] at h
      obtain ⟨h3, h4⟩ := h
      subst h3 h4
      exact hu

theorem popToLeftParent_mem : ∀ (S P S1 P1 : List Token),
    popToLeftParent S P = .ok (S1, P1) → ∀ u, u ∈ S1 ∨ u ∈ P1 → u ∈ S ∨ u ∈ P := by
  intro S
  induction S with
  | nil => intro P S1 P1 h; simp [popToLeftParent] at h
  | cons top S ih =>
    intro P S1 P1 h u hu
    simp only [popToLeftParent] at h
    split_ifs at h with h1
    · have := ih (P ++ [top]) S1 P1 h u hu
      rcases this with h3 | h3
      · exact Or.inl (List.mem_cons_of_mem _ h3)
      · rcases List.mem_append.mp h3 with h4 | h4
        · exact Or.inr h4
        · exact Or.inl (by simp at h4; simp [h4])
    · simp only [Except.ok.injEq, Prod.mk.injEq] at h
      obtain ⟨h3, h4⟩ := h
      subst h3 h4
      rcases hu with h5 | h5
      · exact Or.inl (List.mem_cons_of_mem _ h5)
      · exact Or.inr h5

theorem parseStep_mem (S P S1 P1 : List Token) (t : Token)
    (h : parseStep S P t = .ok (S1, P1)) :
    ∀ u, u ∈ S1 ∨ u ∈ P1 → u = t ∨ u ∈ S ∨ u ∈ P := by
  intro u hu
  unfold parseStep at h
  split at h
  case h_5 => exact Or.inr (popToLeftParent_mem S P S1 P1 h u hu)
  case h_6 =>
    split at h
    · simp at h
    · rename_i S2 P2 hpop
      simp only [Except.ok.injEq, Prod.mk.injEq] at h
      obtain ⟨h1, h2⟩ := h
      subst h1 h2
      rcases hu with h3 | h3
      · rcases List.mem_cons.mp h3 with h4 | h4
        · exact Or.inl h4
        · exact Or.inr (popHigher_mem t S P S2 P2 hpop u (Or.inl h4))
      · exact Or.inr (popHigher_mem t S P S2 P2 hpop u (Or.inr h3))
  all_goals
    simp only [Except.ok.injEq, Prod.mk.injEq] at h
    obtain ⟨h1, h2⟩ := h
    subst h1 h2
    rcases hu with h3 | h3
    · first
        | exact Or.inr (Or.inl h3)
        | (rcases List.mem_cons.mp h3 with h4 | h4
           · exact Or.inl h4
           · exact Or.inr (Or.inl h4))
    · first
        | exact Or.inr (Or.inr h3)
        | (rcases List.mem_append.mp h3 with h4 | h4
           · exact Or.inr (Or.inr h4)
           · exact Or.inl (by simpa using h4))

/-- Every token of the output of `parse` is a token of its input. -/
theorem parseLoop_mem : ∀ (ts S P p : List Token), parseLoop ts S P = .ok p →
    ∀ u ∈ p, u ∈ ts ∨ u ∈ S ∨ u ∈ P := by
  intro ts
  induction ts with
  | nil =>
    intro S P p h u hu
    simp only [parseLoop, Except.ok.injEq] at h
    subst h
    rcases List.mem_append.mp hu with h1 | h1
    · exact Or.inr (Or.inr h1)
    · exact Or.inr (Or.inl h1)
  | cons t ts ih =>
    intro S P p h u hu
    simp only [parseLoop] at h
    split at h
    · simp at h
    · rename_i S1 P1 hstep
      rcases ih S1 P1 p h u hu with h1 | h1
      · exact Or.inl (List.mem_cons_of_mem _ h1)
      · rcases parseStep_mem S P S1 P1 t hstep u h1 with h2 | h2 | h2
        · exact Or.inl (h2 ▸ List.mem_cons_self _ _)
        · exact Or.inr (Or.inl h2)
        · exact Or.inr (Or.inr h2)

/-! ## The text of numbers: general facts -/

/-- The function `stod` reads one sign only: a text with two minus signs in
front is no number. -/
theorem stod_minus_minus (cs : List Char) : stod (String.mk ('-' :: '-' :: cs)) = none := by
  with_unfolding_all rfl

/-- The text of a value whose sign bit is set begins with a minus sign. -/
theorem to_string_signbit (x : real_t) (h : x.signbit = true) :
    ∃ cs, to_string x = String.mk ('-' :: cs) := by
  cases x with
  | fin q =>
    have hq : q < 0 := by simpa [real_t.signbit] using h
    exact ⟨fixed6 (-q), by simp [to_string, hq]⟩
  | negZero => exact ⟨_, rfl⟩
  | inf s =>
    have hs : s = true := by simpa [real_t.signbit] using h
    subst hs
    exact ⟨_, rfl⟩
  | nan => simp [real_t.signbit] at h

theorem digitChar_mem (k : Nat) (hk : k < 10) : Nat.digitChar k ∈ decimalDigits := by
  interval_cases k <;> decide

theorem xdigitValue_digitChar (k : Nat) (hk : k < 10) : xdigitValue (Nat.digitChar k) = k := by
  interval_cases k <;> decide

theorem decimalDigits_facts (c : Char) (h : c ∈ decimalDigits) :
    isdigit c = true ∧ isspace c = false ∧ c ≠ '-' ∧ c ≠ '+' ∧ c ≠ '.' ∧
      c.toLower ≠ 'i' ∧ c.toLower ≠ 'n' ∧ c.toLower ≠ 'x' := by
  simp only [decimalDigits, List.mem_cons, List.mem_singleton, List.not_mem_nil, or_false] at h
  rcases h with h | h | h | h | h | h | h | h | h | h <;> subst h <;> decide

theorem digitsValue_append (base : Nat) (l : List Char) (d : Char) :
    digitsValue base (l ++ [d]) = base * digitsValue base l + xdigitValue d := by
  simp [digitsValue, List.foldl_append]

/-- The digits that `Nat.toDigits` writes are decimal digits, at least one,
and they are read back as the number. -/
theorem toDigitsCore_spec : ∀ (fuel n : Nat) (ds : List Char), n < fuel →
    ∃ l, Nat.toDigitsCore 10 fuel n ds = l ++ ds ∧ l ≠ [] ∧
      (∀ c ∈ l, c ∈ decimalDigits) ∧ digitsValue 10 l = n := by
  intro fuel
  induction fuel with
  | zero => intro n ds h; omega
  | succ fuel ih =>
    intro n ds h
    simp only [Nat.toDigitsCore]
    by_cases h0 : n / 10 = 0
    · simp only [h0, if_true]
      refine ⟨[Nat.digitChar (n % 10)], rfl, by simp, ?_, ?_⟩
      · intro c hc
        rw [List.mem_singleton] at hc
        subst hc
        exact digitChar_mem _ (Nat.mod_lt _ (by decide))
      · have : digitsValue 10 [Nat.digitChar (n % 10)] = xdigitValue (Nat.digitChar (n % 10)) := by
          simp [digitsValue]
        rw [this, xdigitValue_digitChar _ (Nat.mod_lt _ (by decide))]
        omega
    · simp only [h0, if_false]
      obtain ⟨l, hl, _, hall, hv⟩ := ih (n / 10) (Nat.digitChar (n % 10) :: ds) (by omega)
      refine ⟨l ++ [Nat.digitChar (n % 10)], by simp [hl], by simp, ?_, ?_⟩
      · intro c hc
        rw [List.mem_append, List.mem_singleton] at hc
        rcases hc with hc | hc
        · exact hall c hc
        · subst hc
          exact digitChar_mem _ (Nat.mod_lt _ (by decide))
      · rw [digitsValue_append, hv, xdigitValue_digitChar _ (Nat.mod_lt _ (by decide))]
        omega

theorem toDigits_spec (n : Nat) :
    Nat.toDigits 10 n ≠ [] ∧ (∀ c ∈ Nat.toDigits 10 n, c ∈ decimalDigits) ∧
      digitsValue 10 (Nat.toDigits 10 n) = n := by
  obtain ⟨l, hl, hne, hall, hv⟩ := toDigitsCore_spec (n + 1) n [] (by omega)
  rw [List.append_nil] at hl
  rw [Nat.toDigits, hl]
  exact ⟨hne, hall, hv⟩

/-- A non-empty run of decimal digits is read as the number it writes. -/
theorem stodBody_digits (l : List Char) (hne : l ≠ []) (hall : ∀ c ∈ l, c ∈ decimalDigits) :
    stodBody l = some (real_t.fin (digitsValue 10 l)) := by
  have hd : ∀ c ∈ l, isdigit c = true := fun c hc => (decimalDigits_facts c (hall c hc)).1
  have hdrop : List.dropWhile isdigit l = [] := List.dropWhile_eq_nil_iff.mpr hd
  have htake : List.takeWhile isdigit l = l := List.takeWhile_eq_self_iff.mpr hd
  have hm : mantissaValue isdigit 10 10 'e' l = some (digitsValue 10 l : ℚ) := by
    simp [mantissaValue, mantissaParts, hdrop, htake, hne, exponentPart]
  cases l with
  | nil => exact absurd rfl hne
  | cons c l1 =>
    have fc := decimalDigits_facts c (hall c (List.mem_cons_self _ _))
    have hhex : (match c :: l1 with
        | '0' :: x :: rest =>
          if x.toLower = 'x' then mantissaValue isxdigit 16 2 'p' rest else none
        | _ => none) = none := by
      split
      · rename_i x rest heq
        injection heq with h1 h2
        subst h2
        have fx := decimalDigits_facts x (hall x (by simp))
        simp [fx.2.2.2.2.2.2.2]
      · rfl
    unfold stodBody
    simp only [List.take_succ_cons, List.map_cons, hhex, hm]
    simp [fc.2.2.2.2.2.1, fc.2.2.2.2.2.2.1]

/-- The text of an `int64_t` is read back as its value. -/
theorem stod_to_string_int (z : Int) : stod (to_string_int z) = some (real_t.ofInt z) := by
  obtain ⟨hne, hall, hv⟩ := toDigits_spec z.natAbs
  have hb := stodBody_digits _ hne hall
  rw [hv] at hb
  unfold stod to_string_int
  by_cases hz : z < 0
  · simp only [hz, if_true]
    have : List.dropWhile isspace ('-' :: Nat.toDigits 10 z.natAbs) =
        '-' :: Nat.toDigits 10 z.natAbs := rfl
    simp only [this, hb, Option.map_some', real_t.neg, real_t.ofInt]
    have h1 : ((z.natAbs : ℕ) : ℚ) ≠ 0 := by
      have : z.natAbs ≠ 0 := by omega
      exact_mod_cast this
    have h2 : -((z.natAbs : ℕ) : ℚ) = (z : ℚ) := by
      have h3 : -((z.natAbs : ℕ) : ℤ) = z := by omega
      rw [← Int.cast_natCast, ← Int.cast_neg, h3]
    simp [h1, h2]
  · simp only [hz, if_false]
    cases hl : Nat.toDigits 10 z.natAbs with
    | nil => exact absurd hl hne
    | cons c l1 =>
      have fc := decimalDigits_facts c (hall c (by simp [hl]))
      have hsp : List.dropWhile isspace (c :: l1) = c :: l1 := by
        simp [List.dropWhile_cons, fc.2.1]
      rw [hl] at hb
      simp only [hsp]
      have h2 : ((z.natAbs : ℕ) : ℚ) = (z : ℚ) := by
        have h3 : ((z.natAbs : ℕ) : ℤ) = z := by omega
        rw [← Int.cast_natCast, h3]
      split
      · rename_i cs heq
        injection heq with h1 _
        exact absurd h1 fc.2.2.1
      · rename_i cs heq
        injection heq with h1 _
        exact absurd h1 fc.2.2.2.1
      · rw [hb, real_t.ofInt, h2]

/-- The conversion to `int64_t` of a finite value is the truncation toward
zero, when that is an `int64_t`. -/
theorem toInt64_fin (q : ℚ) (z : Int) :
    toInt64 (real_t.fin q) = some z ↔
      (z = (if 0 ≤ q then ⌊q⌋ else ⌈q⌉) ∧ -(2 : Int) ^ 63 ≤ z ∧ z < (2 : Int) ^ 63) := by
  have ht : Int.tdiv q.num q.den = if 0 ≤ q then ⌊q⌋ else ⌈q⌉ := by
    by_cases hq : 0 ≤ q
    · rw [if_pos hq, Rat.floor_def]
      exact Int.tdiv_eq_ediv (Rat.num_nonneg.mpr hq) (Int.ofNat_nonneg _)
    · rw [if_neg hq]
      have hq1 : 0 ≤ -q := by linarith
      have h1 : ⌈q⌉ = -⌊-q⌋ := by rw [Int.floor_neg, neg_neg]
      have hn : 0 ≤ -q.num := by
        have := Rat.num_nonneg.mpr hq1
        simpa using this
      rw [h1, Rat.floor_def, Rat.neg_num, Rat.neg_den,
        ← Int.tdiv_eq_ediv hn (Int.ofNat_nonneg _), Int.neg_tdiv, neg_neg]
  simp only [toInt64]
  rw [ht]
  generalize (if 0 ≤ q then ⌊q⌋ else ⌈q⌉) = t
  constructor
  · intro h
    by_cases hr : -(2 : Int) ^ 63 ≤ t ∧ t < (2 : Int) ^ 63
    · rw [if_pos hr] at h
      injection h with h
      exact ⟨h.symm, h ▸ hr.1, h ▸ hr.2⟩
    · rw [if_neg hr] at h
      exact absurd h (by simp)
  · rintro ⟨h1, h2, h3⟩
    rw [← h1, if_pos ⟨h2, h3⟩]

theorem mem_decimalDigits_of_isdigit (c : Char) (h : isdigit c = true) : c ∈ decimalDigits := by
  have h0 : '0' ≤ c ∧ c ≤ '9' := by simpa [isdigit] using h
  obtain ⟨h1, h2⟩ := h0
  have h1n : 48 ≤ c.toNat := h1
  have h2n : c.toNat ≤ 57 := h2
  have hc : c = Char.ofNat c.toNat := (Char.ofNat_toNat c).symm
  generalize c.toNat = n at hc h1n h2n
  subst hc
  interval_cases n <;> decide

theorem isdigit_of_isNumber (c : Char) (h : GetCharType c = CharType.Number) :
    isdigit c = true := by
  unfold GetCharType at h
  split_ifs at h with h1 h2
  simp [isdigit, h2]

/-- A text that begins with a decimal digit is read by `stod`. -/
theorem stodBody_isSome_of_digit (c : Char) (rest : List Char) (hc : c ∈ decimalDigits) :
    (stodBody (c :: rest)).isSome = true := by
  have fc := decimalDigits_facts c hc
  have hp : ∃ fp r, mantissaParts isdigit (c :: rest) =
      (c :: List.takeWhile isdigit rest, fp, r) := by
    unfold mantissaParts
    rw [List.takeWhile_cons_of_pos fc.1]
    split <;> exact ⟨_, _, rfl⟩
  have hm : (mantissaValue isdigit 10 10 'e' (c :: rest)).isSome = true := by
    obtain ⟨fp, r, hp⟩ := hp
    unfold mantissaValue
    rw [hp]
    simp
  unfold stodBody
  split_ifs
  · rfl
  · rfl
  · simp only
    split
    · rfl
    · simpa using hm

theorem stod_isSome_of_digit (c : Char) (rest : List Char) (hc : c ∈ decimalDigits) :
    (stod (String.mk (c :: rest))).isSome = true := by
  have fc := decimalDigits_facts c hc
  have hsp : List.dropWhile isspace (c :: rest) = c :: rest := by
    simp [List.dropWhile_cons, fc.2.1]
  unfold stod
  simp only [hsp]
  split
  · rename_i cs heq
    injection heq with h1 _
    exact absurd h1 fc.2.2.1
  · rename_i cs heq
    injection heq with h1 _
    exact absurd h1 fc.2.2.2.1
  · exact stodBody_isSome_of_digit c rest hc

theorem fixed6_head (q : ℚ) : ∃ c rest, c ∈ decimalDigits ∧ fixed6 q = c :: rest := by
  obtain ⟨hne, hall, _⟩ := toDigits_spec (scaled6 q / 10 ^ 6)
  unfold fixed6
  cases hl : Nat.toDigits 10 (scaled6 q / 10 ^ 6) with
  | nil => exact absurd hl hne
  | cons c l => exact ⟨c, _, hall c (hl ▸ List.mem_cons_self _ _), rfl⟩

/-- The text that `to_string` writes for a value is read back by `stod`. -/
theorem stod_to_string_isSome (v : real_t) : (stod (to_string v)).isSome = true := by
  cases v with
  | fin q =>
    unfold to_string
    by_cases hq : q < 0
    · obtain ⟨c, rest, hc, he⟩ := fixed6_head (-q)
      simp only [hq, if_true, he]
      have : stod (String.mk ('-' :: c :: rest)) = (stodBody (c :: rest)).map real_t.neg := rfl
      rw [this, Option.isSome_map']
      exact stodBody_isSome_of_digit c rest hc
    · obtain ⟨c, rest, hc, he⟩ := fixed6_head q
      simp only [hq, if_false, he]
      exact stod_isSome_of_digit c rest hc
  | negZero => with_unfolding_all rfl
  | inf s => cases s <;> with_unfolding_all rfl
  | nan => with_unfolding_all rfl

/-- A property of tokens that holds for each token that the three cases of
`Scan` can emit holds for every token of a scan. -/
theorem scanFrom_forall (Q : Token → Prop)
    (hnum : ∀ c rest, GetCharType c = CharType.Number → Q (scanNumber (c :: rest)).1)
    (hid : ∀ c rest, GetCharType c = CharType.Identifier → Q (scanIdentifier (c :: rest)).1)
    (hop : ∀ c acc t, _opToTokenType c = some t → Q ⟨String.mk [c], reclassify acc t⟩) :
    ∀ (n : Nat) (src : List Char) (acc r : List Token), src.length ≤ n →
      scanFrom src acc = .ok r → (∀ t ∈ acc, Q t) → ∀ t ∈ r, Q t := by
  intro n
  induction n with
  | zero =>
    intro src acc r h hr hacc
    have : src = [] := List.length_eq_zero.mp (Nat.le_zero.mp h)
    subst this
    rw [scanFrom_nil] at hr
    injection hr with hr
    exact hr ▸ hacc
  | succ n ih =>
    intro src acc r h hr hacc
    cases src with
    | nil =>
      rw [scanFrom_nil] at hr
      injection hr with hr
      exact hr ▸ hacc
    | cons c rest =>
      simp only [List.length_cons, Nat.add_le_add_iff_right] at h
      rw [scanFrom_cons] at hr
      have hext : ∀ (tok : Token), Q tok → ∀ t ∈ acc ++ [tok], Q t := by
        intro tok htok t ht
        rcases List.mem_append.mp ht with h1 | h1
        · exact hacc t h1
        · rw [List.mem_singleton] at h1
          exact h1 ▸ htok
      cases hc : GetCharType c with
      | Unknown =>
        simp only [hc] at hr
        exact ih rest acc r h hr hacc
      | Whitespace =>
        simp only [hc] at hr
        exact ih rest acc r h hr hacc
      | Number =>
        simp only [hc] at hr
        have hl := scanNumber_length c rest hc
        exact ih _ _ r (by omega) hr (hext _ (hnum c rest hc))
      | Identifier =>
        simp only [hc] at hr
        have hl := scanIdentifier_length c rest hc
        exact ih _ _ r (by omega) hr (hext _ (hid c rest hc))
      | OperatorAndPunctuator =>
        simp only [hc] at hr
        obtain ⟨t, ht⟩ := opToTokenType_isSome c hc
        simp only [ht] at hr
        exact ih rest _ r h hr (hext _ (hop c acc t ht))

theorem identifierToTokenType_isFunction (s : String) (t : TokenType)
    (h : _identifierToTokenType s = some t) : t.isFunction = true := by
  unfold _identifierToTokenType at h
  split_ifs at h <;> cases h <;> rfl

theorem opToTokenType_kinds (c : Char) (t : TokenType) (h : _opToTokenType c = some t) :
    t.isBinaryOperator = true ∨ t = TokenType.LeftParent ∨ t = TokenType.RightParent := by
  unfold _opToTokenType at h
  split_ifs at h <;> cases h <;> simp [TokenType.isBinaryOperator]

theorem reclassify_eq (acc : List Token) (t : TokenType) :
    reclassify acc t = t ∨ reclassify acc t = TokenType.Neg := by
  unfold reclassify
  split_ifs
  · split
    · split_ifs
      · exact Or.inr rfl
      · exact Or.inl rfl
    · exact Or.inr rfl
  · exact Or.inl rfl

/-- The text of every `NumberLiteral` token of a scan is read by `stod`. -/
theorem Scan_literal_readable (src : String) (ts : List Token) (h : Scan src = .ok ts) :
    ∀ t ∈ ts, t.Type_ = TokenType.NumberLiteral → (stod t.Data).isSome = true := by
  refine scanFrom_forall (fun t => t.Type_ = TokenType.NumberLiteral →
    (stod t.Data).isSome = true) ?_ ?_ ?_ src.data.length src.data [] ts (le_refl _) h (by simp)
  · intro c rest hc _
    have hd := isdigit_of_isNumber c hc
    have hm := mem_decimalDigits_of_isdigit c hd
    have hn : isNumber c = true := by simp [isNumber, hc]
    unfold scanNumber
    rw [List.takeWhile_cons_of_pos hn]
    split
    · exact stod_isSome_of_digit c _ hm
    · exact stod_isSome_of_digit c _ hm
  · intro c rest _ hty
    exfalso
    unfold scanIdentifier at hty
    simp only at hty
    split at hty
    · rename_i t ht
      have := identifierToTokenType_isFunction _ t ht
      rw [hty] at this
      exact absurd this (by decide)
    · split_ifs at hty
  · intro c acc t ht hty
    exfalso
    simp only at hty
    have hk := opToTokenType_kinds c t ht
    rcases reclassify_eq acc t with h | h
    · rw [h] at hty
      subst hty
      simp [TokenType.isBinaryOperator] at hk
    · rw [h] at hty
      exact absurd hty (by decide)

/-! ## The evaluator: general facts -/

theorem evaluateLoop_append (m : Libm) (vars : VariableMap) (x : real_t) :
    ∀ (pre rest s : List Token),
    evaluateLoop m vars x (pre ++ rest) s =
      match evaluateLoop m vars x pre s with
      | .error e => .error e
      | .ok s1 => evaluateLoop m vars x rest s1 := by
  intro pre
  induction pre with
  | nil => intro rest s; rfl
  | cons t pre ih =>
    intro rest s
    simp only [List.cons_append, evaluateLoop]
    cases evaluateStep m vars x s t with
    | error e => rfl
    | ok s1 => exact ih rest s1

/-- A named variable that the map does not bind stops the evaluation. -/
theorem evaluateStep_unbound (m : Libm) (vars : VariableMap) (x : real_t) (s : List Token)
    (t : Token) (ht : t.Type_ = TokenType.Variable) (hl : vars.lookup t.Data = none) :
    evaluateStep m vars x s t = .error Fault.outOfRange := by
  obtain ⟨d, ty⟩ := t
  simp only at ht hl
  subst ht
  simp [evaluateStep, hl]

/-- A step of the evaluation reads the map only through the binding of the
token, if the token is a bound named variable. -/
theorem evaluateStep_bind (m : Libm) (vars : VariableMap) (x : real_t) (s : List Token)
    (t : Token) (h : t.Type_ = TokenType.Variable → vars.lookup t.Data ≠ none) :
    evaluateStep m vars x s t = evaluateStep m [] x s (bindVariable vars t) := by
  obtain ⟨d, ty⟩ := t
  by_cases hv : ty = TokenType.Variable
  · subst hv
    cases hl : vars.lookup d with
    | none => exact absurd hl (h rfl)
    | some v => simp [evaluateStep, bindVariable, hl]
  · cases ty <;> first | exact absurd rfl hv | rfl

theorem evaluateLoop_bind (m : Libm) (vars : VariableMap) (x : real_t) :
    ∀ (l s : List Token),
    (∀ t ∈ l, t.Type_ = TokenType.Variable → vars.lookup t.Data ≠ none) →
    evaluateLoop m vars x l s = evaluateLoop m [] x (l.map (bindVariable vars)) s := by
  intro l
  induction l with
  | nil => intro s _; rfl
  | cons t l ih =>
    intro s h
    simp only [List.map_cons, evaluateLoop]
    rw [← evaluateStep_bind m vars x s t (h t (List.mem_cons_self _ _))]
    cases evaluateStep m vars x s t with
    | error e => rfl
    | ok s1 => exact ih s1 (fun u hu => h u (List.mem_cons_of_mem _ hu))

theorem GP_EVAL_FUNCTION_SWITCH_ne_nil (f : real_t → real_t) (s s1 : List Token)
    (h : GP_EVAL_FUNCTION_SWITCH f s = .ok s1) : s1 ≠ [] := by
  unfold GP_EVAL_FUNCTION_SWITCH at h
  split at h
  · simp at h
  · split_ifs at h
    split at h
    · simp at h
    · injection h with h
      subst h
      simp

theorem GP_EVAL_OPERATOR_SWITCH_ne_nil (f : real_t → real_t → real_t) (s s1 : List Token)
    (h : GP_EVAL_OPERATOR_SWITCH f s = .ok s1) : s1 ≠ [] := by
  unfold GP_EVAL_OPERATOR_SWITCH at h
  split at h
  · simp at h
  · simp at h
  · split_ifs at h
    split at h
    · simp at h
    · split at h
      · simp at h
      · injection h with h
        subst h
        simp

theorem evalMod_ne_nil (s s1 : List Token) (h : evalMod s = .ok s1) : s1 ≠ [] := by
  unfold evalMod at h
  split at h
  · simp at h
  · simp at h
  · split_ifs at h
    repeat' split at h
    all_goals first
      | (injection h with h; subst h; simp)
      | simp at h

theorem evalNeg_ne_nil (s s1 : List Token) (h : evalNeg s = .ok s1) : s1 ≠ [] := by
  unfold evalNeg at h
  split at h
  · simp at h
  · split_ifs at h
    injection h with h
    subst h
    simp

/-- A step of the evaluation that succeeds leaves a value on the stack. -/
theorem evaluateStep_ne_nil (m : Libm) (vars : VariableMap) (x : real_t) (s s1 : List Token)
    (t : Token) (h : evaluateStep m vars x s t = .ok s1) : s1 ≠ [] := by
  unfold evaluateStep at h
  split at h
  all_goals first
    | exact GP_EVAL_FUNCTION_SWITCH_ne_nil _ _ _ h
    | exact GP_EVAL_OPERATOR_SWITCH_ne_nil _ _ _ h
    | exact evalMod_ne_nil _ _ h
    | exact evalNeg_ne_nil _ _ h
    | (injection h with h; subst h; simp)
    | (split at h
       · simp at h
       · injection h with h; subst h; simp)
    | simp at h

theorem evaluateLoop_ne_nil (m : Libm) (vars : VariableMap) (x : real_t) :
    ∀ (l s s1 : List Token), evaluateLoop m vars x l s = .ok s1 → s ≠ [] → s1 ≠ [] := by
  intro l
  induction l with
  | nil =>
    intro s s1 h hs
    injection h with h
    exact h ▸ hs
  | cons t l ih =>
    intro s s1 h _
    simp only [evaluateLoop] at h
    cases hst : evaluateStep m vars x s t with
    | error e => simp [hst] at h
    | ok s2 =>
      simp only [hst] at h
      exact ih s2 s1 h (evaluateStep_ne_nil m vars x s s2 t hst)

theorem GP_EVAL_FUNCTION_SWITCH_numeric (f : real_t → real_t) (t1 : Token) (s : List Token)
    (h1 : isNumeric t1) :
    ∃ r, GP_EVAL_FUNCTION_SWITCH f (t1 :: s) = .ok (r :: s) ∧ isNumeric r := by
  obtain ⟨hty, hs⟩ := h1
  obtain ⟨v, hv⟩ := Option.isSome_iff_exists.mp hs
  exact ⟨⟨to_string (f v), TokenType.NumberLiteral⟩,
    by simp [GP_EVAL_FUNCTION_SWITCH, hty, hv], rfl, stod_to_string_isSome _⟩

theorem GP_EVAL_OPERATOR_SWITCH_numeric (f : real_t → real_t → real_t) (t2 t1 : Token)
    (s : List Token) (h1 : isNumeric t1) (h2 : isNumeric t2) :
    ∃ r, GP_EVAL_OPERATOR_SWITCH f (t2 :: t1 :: s) = .ok (r :: s) ∧ isNumeric r := by
  obtain ⟨hty1, hs1⟩ := h1
  obtain ⟨hty2, hs2⟩ := h2
  obtain ⟨a, ha⟩ := Option.isSome_iff_exists.mp hs1
  obtain ⟨b, hb⟩ := Option.isSome_iff_exists.mp hs2
  exact ⟨⟨to_string (f a b), TokenType.NumberLiteral⟩,
    by simp [GP_EVAL_OPERATOR_SWITCH, hty1, hty2, ha, hb], rfl, stod_to_string_isSome _⟩

/-- The `Mod` case on two numbers gives a number, unless the conversion to
`int64_t` or the remainder is undefined. -/
theorem evalMod_numeric (t2 t1 : Token) (s : List Token)
    (h1 : isNumeric t1) (h2 : isNumeric t2) :
    (∃ r, evalMod (t2 :: t1 :: s) = .ok (r :: s) ∧ isNumeric r) ∨
    evalMod (t2 :: t1 :: s) = .error Fault.integerDivide ∨
    evalMod (t2 :: t1 :: s) = .error Fault.undefinedCast := by
  obtain ⟨hty1, hs1⟩ := h1
  obtain ⟨hty2, hs2⟩ := h2
  obtain ⟨a, ha⟩ := Option.isSome_iff_exists.mp hs1
  obtain ⟨b, hb⟩ := Option.isSome_iff_exists.mp hs2
  simp only [evalMod, hty1, hty2, ha, hb, ne_eq, not_true_eq_false, if_false]
  cases hza : toInt64 a with
  | none => exact Or.inr (Or.inr rfl)
  | some za =>
    cases hzb : toInt64 b with
    | none => exact Or.inr (Or.inr rfl)
    | some zb =>
      simp only
      cases hm : int64Mod za zb with
      | error e =>
        have he : e = Fault.integerDivide := by
          unfold int64Mod at hm
          split_ifs at hm <;> cases hm <;> rfl
        subst he
        exact Or.inr (Or.inl rfl)
      | ok r =>
        refine Or.inl ⟨⟨to_string_int r, TokenType.NumberLiteral⟩, rfl, rfl, ?_⟩
        simp [stod_to_string_int]

theorem evaluateStep_operand (m : Libm) (vars : VariableMap) (x : real_t) (s : List Token)
    (t : Token) (ho : t.Type_.isOperand = true) (hr : isReadable vars t) :
    ∃ r, evaluateStep m vars x s t = .ok (r :: s) ∧ isNumeric r := by
  obtain ⟨d, ty⟩ := t
  obtain ⟨hr1, hr2⟩ := hr
  cases ty <;> simp [TokenType.isOperand] at ho
  · exact ⟨_, rfl, rfl, stod_to_string_isSome _⟩
  · obtain ⟨v, hv⟩ := Option.ne_none_iff_exists'.mp (hr2 rfl)
    simp only at hv
    exact ⟨⟨to_string v, TokenType.NumberLiteral⟩, by simp [evaluateStep, hv], rfl,
      stod_to_string_isSome _⟩
  · exact ⟨_, rfl, rfl, hr1 rfl⟩

theorem evaluateStep_function (m : Libm) (vars : VariableMap) (x : real_t) (s : List Token)
    (t t1 : Token) (hf : t.Type_.isFunction = true) (h1 : isNumeric t1) :
    ∃ r, evaluateStep m vars x (t1 :: s) t = .ok (r :: s) ∧ isNumeric r := by
  obtain ⟨d, ty⟩ := t
  cases ty <;> simp [TokenType.isFunction] at hf <;>
    exact GP_EVAL_FUNCTION_SWITCH_numeric _ t1 s h1

theorem evaluateStep_binary (m : Libm) (vars : VariableMap) (x : real_t) (s : List Token)
    (t t2 t1 : Token) (hb : t.Type_.isBinaryOperator = true)
    (h1 : isNumeric t1) (h2 : isNumeric t2) :
    (∃ r, evaluateStep m vars x (t2 :: t1 :: s) t = .ok (r :: s) ∧ isNumeric r) ∨
    (t.Type_ = TokenType.Mod ∧
      (evaluateStep m vars x (t2 :: t1 :: s) t = .error Fault.integerDivide ∨
       evaluateStep m vars x (t2 :: t1 :: s) t = .error Fault.undefinedCast)) := by
  obtain ⟨d, ty⟩ := t
  cases ty <;> simp [TokenType.isBinaryOperator] at hb
  case Mod =>
    rcases evalMod_numeric t2 t1 s h1 h2 with h | h | h
    · exact Or.inl h
    · exact Or.inr ⟨rfl, Or.inl h⟩
    · exact Or.inr ⟨rfl, Or.inr h⟩
  all_goals exact Or.inl (GP_EVAL_OPERATOR_SWITCH_numeric _ t2 t1 s h1 h2)

/-- The evaluation of a postfix sequence that the stack discipline accepts:
no pop of an empty stack, no assertion, no missing variable; the stack ends
with the number of values that `stackEffect` counts, unless a `%` stops the
evaluation. -/
theorem evaluateLoop_stackEffect (m : Libm) (vars : VariableMap) (x : real_t) :
    ∀ (p : List Token) (d k : Nat) (s : List Token),
    stackEffect d p = some k → s.length = d → (∀ t ∈ s, isNumeric t) →
    (∀ t ∈ p, isReadable vars t) →
    (∃ s1, evaluateLoop m vars x p s = .ok s1 ∧ s1.length = k ∧ ∀ t ∈ s1, isNumeric t) ∨
    ((∃ t ∈ p, t.Type_ = TokenType.Mod) ∧
      (evaluateLoop m vars x p s = .error Fault.integerDivide ∨
       evaluateLoop m vars x p s = .error Fault.undefinedCast)) := by
  intro p
  induction p with
  | nil =>
    intro d k s hse hlen hnum _
    simp only [stackEffect, Option.some.injEq] at hse
    exact Or.inl ⟨s, rfl, by omega, hnum⟩
  | cons t p ih =>
    intro d k s hse hlen hnum hread
    have hrt := hread t (List.mem_cons_self _ _)
    have hrp : ∀ u ∈ p, isReadable vars u := fun u hu => hread u (List.mem_cons_of_mem _ hu)
    have hnext : ∀ (r : Token) (s0 : List Token) (d1 : Nat),
        evaluateStep m vars x s t = .ok (r :: s0) → isNumeric r →
        (∀ u ∈ s0, isNumeric u) → (r :: s0).length = d1 → stackEffect d1 p = some k →
        (∃ s1, evaluateLoop m vars x (t :: p) s = .ok s1 ∧ s1.length = k ∧
          ∀ t ∈ s1, isNumeric t) ∨
        ((∃ u ∈ t :: p, u.Type_ = TokenType.Mod) ∧
          (evaluateLoop m vars x (t :: p) s = .error Fault.integerDivide ∨
           evaluateLoop m vars x (t :: p) s = .error Fault.undefinedCast)) := by
      intro r s0 d1 hstep hr hs0 hl hse1
      have hn1 : ∀ u ∈ r :: s0, isNumeric u := by
        intro u hu
        rcases List.mem_cons.mp hu with h | h
        · exact h ▸ hr
        · exact hs0 u h
      simp only [evaluateLoop, hstep]
      rcases ih d1 k (r :: s0) hse1 hl hn1 hrp with h | ⟨⟨u, hu, hm⟩, h⟩
      · exact Or.inl h
      · exact Or.inr ⟨⟨u, List.mem_cons_of_mem _ hu, hm⟩, h⟩
    simp only [stackEffect] at hse
    by_cases h1 : t.Type_.isOperand = true
    · rw [if_pos h1] at hse
      obtain ⟨r, hstep, hr⟩ := evaluateStep_operand m vars x s t h1 hrt
      exact hnext r s (d + 1) hstep hr hnum (by simp [hlen]) hse
    · rw [if_neg h1] at hse
      by_cases h2 : t.Type_.isFunction = true
      · rw [if_pos h2] at hse
        by_cases hd : 1 ≤ d
        · rw [if_pos hd] at hse
          cases s with
          | nil => simp at hlen; omega
          | cons t1 s0 =>
            obtain ⟨r, hstep, hr⟩ := evaluateStep_function m vars x s0 t t1 h2
              (hnum t1 (List.mem_cons_self _ _))
            exact hnext r s0 d hstep hr (fun u hu => hnum u (List.mem_cons_of_mem _ hu))
              (by simpa using hlen) hse
        · rw [if_neg hd] at hse
          exact absurd hse (by simp)
      · rw [if_neg h2] at hse
        by_cases h3 : t.Type_.isBinaryOperator = true
        · rw [if_pos h3] at hse
          by_cases hd : 2 ≤ d
          · rw [if_pos hd] at hse
            match s, hlen, hnum with
            | [], hlen, _ => simp at hlen; omega
            | [_], hlen, _ => simp at hlen; omega
            | t2 :: t1 :: s0, hlen, hnum =>
              have hn2 := hnum t2 (List.mem_cons_self _ _)
              have hn1 := hnum t1 (List.mem_cons_of_mem _ (List.mem_cons_self _ _))
              rcases evaluateStep_binary m vars x s0 t t2 t1 h3 hn1 hn2 with
                ⟨r, hstep, hr⟩ | ⟨hm, herr⟩
              · exact hnext r s0 (d - 1) hstep hr
                  (fun u hu => hnum u (List.mem_cons_of_mem _ (List.mem_cons_of_mem _ hu)))
                  (by simp at hlen ⊢; omega) hse
              · refine Or.inr ⟨⟨t, List.mem_cons_self _ _, hm⟩, ?_⟩
                simp only [evaluateLoop]
                rcases herr with h | h
                · exact Or.inl (by rw [h])
                · exact Or.inr (by rw [h])
          · rw [if_neg hd] at hse
            exact absurd hse (by simp)
        · rw [if_neg h3] at hse
          exact absurd hse (by simp)

/-- A well-formed expression inside a longer token sequence: after it the
grammar expects an operator.  Inside `n` open parentheses the expression must
hold no `%`. -/
theorem wellFormedFrom_append : ∀ (e : List Token) (st : Expect) (k n : Nat)
    (rest : List Token), wellFormedFrom st k e = true →
    (n = 0 ∨ ∀ t ∈ e, t.Type_ ≠ TokenType.Mod) →
    wellFormedFrom st (k + n) (e ++ rest) = wellFormedFrom Expect.operator n rest := by
  intro e
  induction e with
  | nil =>
    intro st k n rest h _
    have hst : st = Expect.operator ∧ k = 0 := by
      cases st <;> cases k <;> simp [wellFormedFrom] at h ⊢
    obtain ⟨h1, h2⟩ := hst
    subst h1 h2
    simp
  | cons t e ih =>
    intro st k n rest h hm
    have hm1 : n = 0 ∨ ∀ u ∈ e, u.Type_ ≠ TokenType.Mod := by
      rcases hm with hm | hm
      · exact Or.inl hm
      · exact Or.inr (fun u hu => hm u (List.mem_cons_of_mem _ hu))
    cases st with
    | operand =>
      simp only [wellFormedFrom, List.cons_append] at h ⊢
      by_cases h1 : t.Type_.isOperand = true
      · rw [if_pos h1] at h ⊢
        exact ih _ k n rest h hm1
      · rw [if_neg h1] at h ⊢
        by_cases h2 : t.Type_ = TokenType.LeftParent
        · rw [if_pos h2] at h ⊢
          have := ih _ (k + 1) n rest h hm1
          rw [Nat.add_right_comm] at this
          exact this
        · rw [if_neg h2] at h ⊢
          by_cases h3 : t.Type_.isFunction = true
          · rw [if_pos h3] at h ⊢
            exact ih _ k n rest h hm1
          · rw [if_neg h3] at h
            exact absurd h (by simp)
    | leftParent =>
      simp only [wellFormedFrom, List.cons_append] at h ⊢
      by_cases h2 : t.Type_ = TokenType.LeftParent
      · rw [if_pos h2] at h ⊢
        have := ih _ (k + 1) n rest h hm1
        rw [Nat.add_right_comm] at this
        exact this
      · rw [if_neg h2] at h
        exact absurd h (by simp)
    | operator =>
      rw [wellFormedFrom_operator] at h
      rw [List.cons_append, wellFormedFrom_operator]
      by_cases h1 : t.Type_ = TokenType.RightParent
      · rw [if_pos h1] at h ⊢
        cases k with
        | zero => exact absurd h (by simp)
        | succ j =>
          simp only at h
          have := ih _ j n rest h hm1
          rw [Nat.add_right_comm]
          exact this
      · rw [if_neg h1] at h ⊢
        by_cases h2 : t.Type_ = TokenType.Mod
        · rw [if_pos h2] at h ⊢
          have hn : n = 0 := by
            rcases hm with hm | hm
            · exact hm
            · exact absurd h2 (hm t (List.mem_cons_self _ _))
          by_cases h3 : k = 0
          · rw [if_pos h3] at h
            rw [if_pos (by omega)]
            exact ih _ k n rest h hm1
          · rw [if_neg h3] at h
            exact absurd h (by simp)
        · rw [if_neg h2] at h ⊢
          by_cases h3 : t.Type_.isBinaryOperator = true
          · rw [if_pos h3] at h ⊢
            exact ih _ k n rest h hm1
          · rw [if_neg h3] at h
            exact absurd h (by simp)

/-- The well-formed token sequences are closed under the productions of the
grammar: an operand; an expression between parentheses; a function applied to
an expression between parentheses; two expressions joined by a binary
operator.  Between parentheses the expression holds no `%`. -/
theorem wellFormed_grammar :
    (∀ t : Token, t.Type_.isOperand = true → wellFormed [t] = true) ∧
    (∀ (lp rp : Token) (e : List Token), lp.Type_ = TokenType.LeftParent →
      rp.Type_ = TokenType.RightParent → wellFormed e = true →
      (∀ t ∈ e, t.Type_ ≠ TokenType.Mod) → wellFormed (lp :: e ++ [rp]) = true) ∧
    (∀ (f lp rp : Token) (e : List Token), f.Type_.isFunction = true →
      lp.Type_ = TokenType.LeftParent → rp.Type_ = TokenType.RightParent →
      wellFormed e = true → (∀ t ∈ e, t.Type_ ≠ TokenType.Mod) →
      wellFormed (f :: lp :: e ++ [rp]) = true) ∧
    (∀ (op : Token) (e1 e2 : List Token), op.Type_.isBinaryOperator = true →
      wellFormed e1 = true → wellFormed e2 = true → wellFormed (e1 ++ op :: e2) = true) := by
  have hclose : ∀ (lp rp : Token) (e : List Token), lp.Type_ = TokenType.LeftParent →
      rp.Type_ = TokenType.RightParent → wellFormed e = true →
      (∀ t ∈ e, t.Type_ ≠ TokenType.Mod) →
      wellFormedFrom Expect.operand 1 (e ++ [rp]) = true := by
    intro lp rp e _ hr he hm
    have := wellFormedFrom_append e Expect.operand 0 1 [rp] he (Or.inr hm)
    rw [Nat.zero_add] at this
    rw [this, wellFormedFrom_operator, if_pos hr]
    rfl
  refine ⟨?_, ?_, ?_, ?_⟩
  · intro t ht
    simp [wellFormed, wellFormedFrom, ht]
  · intro lp rp e hl hr he hm
    have hno : lp.Type_.isOperand = false := by rw [hl]; rfl
    simp only [wellFormed, wellFormedFrom, List.cons_append, hno, hl, if_true, if_false,
      Bool.false_eq_true]
    exact hclose lp rp e hl hr he hm
  · intro f lp rp e hf hl hr he hm
    have hk := isOperation_kinds f (Or.inr hf)
    simp only [wellFormed, wellFormedFrom, List.cons_append, hk.1, hk.2.1, hf, hl, if_true,
      if_false, Bool.false_eq_true]
    exact hclose lp rp e hl hr he hm
  · intro op e1 e2 hb h1 h2
    have hk := isOperation_kinds op (Or.inl hb)
    have := wellFormedFrom_append e1 Expect.operand 0 0 (op :: e2) h1 (Or.inl rfl)
    rw [Nat.add_zero] at this
    rw [wellFormed, this, wellFormedFrom_operator, if_neg hk.2.2.1]
    by_cases hm : op.Type_ = TokenType.Mod
    · rw [if_pos hm, if_pos rfl]
      exact h2
    · rw [if_neg hm, if_pos hb]
      exact h2

/-- The grammar on examples: expressions that are well-formed, and expressions
that are not (an operator without operand, an unbalanced parenthesis, a
function without parenthesis, the empty expression), or that the grammar
leaves out (a unary minus, a `%` inside parentheses, a `-` after `x`). -/
theorem wellFormed_examples :
    (Scan "(x + 1) * sin(2 ^ a) / 3.5 - 4 % 2").map wellFormed = .ok true ∧
    (Scan "abs((x))").map wellFormed = .ok true ∧
    (Scan "1 +").map wellFormed = .ok false ∧
    (Scan "* 2").map wellFormed = .ok false ∧
    (Scan "(1").map wellFormed = .ok false ∧
    (Scan "1)").map wellFormed = .ok false ∧
    (Scan "2 x").map wellFormed = .ok false ∧
    (Scan "sin 1").map wellFormed = .ok false ∧
    (Scan "").map wellFormed = .ok false ∧
    (Scan "-x").map wellFormed = .ok false ∧
    (Scan "(1 % 2)").map wellFormed = .ok false ∧
    (Scan "x - 1").map wellFormed = .ok false := by
  decide

/-- The expression `x - 1` is scanned as `[InputX, Neg, NumberLiteral 1]` and
parsed as `[x, 1, Neg]`; its evaluation ends with two values on the stack, the
result being `-1` whatever `x` is.  The parse of `(1 % 2)` pops an empty stack. -/
theorem x_minus_one_leaves_two_values (m : Libm) (vars : VariableMap) (x : real_t) :
    Scan ("x - 1" ++ " ") = .ok [⟨"x", TokenType.InputX⟩, ⟨"-", TokenType.Neg⟩,
      ⟨"1", TokenType.NumberLiteral⟩] ∧
    parse [⟨"x", TokenType.InputX⟩, ⟨"-", TokenType.Neg⟩, ⟨"1", TokenType.NumberLiteral⟩] =
      .ok [⟨"x", TokenType.InputX⟩, ⟨"1", TokenType.NumberLiteral⟩, ⟨"-", TokenType.Neg⟩] ∧
    evaluateLoop m vars x
        [⟨"x", TokenType.InputX⟩, ⟨"1", TokenType.NumberLiteral⟩, ⟨"-", TokenType.Neg⟩] [] =
      .ok [⟨"-1", TokenType.NumberLiteral⟩, ⟨to_string x, TokenType.NumberLiteral⟩] ∧
    evaluateExpression m vars "x - 1" x = .ok (real_t.fin (-1)) ∧
    (Scan ("(1 % 2)" ++ " ") >>= parse) = .error Fault.emptyStack := by
  have h1 : Scan ("x - 1" ++ " ") = .ok [⟨"x", TokenType.InputX⟩, ⟨"-", TokenType.Neg⟩,
      ⟨"1", TokenType.NumberLiteral⟩] := by decide
  have h2 : parse [⟨"x", TokenType.InputX⟩, ⟨"-", TokenType.Neg⟩,
      ⟨"1", TokenType.NumberLiteral⟩] =
      .ok [⟨"x", TokenType.InputX⟩, ⟨"1", TokenType.NumberLiteral⟩, ⟨"-", TokenType.Neg⟩] := by
    decide
  have h3 : evaluateLoop m vars x
        [⟨"x", TokenType.InputX⟩, ⟨"1", TokenType.NumberLiteral⟩, ⟨"-", TokenType.Neg⟩] [] =
      .ok [⟨"-1", TokenType.NumberLiteral⟩, ⟨to_string x, TokenType.NumberLiteral⟩] := rfl
  have h4 : stod "-1" = some (real_t.fin (-1)) := by decide!
  refine ⟨h1, h2, h3, ?_, by decide⟩
  simp only [evaluateExpression, h1, h2, evaluate, h3, evaluateResult, h4]

/-! ## The sampler: general facts -/

theorem coordinates_succ (b s : ℚ) (n : Nat) :
    coordinates b s (n + 1) = real_t.fin b :: coordinates (b + s) s n := by
  unfold coordinates
  rw [List.range_succ_eq_map, List.map_cons, List.map_map]
  congr 1
  · simp
  · apply List.map_congr_left
    intro k _
    simp only [Function.comp, Nat.succ_eq_add_one, Nat.cast_add, Nat.cast_one]
    congr 1
    ring

/-- The loop of `exec` from the coordinate `x`, when exactly the first `n`
coordinates `x + k * s` satisfy the loop condition: it takes the samples at
these coordinates, with any budget of at least `n` steps. -/
theorem execLoop_samples (m : Libm) (vars : VariableMap) (p : List Token) (e s : ℚ)
    (up : Bool) : ∀ (n fuel : Nat) (x : ℚ) (acc : List vec2),
    (∀ k : Nat, k < n ↔
      (if up then real_t.le (real_t.fin (x + k * s)) (real_t.fin e)
       else real_t.le (real_t.fin e) (real_t.fin (x + k * s))) = true) →
    n ≤ fuel →
    execLoop m vars p (real_t.fin e) (real_t.fin s) up fuel (real_t.fin x) acc =
      match sampleAll m vars p (coordinates x s n) with
      | .error err => .error err
      | .ok r => .ok (acc ++ r) := by
  intro n
  induction n with
  | zero =>
    intro fuel x acc h _
    have h0 := (h 0).not.mp (by omega)
    simp only [Nat.cast_zero, zero_mul, add_zero] at h0
    unfold execLoop
    rw [if_neg h0]
    simp [coordinates, sampleAll]
  | succ n ih =>
    intro fuel x acc h hf
    have h0 := (h 0).mp (by omega)
    simp only [Nat.cast_zero, zero_mul, add_zero] at h0
    have hnext : ∀ k : Nat, k < n ↔
        (if up then real_t.le (real_t.fin (x + s + k * s)) (real_t.fin e)
         else real_t.le (real_t.fin e) (real_t.fin (x + s + k * s))) = true := by
      intro k
      have hk := h (k + 1)
      have e1 : x + ((k + 1 : Nat) : ℚ) * s = x + s + k * s := by
        push_cast
        ring
      rw [e1] at hk
      constructor
      · intro hlt
        exact hk.mp (by omega)
      · intro hc
        have := hk.mpr hc
        omega
    cases fuel with
    | zero => omega
    | succ fuel =>
      unfold execLoop
      rw [if_pos h0, coordinates_succ]
      simp only [sampleAll]
      cases hev : evaluate m vars p (real_t.fin x) with
      | error err => rfl
      | ok y =>
        simp only
        have hadd : real_t.add (real_t.fin x) (real_t.fin s) = real_t.fin (x + s) := rfl
        rw [hadd, ih fuel (x + s) (acc ++ [vec2.mk (real_t.fin x) y]) hnext (by omega)]
        cases sampleAll m vars p (coordinates (x + s) s n) with
        | error err => rfl
        | ok r => simp

/-- For a positive step the coordinates that are at most `e` are the first `n`
ones, for some `n`. -/
theorem count_up (b e s : ℚ) (hs : 0 < s) : ∃ n : Nat, ∀ k : Nat, k < n ↔ b + k * s ≤ e := by
  by_cases hbe : b ≤ e
  · obtain ⟨N, hN⟩ := exists_nat_gt ((e - b) / s)
    have hex : ∃ n : Nat, ¬ (b + n * s ≤ e) := by
      refine ⟨N, ?_⟩
      rw [div_lt_iff₀ hs] at hN
      intro h
      linarith
    classical
    refine ⟨Nat.find hex, ?_⟩
    intro k
    constructor
    · intro hk
      have := Nat.find_min hex hk
      exact not_not.mp this
    · intro hk
      by_contra hge
      have hge1 : Nat.find hex ≤ k := by omega
      have hspec := Nat.find_spec hex
      apply hspec
      have : (Nat.find hex : ℚ) ≤ k := by exact_mod_cast hge1
      have : (Nat.find hex : ℚ) * s ≤ k * s := mul_le_mul_of_nonneg_right this hs.le
      linarith
  · refine ⟨0, ?_⟩
    intro k
    constructor
    · intro h
      omega
    · intro h
      exfalso
      have : (0 : ℚ) ≤ k * s := mul_nonneg (by exact_mod_cast Nat.zero_le k) hs.le
      apply hbe
      linarith

/-- For a negative step the coordinates that are at least `e` are the first
`n` ones, for some `n`. -/
theorem count_down (b e s : ℚ) (hs : s < 0) : ∃ n : Nat, ∀ k : Nat, k < n ↔ e ≤ b + k * s := by
  obtain ⟨n, hn⟩ := count_up (-b) (-e) (-s) (by linarith)
  refine ⟨n, ?_⟩
  intro k
  rw [hn k]
  constructor <;> intro h <;> linarith

theorem sampleAll_ok (m : Libm) (vars : VariableMap) (p : List Token) :
    ∀ (xs : List real_t) (r : List vec2), sampleAll m vars p xs = .ok r →
    r.map (fun v => v.x) = xs ∧ ∀ v ∈ r, evaluate m vars p v.x = .ok v.y := by
  intro xs
  induction xs with
  | nil =>
    intro r h
    simp only [sampleAll, Except.ok.injEq] at h
    subst h
    simp
  | cons x xs ih =>
    intro r h
    simp only [sampleAll] at h
    cases hev : evaluate m vars p x with
    | error err => simp [hev] at h
    | ok y =>
      simp only [hev] at h
      cases hr : sampleAll m vars p xs with
      | error err => simp [hr] at h
      | ok r1 =>
        simp only [hr, Except.ok.injEq] at h
        subst h
        obtain ⟨h1, h2⟩ := ih r1 hr
        refine ⟨by simp [h1], ?_⟩
        intro v hv
        rcases List.mem_cons.mp hv with h3 | h3
        · subst h3
          exact hev
        · exact h2 v h3

theorem sampleAll_total (m : Libm) (vars : VariableMap) (p : List Token) :
    ∀ (xs : List real_t), (∀ x ∈ xs, ∃ y, evaluate m vars p x = .ok y) →
    ∃ r, sampleAll m vars p xs = .ok r ∧ r.length = xs.length := by
  intro xs
  induction xs with
  | nil => intro _; exact ⟨[], rfl, rfl⟩
  | cons x xs ih =>
    intro h
    obtain ⟨y, hy⟩ := h x (List.mem_cons_self _ _)
    obtain ⟨r, hr, hl⟩ := ih (fun u hu => h u (List.mem_cons_of_mem _ hu))
    exact ⟨⟨x, y⟩ :: r, by simp [sampleAll, hy, hr], by simp [hl]⟩

/-- The function `exec` on finite numbers: the direction of the loop is the
sign of the step, and the samples are those at the first `n` coordinates when
exactly these satisfy the loop condition. -/
theorem exec_samples (m : Libm) (vars : VariableMap) (_expr : String) (ts p : List Token)
    (b e s : ℚ) (n fuel : Nat)
    (hscan : Scan (_expr ++ " ") = .ok ts) (hparse : parse ts = .ok p)
    (hn : ∀ k : Nat, k < n ↔ (if 0 < s then b + k * s ≤ e else e ≤ b + k * s))
    (hf : n ≤ fuel) :
    exec m fuel _expr (real_t.fin b) (real_t.fin e) (real_t.fin s) vars =
      sampleAll m vars p (coordinates b s n) := by
  have hgt : real_t.gt (real_t.fin s) (real_t.fin 0) = decide (0 < s) := by
    by_cases h : 0 < s
    · simp [real_t.gt, real_t.le, h, not_le.mpr h]
    · simp [real_t.gt, real_t.le, h, not_lt.mp h]
  simp only [exec, hscan, hparse, hgt]
  have hc : ∀ k : Nat, k < n ↔
      (if decide (0 < s) = true then real_t.le (real_t.fin (b + k * s)) (real_t.fin e)
       else real_t.le (real_t.fin e) (real_t.fin (b + k * s))) = true := by
    intro k
    rw [hn k]
    by_cases hs : 0 < s <;> simp [hs, real_t.le]
  rw [execLoop_samples m vars p e s (decide (0 < s)) n fuel b [] hc hf]
  cases sampleAll m vars p (coordinates b s n) with
  | error err => rfl
  | ok r => simp

/-- The evaluation of the parse of a well-formed expression without `%`
returns a number at every coordinate. -/
theorem evaluate_wellFormed (m : Libm) (vars : VariableMap) (src : String)
    (ts p : List Token) (hscan : Scan src = .ok ts) (hparse : parse ts = .ok p)
    (hwf : wellFormed ts = true) (hmod : ∀ t ∈ ts, t.Type_ ≠ TokenType.Mod)
    (hvars : ∀ t ∈ ts, t.Type_ = TokenType.Variable → vars.lookup t.Data ≠ none)
    (x : real_t) : ∃ y, evaluate m vars p x = .ok y := by
  have hinv : parseInvariant Expect.operand 0 [] [] := ⟨by simp, rfl, rfl, by simp⟩
  obtain ⟨p1, hp1, hse⟩ := parseLoop_wellFormed ts Expect.operand 0 [] [] hwf hinv
  have hpp : p1 = p := by
    have : Except.ok p1 = (Except.ok p : Except Fault (List Token)) := by
      rw [← hp1, ← hparse]
      rfl
    injection this
  subst hpp
  have hmem : ∀ u ∈ p1, u ∈ ts := by
    intro u hu
    rcases parseLoop_mem ts [] [] p1 hp1 u hu with h | h | h
    · exact h
    · simp at h
    · simp at h
  have hread : ∀ u ∈ p1, isReadable vars u := fun u hu =>
    ⟨Scan_literal_readable _ ts hscan u (hmem u hu), hvars u (hmem u hu)⟩
  rcases evaluateLoop_stackEffect m vars x p1 0 1 [] hse rfl (by simp) hread with
    ⟨s1, hs1, hlen, hnum⟩ | ⟨⟨u, hu, hm⟩, _⟩
  · match s1, hlen, hnum, hs1 with
    | [top], _, hnum, hs1 =>
      obtain ⟨v, hv⟩ := Option.isSome_iff_exists.mp (hnum top (List.mem_cons_self _ _)).2
      exact ⟨v, by simp only [evaluate, hs1, evaluateResult, hv]⟩
  · exact absurd hm (hmod u (hmem u hu))

/-- With a zero step and the loop condition true at the start, the loop of
`exec` exhausts every budget: it does not terminate. -/
theorem execLoop_zero_step (m : Libm) (vars : VariableMap) (p : List Token) (b e : ℚ)
    (y : real_t) (hle : e ≤ b) (hev : evaluate m vars p (real_t.fin b) = .ok y) :
    ∀ (fuel : Nat) (acc : List vec2),
    execLoop m vars p (real_t.fin e) (real_t.fin 0) false fuel (real_t.fin b) acc =
      .error Fault.fuel := by
  have hc : (if false = true then real_t.le (real_t.fin b) (real_t.fin e)
      else real_t.le (real_t.fin e) (real_t.fin b)) = true := by
    simp [real_t.le, hle]
  have hadd : real_t.add (real_t.fin b) (real_t.fin 0) = real_t.fin b := by
    simp [real_t.add]
  intro fuel
  induction fuel with
  | zero =>
    intro acc
    unfold execLoop
    rw [if_pos hc]
  | succ fuel ih =>
    intro acc
    unfold execLoop
    rw [if_pos hc]
    simp only [hev, hadd]
    exact ih _

/-! ## The scanner: texts and kinds of the tokens -/

/-- The loop of `Scan` fails no assertion, whatever its budget. -/
theorem ScanLoop_no_assertion : ∀ (fuel : Nat) (src : List Char) (acc : List Token),
    ScanLoop fuel src acc ≠ .error Fault.assertion := by
  intro fuel
  induction fuel with
  | zero =>
    intro src acc
    cases src <;> simp [ScanLoop]
  | succ fuel ih =>
    intro src acc
    cases src with
    | nil => simp [ScanLoop]
    | cons c rest =>
      simp only [ScanLoop]
      cases hc : GetCharType c with
      | Unknown => exact ih _ _
      | Whitespace => exact ih _ _
      | Number => exact ih _ _
      | Identifier => exact ih _ _
      | OperatorAndPunctuator =>
        obtain ⟨t, ht⟩ := opToTokenType_isSome c hc
        simp only [ht]
        exact ih _ _

theorem GetCharType_of_isKept (c : Char) :
    isKept c = true ↔
      (GetCharType c = CharType.Number ∨ GetCharType c = CharType.Identifier ∨
        GetCharType c = CharType.OperatorAndPunctuator) := by
  by_cases hw : ' ' = c ∨ '\t' = c ∨ '\r' = c ∨ '\n' = c
  · rcases hw with h | h | h | h <;> subst h <;> decide
  · unfold GetCharType isKept
    rw [if_neg hw]
    by_cases h1 : '0' ≤ c ∧ c ≤ '9'
    · simp [h1]
    · rw [if_neg h1]
      by_cases h2 : ('a' ≤ c ∧ c ≤ 'z') ∨ ('A' ≤ c ∧ c ≤ 'Z')
      · rw [if_pos h2]
        rcases h2 with h2 | h2 <;> simp [h2]
      · rw [if_neg h2]
        by_cases h3 : c = '+' ∨ c = '-' ∨ c = '*' ∨ c = '/' ∨ c = '%' ∨ c = '^' ∨
            c = '(' ∨ c = ')'
        · rw [if_pos h3]
          simp only [decide_eq_true_eq, or_true, iff_true]
          exact Or.inr (Or.inr (Or.inr h3))
        · rw [if_neg h3]
          simp only [decide_eq_true_eq, reduceCtorEq, or_self, iff_false]
          intro h
          rcases h with h | h | h | h
          · exact h1 h
          · exact h2 (Or.inl h)
          · exact h2 (Or.inr h)
          · exact h3 h

theorem tokenText_append (l1 l2 : List Token) :
    tokenText (l1 ++ l2) = tokenText l1 ++ tokenText l2 := by
  induction l1 with
  | nil => rfl
  | cons t l1 ih => simp [tokenText, ih]

theorem isNumber_facts (c : Char) (h : isNumber c = true) :
    isKept c = true ∧ c ≠ '.' := by
  have hc : GetCharType c = CharType.Number := by simpa [isNumber] using h
  refine ⟨(GetCharType_of_isKept c).mpr (Or.inl hc), ?_⟩
  intro hd
  subst hd
  exact absurd hc (by decide)

theorem isIdentifier_facts (c : Char) (h : isIdentifier c = true) :
    isKept c = true ∧ c ≠ '.' := by
  have hc : GetCharType c = CharType.Identifier := by simpa [isIdentifier] using h
  refine ⟨(GetCharType_of_isKept c).mpr (Or.inr (Or.inl hc)), ?_⟩
  intro hd
  subst hd
  exact absurd hc (by decide)

theorem filter_takeWhile_self (p q : Char → Bool) (l : List Char)
    (h : ∀ c, p c = true → q c = true) :
    (l.takeWhile p).filter q = l.takeWhile p :=
  List.filter_eq_self.mpr (fun c hc => h c (List.mem_takeWhile_imp hc))

theorem filter_split (p q : Char → Bool) (l : List Char)
    (h : ∀ c, p c = true → q c = true) :
    l.filter q = l.takeWhile p ++ (l.dropWhile p).filter q := by
  conv_lhs => rw [← List.takeWhile_append_dropWhile p l]
  rw [List.filter_append, filter_takeWhile_self p q l h]

/-- The text of a number token without its point, followed by the kept
characters of the rest, is the kept characters of the source. -/
theorem scanNumber_text (src : List Char) :
    (scanNumber src).1.Data.data.filter notPoint ++
        (scanNumber src).2.filter isKept = src.filter isKept := by
  have hk : ∀ c, isNumber c = true → isKept c = true := fun c h => (isNumber_facts c h).1
  have hd : ∀ c, isNumber c = true → notPoint c = true :=
    fun c h => by simpa [notPoint] using (isNumber_facts c h).2
  rw [filter_split isNumber isKept src hk]
  unfold scanNumber
  split
  · rename_i r2 heq
    rw [heq]
    have hdot : isKept '.' = false := by decide
    have hdot2 : notPoint '.' = false := by decide
    simp only [List.filter_append, List.filter_cons, hdot, hdot2, Bool.false_eq_true, if_false,
      filter_takeWhile_self isNumber _ _ hd]
    rw [filter_split isNumber isKept r2 hk]
    simp
  · simp only [filter_takeWhile_self isNumber _ _ hd]

theorem scanIdentifier_text (src : List Char) :
    (scanIdentifier src).1.Data.data.filter notPoint ++
        (scanIdentifier src).2.filter isKept = src.filter isKept := by
  have hk : ∀ c, isIdentifier c = true → isKept c = true :=
    fun c h => (isIdentifier_facts c h).1
  have hd : ∀ c, isIdentifier c = true → notPoint c = true :=
    fun c h => by simpa [notPoint] using (isIdentifier_facts c h).2
  rw [filter_split isIdentifier isKept src hk]
  unfold scanIdentifier
  simp only [filter_takeWhile_self isIdentifier _ _ hd]

/-- The texts of the tokens of a scan, without the points, are the kept
characters of the source, in their order. -/
theorem scanFrom_text : ∀ (n : Nat) (src : List Char) (acc r : List Token),
    src.length ≤ n → scanFrom src acc = .ok r →
    (tokenText r).filter notPoint =
      (tokenText acc).filter notPoint ++ src.filter isKept := by
  intro n
  induction n with
  | zero =>
    intro src acc r h hr
    have : src = [] := List.length_eq_zero.mp (Nat.le_zero.mp h)
    subst this
    rw [scanFrom_nil] at hr
    injection hr with hr
    subst hr
    simp
  | succ n ih =>
    intro src acc r h hr
    cases src with
    | nil =>
      rw [scanFrom_nil] at hr
      injection hr with hr
      subst hr
      simp
    | cons c rest =>
      simp only [List.length_cons, Nat.add_le_add_iff_right] at h
      rw [scanFrom_cons] at hr
      have hkept := GetCharType_of_isKept c
      cases hc : GetCharType c with
      | Unknown =>
        simp only [hc] at hr
        have hk : isKept c = false := by
          cases hb : isKept c
          · rfl
          · have := hkept.mp hb
            simp [hc] at this
        rw [ih rest acc r h hr, List.filter_cons, hk]
        simp
      | Whitespace =>
        simp only [hc] at hr
        have hk : isKept c = false := by
          cases hb : isKept c
          · rfl
          · have := hkept.mp hb
            simp [hc] at this
        rw [ih rest acc r h hr, List.filter_cons, hk]
        simp
      | Number =>
        simp only [hc] at hr
        have hl := scanNumber_length c rest hc
        rw [ih _ _ r (by omega) hr, tokenText_append, List.filter_append, List.append_assoc]
        congr 1
        have := scanNumber_text (c :: rest)
        simpa [tokenText] using this
      | Identifier =>
        simp only [hc] at hr
        have hl := scanIdentifier_length c rest hc
        rw [ih _ _ r (by omega) hr, tokenText_append, List.filter_append, List.append_assoc]
        congr 1
        have := scanIdentifier_text (c :: rest)
        simpa [tokenText] using this
      | OperatorAndPunctuator =>
        simp only [hc] at hr
        obtain ⟨t, ht⟩ := opToTokenType_isSome c hc
        simp only [ht] at hr
        have hk : isKept c = true := hkept.mpr (Or.inr (Or.inr hc))
        have hd : c ≠ '.' := by
          intro hd
          subst hd
          exact absurd hc (by decide)
        rw [ih rest _ r h hr, tokenText_append, List.filter_append, List.append_assoc]
        congr 1
        have hd2 : notPoint c = true := by simpa [notPoint] using hd
        simp [tokenText, List.filter_cons, hk, hd2]

/-- A source without kept characters gives no token. -/
theorem scanFrom_not_kept : ∀ (src : List Char) (acc : List Token),
    (∀ c ∈ src, isKept c = false) → scanFrom src acc = .ok acc := by
  intro src
  induction src with
  | nil => intro acc _; exact scanFrom_nil acc
  | cons c rest ih =>
    intro acc h
    have hk := h c (List.mem_cons_self _ _)
    have hkept := GetCharType_of_isKept c
    rw [scanFrom_cons]
    cases hc : GetCharType c with
    | Unknown => exact ih acc (fun u hu => h u (List.mem_cons_of_mem _ hu))
    | Whitespace => exact ih acc (fun u hu => h u (List.mem_cons_of_mem _ hu))
    | Number =>
      have := hkept.mpr (Or.inl hc)
      rw [hk] at this
      exact absurd this (by simp)
    | Identifier =>
      have := hkept.mpr (Or.inr (Or.inl hc))
      rw [hk] at this
      exact absurd this (by simp)
    | OperatorAndPunctuator =>
      have := hkept.mpr (Or.inr (Or.inr hc))
      rw [hk] at this
      exact absurd this (by simp)

theorem isNumber_of_digit (c : Char) (h : '0' ≤ c ∧ c ≤ '9') : isNumber c = true := by
  have hm := mem_decimalDigits_of_isdigit c (by simpa [isdigit] using h)
  simp only [decimalDigits, List.mem_cons, List.mem_singleton, List.not_mem_nil, or_false] at hm
  rcases hm with h | h | h | h | h | h | h | h | h | h <;> subst h <;> decide

theorem scanNumber_kind (src : List Char) :
    (scanNumber src).1.Type_ = TokenType.NumberLiteral := by
  unfold scanNumber
  split <;> rfl

theorem scanIdentifier_kind (src : List Char) :
    (scanIdentifier src).1.Type_.isFunction = true ∨
      (scanIdentifier src).1.Type_ = TokenType.InputX ∨
      (scanIdentifier src).1.Type_ = TokenType.Variable := by
  unfold scanIdentifier
  simp only
  split
  · rename_i t ht
    exact Or.inl (identifierToTokenType_isFunction _ t ht)
  · split_ifs
    · exact Or.inr (Or.inl rfl)
    · exact Or.inr (Or.inr rfl)

/-- No token of a scan has the kind `Unknown`. -/
theorem scanFrom_known (src : List Char) (ts : List Token) (h : scanFrom src [] = .ok ts) :
    ∀ t ∈ ts, t.Type_ ≠ TokenType.Unknown := by
  refine scanFrom_forall (fun t => t.Type_ ≠ TokenType.Unknown) ?_ ?_ ?_ src.length src [] ts
    (le_refl _) h (by simp)
  · intro c rest _
    simp only [scanNumber_kind]
    decide
  · intro c rest _ hu
    rcases scanIdentifier_kind (c :: rest) with h | h | h <;> rw [hu] at h <;>
      exact absurd h (by decide)
  · intro c acc t ht hu
    simp only at hu
    have hk := opToTokenType_kinds c t ht
    rcases reclassify_eq acc t with h | h
    · rw [h] at hu
      subst hu
      simp [TokenType.isBinaryOperator] at hk
    · rw [h] at hu
      exact absurd hu (by decide)

/-- The scan of a run of digits, a point and a run of digits that end the
source: one number token. -/
theorem scanFrom_number_point (d1 d2 : List Char) (acc : List Token) (hne : d1 ≠ [])
    (h1 : ∀ c ∈ d1, isNumber c = true) (h2 : ∀ c ∈ d2, isNumber c = true) :
    scanFrom (d1 ++ '.' :: d2) acc =
      .ok (acc ++ [⟨String.mk (d1 ++ '.' :: d2), TokenType.NumberLiteral⟩]) := by
  have hpt : isNumber '.' = false := by decide
  have hs : scanNumber (d1 ++ '.' :: d2) =
      (⟨String.mk (d1 ++ '.' :: d2), TokenType.NumberLiteral⟩, []) := by
    unfold scanNumber
    rw [List.dropWhile_append_of_pos h1, List.takeWhile_append_of_pos h1]
    simp only [List.dropWhile_cons, List.takeWhile_cons, hpt, Bool.false_eq_true, if_false,
      List.append_nil, List.takeWhile_eq_self_iff.mpr h2, List.dropWhile_eq_nil_iff.mpr h2]
  cases d1 with
  | nil => exact absurd rfl hne
  | cons c rest =>
    have hc : GetCharType c = CharType.Number := by
      simpa [isNumber] using h1 c (List.mem_cons_self _ _)
    rw [List.cons_append, scanFrom_cons, hc]
    rw [List.cons_append] at hs
    simp only [hs, scanFrom_nil]

/-- The scan of a run of digits that ends the source: one number token. -/
theorem scanFrom_number (d1 : List Char) (acc : List Token) (hne : d1 ≠ [])
    (h1 : ∀ c ∈ d1, isNumber c = true) :
    scanFrom d1 acc = .ok (acc ++ [⟨String.mk d1, TokenType.NumberLiteral⟩]) := by
  have hs : scanNumber d1 = (⟨String.mk d1, TokenType.NumberLiteral⟩, []) := by
    unfold scanNumber
    rw [List.dropWhile_eq_nil_iff.mpr h1, List.takeWhile_eq_self_iff.mpr h1]
  cases d1 with
  | nil => exact absurd rfl hne
  | cons c rest =>
    have hc : GetCharType c = CharType.Number := by
      simpa [isNumber] using h1 c (List.mem_cons_self _ _)
    rw [scanFrom_cons, hc]
    simp only [hs, scanFrom_nil]

/-- A division by a zero gives NaN or an infinity. -/
theorem div_by_zero (a b : real_t) (hb : b.isZero = true) :
    real_t.div a b = real_t.nan ∨ ∃ s, real_t.div a b = real_t.inf s := by
  cases b with
  | fin q =>
    have hq : q = 0 := by simpa [real_t.isZero] using hb
    subst hq
    cases a with
    | fin p =>
      by_cases hp : p = 0
      · exact Or.inl (by simp [real_t.div, hp])
      · exact Or.inr ⟨decide (p < 0), by simp [real_t.div, hp]⟩
    | negZero => exact Or.inl (by simp [real_t.div])
    | inf s => exact Or.inr ⟨_, rfl⟩
    | nan => exact Or.inl rfl
  | negZero =>
    cases a with
    | fin p =>
      by_cases hp : p = 0
      · exact Or.inl (by simp [real_t.div, real_t.isZero, hp])
      · exact Or.inr ⟨xor (real_t.fin p).signbit true, by simp [real_t.div, real_t.isZero, hp]⟩
    | negZero => exact Or.inl (by simp [real_t.div, real_t.isZero])
    | inf s => exact Or.inr ⟨_, rfl⟩
    | nan => exact Or.inl rfl
  | inf s => simp [real_t.isZero] at hb
  | nan => simp [real_t.isZero] at hb

theorem stod_to_string_special (v : real_t)
    (h : v = real_t.nan ∨ ∃ s, v = real_t.inf s) : stod (to_string v) = some v := by
  rcases h with h | ⟨s, h⟩
  · subst h
    with_unfolding_all rfl
  · subst h
    cases s <;> with_unfolding_all rfl

/-- The values that the conversion to `int64_t` truncates to zero: those
strictly between `-1` and `1`. -/
theorem toInt64_eq_zero (q : ℚ) : toInt64 (real_t.fin q) = some 0 ↔ (-1 < q ∧ q < 1) := by
  rw [toInt64_fin]
  constructor
  · rintro ⟨h, _, _⟩
    by_cases hq : 0 ≤ q
    · rw [if_pos hq] at h
      have := Int.floor_eq_zero_iff.mp h.symm
      exact ⟨by linarith, this.2⟩
    · rw [if_neg hq] at h
      have := Int.ceil_eq_zero_iff.mp h.symm
      exact ⟨this.1, by linarith [not_le.mp hq]⟩
  · rintro ⟨h1, h2⟩
    refine ⟨?_, by norm_num, by norm_num⟩
    by_cases hq : 0 ≤ q
    · rw [if_pos hq]
      exact (Int.floor_eq_zero_iff.mpr ⟨hq, h2⟩).symm
    · rw [if_neg hq]
      exact (Int.ceil_eq_zero_iff.mpr ⟨h1, (not_le.mp hq).le⟩).symm

/-! ## The parser: what the loops move -/

/-- The loop of the `default` case moves a prefix of the stack to the end of
the output, and nothing else. -/
theorem popHigher_split (t : Token) : ∀ (S P S1 P1 : List Token),
    popHigher t S P = .ok (S1, P1) → ∃ popped, S = popped ++ S1 ∧ P1 = P ++ popped := by
  intro S
  induction S with
  | nil =>
    intro P S1 P1 h
    simp only [popHigher, Except.ok.injEq, Prod.mk.injEq] at h
    obtain ⟨h1, h2⟩ := h
    subst h1 h2
    exact ⟨[], rfl, by simp⟩
  | cons top S ih =>
    intro P S1 P1 h
    simp only [popHigher] at h
    split_ifs at h with h1 h2
    · obtain ⟨popped, hS, hP⟩ := ih (P ++ [top]) S1 P1 h
      exact ⟨top :: popped, by rw [hS]; rfl, by rw [hP]; simp⟩
    · simp only [Except.ok.injEq, Prod.mk.injEq] at h
      obtain ⟨h3, h4⟩ := h
      subst h3 h4
      exact ⟨[], rfl, by simp⟩

/-- The loop of the `RightParent` case moves the tokens above the topmost left
parenthesis to the end of the output, and removes that parenthesis. -/
theorem popToLeftParent_split : ∀ (S P S1 P1 : List Token),
    popToLeftParent S P = .ok (S1, P1) →
    ∃ popped lp, S = popped ++ lp :: S1 ∧ lp.Type_ = TokenType.LeftParent ∧
      (∀ u ∈ popped, u.Type_ ≠ TokenType.LeftParent) ∧ P1 = P ++ popped := by
  intro S
  induction S with
  | nil => intro P S1 P1 h; simp [popToLeftParent] at h
  | cons top S ih =>
    intro P S1 P1 h
    simp only [popToLeftParent] at h
    split_ifs at h with h1
    · obtain ⟨popped, lp, hS, hlp, hpop, hP⟩ := ih (P ++ [top]) S1 P1 h
      refine ⟨top :: popped, lp, by rw [hS]; rfl, hlp, ?_, by rw [hP]; simp⟩
      intro u hu
      rcases List.mem_cons.mp hu with h2 | h2
      · rw [h2]; exact h1
      · exact hpop u h2
    · simp only [Except.ok.injEq, Prod.mk.injEq] at h
      obtain ⟨h3, h4⟩ := h
      subst h3 h4
      exact ⟨[], top, rfl, not_not.mp h1, by simp, by simp⟩

/-- What one step of `parse` does to the stack and the output, by the kind of
the token. -/
theorem parseStep_split (S P S1 P1 : List Token) (t : Token)
    (h : parseStep S P t = .ok (S1, P1)) :
    (t.Type_.isOperand = true ∧ S1 = S ∧ P1 = P ++ [t]) ∨
    (t.Type_ = TokenType.LeftParent ∧ S1 = t :: S ∧ P1 = P) ∨
    (t.Type_ = TokenType.RightParent ∧ ∃ popped lp, S = popped ++ lp :: S1 ∧
      lp.Type_ = TokenType.LeftParent ∧ (∀ u ∈ popped, u.Type_ ≠ TokenType.LeftParent) ∧
      P1 = P ++ popped) ∨
    (t.Type_.isOperand = false ∧ t.Type_ ≠ TokenType.LeftParent ∧
      t.Type_ ≠ TokenType.RightParent ∧
      ∃ popped S2, S = popped ++ S2 ∧ S1 = t :: S2 ∧ P1 = P ++ popped) := by
  unfold parseStep at h
  split at h
  case h_1 hty =>
    simp only [Except.ok.injEq, Prod.mk.injEq] at h
    exact Or.inl ⟨by rw [hty]; rfl, h.1.symm, h.2.symm⟩
  case h_2 hty =>
    simp only [Except.ok.injEq, Prod.mk.injEq] at h
    exact Or.inl ⟨by rw [hty]; rfl, h.1.symm, h.2.symm⟩
  case h_3 hty =>
    simp only [Except.ok.injEq, Prod.mk.injEq] at h
    exact Or.inl ⟨by rw [hty]; rfl, h.1.symm, h.2.symm⟩
  case h_4 hty =>
    simp only [Except.ok.injEq, Prod.mk.injEq] at h
    exact Or.inr (Or.inl ⟨hty, h.1.symm, h.2.symm⟩)
  case h_5 hty =>
    exact Or.inr (Or.inr (Or.inl ⟨hty, popToLeftParent_split S P S1 P1 h⟩))
  case h_6 hx hv hn hl hr =>
    split at h
    · simp at h
    · rename_i S2 P2 hpop
      simp only [Except.ok.injEq, Prod.mk.injEq] at h
      obtain ⟨popped, hS, hP⟩ := popHigher_split t S P S2 P2 hpop
      refine Or.inr (Or.inr (Or.inr ⟨?_, hl, hr, popped, S2, hS, h.1.symm, ?_⟩))
      · cases hty : t.Type_ <;> first | rfl | exact absurd hty hx | exact absurd hty hv | exact absurd hty hn
      · rw [← h.2, hP]

theorem filter_operand_nil (l : List Token) (h : ∀ u ∈ l, isOperandToken u = false) :
    l.filter isOperandToken = [] := by
  rw [List.filter_eq_nil_iff]
  intro a ha
  rw [h a ha]
  simp

/-- The invariant of the loop of `parse` for the tokens it keeps: whenever the
loop completes, the tokens of the result that are no parentheses are those of
the output, the stack and the remaining input, and the operands of the result
are those of the output followed by those of the remaining input.  The stack
holds no operand. -/
theorem parseLoop_perm : ∀ (ts S P p : List Token), parseLoop ts S P = .ok p →
    (∀ u ∈ S, isOperandToken u = false) →
    (p.filter notParenthesis).Perm ((P ++ S ++ ts).filter notParenthesis) ∧
    p.filter isOperandToken = (P ++ ts).filter isOperandToken := by
  intro ts
  induction ts with
  | nil =>
    intro S P p h hS
    simp only [parseLoop, Except.ok.injEq] at h
    subst h
    refine ⟨by simp, ?_⟩
    rw [List.filter_append, filter_operand_nil S hS]
    simp
  | cons t ts ih =>
    intro S P p h hS
    simp only [parseLoop] at h
    split at h
    · simp at h
    · rename_i S1 P1 hstep
      rcases parseStep_split S P S1 P1 t hstep with
        ⟨hty, h1, h2⟩ | ⟨hty, h1, h2⟩ | ⟨hty, popped, lp, h1, hlp, _, h2⟩ |
        ⟨hop, hl, hr, popped, S2, h1, h2, h3⟩
      · subst h1 h2
        obtain ⟨ih1, ih2⟩ := ih S1 (P ++ [t]) p h hS
        refine ⟨ih1.trans (List.Perm.filter _ ?_), by rw [ih2]; simp⟩
        rw [List.perm_iff_count]
        intro a
        simp only [List.count_append, List.count_cons, List.count_nil]
        omega
      · subst h1 h2
        have hnop : isOperandToken t = false := by
          simp [isOperandToken, hty, TokenType.isOperand]
        have hS1 : ∀ u ∈ t :: S, isOperandToken u = false := by
          intro u hu
          rcases List.mem_cons.mp hu with h3 | h3
          · rw [h3]; exact hnop
          · exact hS u h3
        obtain ⟨ih1, ih2⟩ := ih (t :: S) P1 p h hS1
        refine ⟨ih1.trans (List.Perm.filter _ ?_), ?_⟩
        · rw [List.perm_iff_count]
          intro a
          simp only [List.count_append, List.count_cons, List.count_nil]
          omega
        · rw [ih2]
          simp [List.filter_cons, hnop]
      · subst h1 h2
        have hnop : isOperandToken t = false := by
          simp [isOperandToken, hty, TokenType.isOperand]
        have hpt : notParenthesis t = false := by simp [notParenthesis, isParenthesis, hty]
        have hpl : notParenthesis lp = false := by simp [notParenthesis, isParenthesis, hlp]
        have hS1 : ∀ u ∈ S1, isOperandToken u = false := by
          intro u hu
          exact hS u (by simp [hu])
        have hpop : ∀ u ∈ popped, isOperandToken u = false := by
          intro u hu
          exact hS u (by simp [hu])
        obtain ⟨ih1, ih2⟩ := ih S1 (P ++ popped) p h hS1
        constructor
        · refine ih1.trans ?_
          simp [List.filter_cons, hpt, hpl]
        · rw [ih2]
          simp [List.filter_cons, hnop, filter_operand_nil popped hpop]
      · subst h1 h2 h3
        have hnop : isOperandToken t = false := hop
        have hS1 : ∀ u ∈ t :: S2, isOperandToken u = false := by
          intro u hu
          rcases List.mem_cons.mp hu with h3 | h3
          · rw [h3]; exact hnop
          · exact hS u (by simp [h3])
        have hpop : ∀ u ∈ popped, isOperandToken u = false := by
          intro u hu
          exact hS u (by simp [hu])
        obtain ⟨ih1, ih2⟩ := ih (t :: S2) (P ++ popped) p h hS1
        refine ⟨ih1.trans (List.Perm.filter _ ?_), ?_⟩
        · rw [List.perm_iff_count]
          intro a
          simp only [List.count_append, List.count_cons, List.count_nil]
          omega
        · rw [ih2]
          simp [List.filter_cons, hnop, filter_operand_nil popped hpop]

theorem parenCount_cons (t : Token) (l : List Token) :
    parenCount (t :: l) = parenCount l + (if t.Type_ = TokenType.LeftParent then 1 else 0) := by
  simp [parenCount, List.countP_cons]

/-- The invariant of the loop of `parse` for the parentheses: no right
parenthesis is on the stack or in the output, and as many left parentheses are
there as parentheses are open.  Whenever the loop completes on balanced
remaining tokens, the result holds no parenthesis. -/
theorem parseLoop_balanced : ∀ (ts S P p : List Token) (d : Nat),
    parseLoop ts S P = .ok p → balancedFrom d ts = true →
    parenCount S + parenCount P = d →
    (∀ u ∈ S, u.Type_ ≠ TokenType.RightParent) →
    (∀ u ∈ P, u.Type_ ≠ TokenType.RightParent) →
    ∀ u ∈ p, isParenthesis u = false := by
  intro ts
  induction ts with
  | nil =>
    intro S P p d h hb hd hS hP u hu
    simp only [parseLoop, Except.ok.injEq] at h
    subst h
    simp only [balancedFrom, decide_eq_true_eq] at hb
    subst hb
    have h0 : parenCount (P ++ S) = 0 := by rw [parenCount_append]; omega
    have hl : u.Type_ ≠ TokenType.LeftParent := by
      simp only [parenCount, List.countP_eq_zero] at h0
      simpa using h0 u hu
    have hr : u.Type_ ≠ TokenType.RightParent := by
      rcases List.mem_append.mp hu with h1 | h1
      · exact hP u h1
      · exact hS u h1
    simp [isParenthesis, hl, hr]
  | cons t ts ih =>
    intro S P p d h hb hd hS hP
    simp only [parseLoop] at h
    split at h
    · simp at h
    · rename_i S1 P1 hstep
      rcases parseStep_split S P S1 P1 t hstep with
        ⟨hty, h1, h2⟩ | ⟨hty, h1, h2⟩ | ⟨hty, popped, lp, h1, hlp, _, h2⟩ |
        ⟨hop, hl, hr, popped, S2, h1, h2, h3⟩
      · subst h1 h2
        have hl : t.Type_ ≠ TokenType.LeftParent := by
          intro h3; rw [h3] at hty; simp [TokenType.isOperand] at hty
        have hr : t.Type_ ≠ TokenType.RightParent := by
          intro h3; rw [h3] at hty; simp [TokenType.isOperand] at hty
        simp only [balancedFrom, if_neg hl, if_neg hr] at hb
        refine ih S1 (P ++ [t]) p d h hb ?_ hS ?_
        · have h0 : parenCount ([] : List Token) = 0 := rfl
          rw [parenCount_append, parenCount_cons, if_neg hl, h0]
          omega
        · intro u hu
          rcases List.mem_append.mp hu with h3 | h3
          · exact hP u h3
          · rw [List.mem_singleton.mp h3]; exact hr
      · subst h1 h2
        simp only [balancedFrom, if_pos hty] at hb
        refine ih (t :: S) P1 p (d + 1) h hb ?_ ?_ hP
        · rw [parenCount_cons, if_pos hty]
          omega
        · intro u hu
          rcases List.mem_cons.mp hu with h3 | h3
          · rw [h3, hty]; decide
          · exact hS u h3
      · subst h1 h2
        have hl : t.Type_ ≠ TokenType.LeftParent := by rw [hty]; decide
        simp only [balancedFrom, if_neg hl, if_pos hty] at hb
        cases d with
        | zero => simp at hb
        | succ d1 =>
          simp only at hb
          refine ih S1 (P ++ popped) p d1 h hb ?_ ?_ ?_
          · rw [parenCount_append, parenCount_cons, if_pos hlp] at hd
            rw [parenCount_append]
            omega
          · intro u hu
            exact hS u (by simp [hu])
          · intro u hu
            rcases List.mem_append.mp hu with h3 | h3
            · exact hP u h3
            · exact hS u (by simp [h3])
      · subst h1 h2 h3
        simp only [balancedFrom, if_neg hl, if_neg hr] at hb
        refine ih (t :: S2) (P ++ popped) p d h hb ?_ ?_ ?_
        · rw [parenCount_append] at hd
          rw [parenCount_cons, if_neg hl, parenCount_append]
          omega
        · intro u hu
          rcases List.mem_cons.mp hu with h3 | h3
          · rw [h3]; exact hr
          · exact hS u (by simp [h3])
        · intro u hu
          rcases List.mem_append.mp hu with h3 | h3
          · exact hP u h3
          · exact hS u (by simp [h3])

/-- Whenever `parse` returns on a sequence with balanced parentheses, the
sequence it returns holds no parenthesis. -/
theorem parse_balanced_no_parenthesis (ts p : List Token) (hb : balanced ts = true)
    (h : parse ts = .ok p) : ∀ u ∈ p, isParenthesis u = false :=
  parseLoop_balanced ts [] [] p 0 h hb rfl (by simp) (by simp)

/-- The loop of the `default` case fails only on a right parenthesis on the
stack. -/
theorem popHigher_fault (t : Token) : ∀ (S P : List Token) (e : Fault),
    popHigher t S P = .error e → ∃ u ∈ S, u.Type_ = TokenType.RightParent := by
  intro S
  induction S with
  | nil => intro P e h; simp [popHigher] at h
  | cons top S ih =>
    intro P e h
    simp only [popHigher] at h
    split_ifs at h with h1 h2
    · exact ⟨top, List.mem_cons_self _ _, h2⟩
    · obtain ⟨u, hu, hr⟩ := ih (P ++ [top]) e h
      exact ⟨u, List.mem_cons_of_mem _ hu, hr⟩

/-- The loop of the `RightParent` case fails only by popping the empty stack. -/
theorem popToLeftParent_fault : ∀ (S P : List Token) (e : Fault),
    popToLeftParent S P = .error e → e = Fault.emptyStack := by
  intro S
  induction S with
  | nil =>
    intro P e h
    simp only [popToLeftParent, Except.error.injEq] at h
    exact h.symm
  | cons top S ih =>
    intro P e h
    simp only [popToLeftParent] at h
    split_ifs at h with h1
    exact ih (P ++ [top]) e h

/-- No right parenthesis is ever on the stack of `parse`, so that its `assert`
holds, and the loop of `parse` fails only by popping the empty stack. -/
theorem parseLoop_fault : ∀ (ts S P : List Token) (e : Fault),
    parseLoop ts S P = .error e → (∀ u ∈ S, u.Type_ ≠ TokenType.RightParent) →
    e = Fault.emptyStack := by
  intro ts
  induction ts with
  | nil => intro S P e h; simp [parseLoop] at h
  | cons t ts ih =>
    intro S P e h hS
    simp only [parseLoop] at h
    split at h
    · rename_i e1 hstep
      simp only [Except.error.injEq] at h
      subst h
      unfold parseStep at hstep
      split at hstep
      case h_1 => simp at hstep
      case h_2 => simp at hstep
      case h_3 => simp at hstep
      case h_4 => simp at hstep
      case h_5 => exact popToLeftParent_fault S P _ hstep
      case h_6 =>
        split at hstep
        · rename_i e2 hpop
          obtain ⟨u, hu, hr⟩ := popHigher_fault t S P e2 hpop
          exact absurd hr (hS u hu)
        · simp at hstep
    · rename_i S1 P1 hstep
      refine ih S1 P1 e h ?_
      rcases parseStep_split S P S1 P1 t hstep with
        ⟨_, h1, _⟩ | ⟨hty, h1, _⟩ | ⟨_, popped, lp, h1, _, _, _⟩ |
        ⟨_, _, hr, popped, S2, h1, h2, _⟩
      · rw [h1]; exact hS
      · rw [h1]
        intro u hu
        rcases List.mem_cons.mp hu with h3 | h3
        · rw [h3, hty]; decide
        · exact hS u h3
      · intro u hu
        exact hS u (by rw [h1]; simp [hu])
      · rw [h2]
        intro u hu
        rcases List.mem_cons.mp hu with h3 | h3
        · rw [h3]; exact hr
        · exact hS u (by rw [h1]; simp [h3])

/-! ## The range of `double` -/

theorem abs_bounds (q : ℚ) (A B : ℕ) (a b : ℚ) (ha : (A : ℚ) = a) (hb : (B : ℚ) = b)
    (hA : 0 < A) :
    (1 / a ≤ |q| ↔ q.den ≤ q.num.natAbs * A) ∧
    (|q| ≤ b ↔ q.num.natAbs ≤ B * q.den) := by
  subst ha hb
  have hd : (0 : ℚ) < q.den := by exact_mod_cast q.den_pos
  have hA1 : (0 : ℚ) < A := by exact_mod_cast hA
  have habs : |q| = (q.num.natAbs : ℚ) / q.den := by
    conv_lhs => rw [← Rat.num_div_den q]
    rw [abs_div, abs_of_pos hd, Nat.cast_natAbs, Int.cast_abs]
  constructor
  · rw [habs, div_le_div_iff₀ hA1 hd, one_mul]
    norm_cast
  · rw [habs, div_le_iff₀ hd]
    norm_cast

set_option exponentiation.threshold 1100 in
/-- The range of `double`, in terms of the value: zero, or a magnitude from
`2^-1022` to `(2^53 - 1) * 2^971`. -/
theorem inDoubleRange_iff (q : ℚ) :
    inDoubleRange q = true ↔
      (q = 0 ∨ ((1 : ℚ) / 2 ^ 1022 ≤ |q| ∧ |q| ≤ (2 ^ 53 - 1) * 2 ^ 971)) := by
  have e1 : ((2 ^ 1022 : ℕ) : ℚ) = 2 ^ 1022 := by
    rw [Nat.cast_pow, Nat.cast_ofNat]
  have e2 : (((2 ^ 53 - 1) * 2 ^ 971 : ℕ) : ℚ) = (2 ^ 53 - 1) * 2 ^ 971 := by
    rw [Nat.cast_mul, Nat.cast_pow, Nat.cast_sub (Nat.one_le_two_pow), Nat.cast_pow,
      Nat.cast_ofNat, Nat.cast_one]
  have h := abs_bounds q _ _ _ _ e1 e2 (Nat.two_pow_pos 1022)
  simp only [inDoubleRange, Bool.or_eq_true, Bool.and_eq_true, decide_eq_true_eq, h.1, h.2]

/-- A literal in the range of `double` is read by `stod`. -/
theorem literalInRange_readable (t : Token) (h : literalInRange t = true) :
    (stod t.Data).isSome = true := by
  unfold literalInRange at h
  split at h
  · rename_i q hq
    rw [hq]
    rfl
  · exact absurd h (by simp)

/-- A literal of more than 308 digits is outside the range of `double`:
`std::stod` throws `std::out_of_range` on it, while the exact `stod` of the
model reads it. -/
theorem literal_out_of_range :
    wellFormed [⟨String.mk (List.replicate 401 '9'), TokenType.NumberLiteral⟩] = true ∧
    (stod (String.mk (List.replicate 401 '9'))).isSome = true ∧
    literalInRange ⟨String.mk (List.replicate 401 '9'), TokenType.NumberLiteral⟩ = false := by
  decide!

/-! ## The claims -/

/-- C1, as stated, fails: `1 % 0` is a well-formed expression, and its
evaluation stops in the integer remainder by zero. -/
theorem C1_modulo_by_zero_counterexample :
    Scan ("1 % 0" ++ " ") = .ok [⟨"1", TokenType.NumberLiteral⟩, ⟨"%", TokenType.Mod⟩,
      ⟨"0", TokenType.NumberLiteral⟩] ∧
    wellFormed [⟨"1", TokenType.NumberLiteral⟩, ⟨"%", TokenType.Mod⟩,
      ⟨"0", TokenType.NumberLiteral⟩] = true ∧
    parse [⟨"1", TokenType.NumberLiteral⟩, ⟨"%", TokenType.Mod⟩,
      ⟨"0", TokenType.NumberLiteral⟩] =
      .ok [⟨"1", TokenType.NumberLiteral⟩, ⟨"0", TokenType.NumberLiteral⟩,
        ⟨"%", TokenType.Mod⟩] ∧
    evaluateExpression Libm.atZero [] "1 % 0" (real_t.fin 0) = .error Fault.integerDivide := by
  decide!

/-- C1 (amended): for every expression whose token sequence, as `Scan` emits
it, is well-formed (numeric literals, `x`, bound named variables, the ten
functions applied to a parenthesised argument, the binary operator tokens
`Add`, `Sub`, `Mul`, `Div`, `Pow`, the token `Mod` outside every parenthesis,
balanced parentheses, every operator with its operands) and whose numeric
literals are in the range of `double` (zero, or of a magnitude from `2^-1022`
to the greatest finite `double`, so that `std::stod` reads them), `parse`
succeeds, and the evaluation of its output raises no contract violation: it
ends with exactly one value on the stack, which `evaluate` returns, unless the
expression holds a `%` and the evaluation stops in the integer remainder or in
the conversion to `int64_t`. -/
theorem C1_well_formed_pipeline (m : Libm) (vars : VariableMap) (x : real_t)
    (_expr : String) (ts : List Token)
    (hscan : Scan (_expr ++ " ") = .ok ts) (hwf : wellFormed ts = true)
    (hlit : ∀ t ∈ ts, t.Type_ = TokenType.NumberLiteral → literalInRange t = true)
    (hvars : ∀ t ∈ ts, t.Type_ = TokenType.Variable → vars.lookup t.Data ≠ none) :
    ∃ p, parse ts = .ok p ∧
      ((∃ top v, evaluateLoop m vars x p [] = .ok [top] ∧ evaluate m vars p x = .ok v ∧
          evaluateExpression m vars _expr x = .ok v) ∨
       ((∃ t ∈ ts, t.Type_ = TokenType.Mod) ∧
          (evaluateExpression m vars _expr x = .error Fault.integerDivide ∨
           evaluateExpression m vars _expr x = .error Fault.undefinedCast))) := by
  have hinv : parseInvariant Expect.operand 0 [] [] :=
    ⟨by simp, rfl, rfl, by simp⟩
  obtain ⟨p, hp, hse⟩ := parseLoop_wellFormed ts Expect.operand 0 [] [] hwf hinv
  have hmem : ∀ u ∈ p, u ∈ ts := by
    intro u hu
    rcases parseLoop_mem ts [] [] p hp u hu with h | h | h
    · exact h
    · simp at h
    · simp at h
  have hread : ∀ u ∈ p, isReadable vars u := fun u hu =>
    ⟨fun hty => literalInRange_readable u (hlit u (hmem u hu) hty), hvars u (hmem u hu)⟩
  have hexpr : evaluateExpression m vars _expr x = evaluate m vars p x := by
    have hp1 : parse ts = .ok p := hp
    simp only [evaluateExpression, hscan, hp1]
  refine ⟨p, hp, ?_⟩
  rcases evaluateLoop_stackEffect m vars x p 0 1 [] hse rfl (by simp) hread with
    ⟨s1, hs1, hlen, hnum⟩ | ⟨⟨u, hu, hm⟩, herr⟩
  · left
    match s1, hlen, hnum, hs1 with
    | [top], _, hnum, hs1 =>
      obtain ⟨v, hv⟩ := Option.isSome_iff_exists.mp (hnum top (List.mem_cons_self _ _)).2
      have hev : evaluate m vars p x = .ok v := by
        simp only [evaluate, hs1, evaluateResult, hv]
      exact ⟨top, v, hs1, hev, hexpr ▸ hev⟩
  · right
    refine ⟨⟨u, hmem u hu, hm⟩, ?_⟩
    rw [hexpr]
    rcases herr with h | h
    · exact Or.inl (by simp only [evaluate, h])
    · exact Or.inr (by simp only [evaluate, h])

/-- C1 (amended), at the expression of the demonstration program,
`sin(x / 10.0) * 50.0 + 100`, and `x = 0`. -/
theorem C1_well_formed_pipeline_witness :
    ∃ p, parse [⟨"sin", TokenType.Sine⟩, ⟨"(", TokenType.LeftParent⟩, ⟨"x", TokenType.InputX⟩,
        ⟨"/", TokenType.Div⟩, ⟨"10.0", TokenType.NumberLiteral⟩, ⟨")", TokenType.RightParent⟩,
        ⟨"*", TokenType.Mul⟩, ⟨"50.0", TokenType.NumberLiteral⟩, ⟨"+", TokenType.Add⟩,
        ⟨"100", TokenType.NumberLiteral⟩] = .ok p ∧
      ((∃ top v, evaluateLoop Libm.atZero [] (real_t.fin 0) p [] = .ok [top] ∧
          evaluate Libm.atZero [] p (real_t.fin 0) = .ok v ∧
          evaluateExpression Libm.atZero [] "sin(x / 10.0) * 50.0 + 100" (real_t.fin 0) =
            .ok v) ∨
       ((∃ t ∈ [(⟨"sin", TokenType.Sine⟩ : Token), ⟨"(", TokenType.LeftParent⟩,
            ⟨"x", TokenType.InputX⟩,
            ⟨"/", TokenType.Div⟩, ⟨"10.0", TokenType.NumberLiteral⟩,
            ⟨")", TokenType.RightParent⟩,
            ⟨"*", TokenType.Mul⟩, ⟨"50.0", TokenType.NumberLiteral⟩, ⟨"+", TokenType.Add⟩,
            ⟨"100", TokenType.NumberLiteral⟩], t.Type_ = TokenType.Mod) ∧
          (evaluateExpression Libm.atZero [] "sin(x / 10.0) * 50.0 + 100" (real_t.fin 0) =
              .error Fault.integerDivide ∨
           evaluateExpression Libm.atZero [] "sin(x / 10.0) * 50.0 + 100" (real_t.fin 0) =
              .error Fault.undefinedCast))) :=
  C1_well_formed_pipeline Libm.atZero [] (real_t.fin 0) "sin(x / 10.0) * 50.0 + 100" _
    (by decide) (by decide) (by decide!) (by decide)

/-- C2: in `Scan`, a minus sign is emitted as a `Neg` token exactly when no
token has been emitted before it or the last token emitted is neither a
`NumberLiteral` nor a `RightParent`, and as a `Sub` token otherwise: for every
source `pre ++ "-" ++ post`, the tokens emitted before the minus sign are the
tokens `ts` of `pre`, and the minus sign is the next token, of the kind that
this rule gives.  `Scan "-x"` is `[Neg, InputX]` and `Scan "3 - x"` is
`[NumberLiteral 3, Sub, InputX]`. -/
theorem C2_minus_disambiguation :
    (∀ pre post : String, ∃ (ts : List Token) (k : TokenType) (more : List Token),
      Scan pre = .ok ts ∧
      Scan (pre ++ "-" ++ post) = .ok (ts ++ ⟨"-", k⟩ :: more) ∧
      (k = TokenType.Neg ↔
        (ts = [] ∨ ∃ back, ts.getLast? = some back ∧
          back.Type_ ≠ TokenType.NumberLiteral ∧ back.Type_ ≠ TokenType.RightParent)) ∧
      (k = TokenType.Sub ↔
        ¬ (ts = [] ∨ ∃ back, ts.getLast? = some back ∧
          back.Type_ ≠ TokenType.NumberLiteral ∧ back.Type_ ≠ TokenType.RightParent))) ∧
    Scan "-x" = .ok [⟨"-", TokenType.Neg⟩, ⟨"x", TokenType.InputX⟩] ∧
    Scan "3 - x" = .ok [⟨"3", TokenType.NumberLiteral⟩, ⟨"-", TokenType.Sub⟩,
      ⟨"x", TokenType.InputX⟩] := by
  refine ⟨?_, by decide, by decide⟩
  intro pre post
  obtain ⟨ts, hts⟩ := scanFrom_ok pre.data.length pre.data [] (le_refl _)
  simp only [List.nil_append] at hts
  obtain ⟨more, hmore⟩ := scanFrom_ok post.data.length post.data
    (ts ++ [⟨"-", reclassify ts TokenType.Sub⟩]) (le_refl _)
  refine ⟨ts, reclassify ts TokenType.Sub, more, hts, ?_, ?_, ?_⟩
  · have h := scanFrom_append pre.data.length pre.data '-' post.data [] (le_refl _)
      (by decide) (by decide) (by decide)
    simp only [Scan, String.data_append, List.append_assoc]
    rw [List.singleton_append, h, hts]
    simp only [scanFrom_minus, hmore, List.append_assoc, List.singleton_append]
  · unfold reclassify
    cases hl : ts.getLast? with
    | none =>
      have : ts = [] := List.getLast?_eq_none_iff.mp hl
      simp [this]
    | some back =>
      have hne : ts ≠ [] := by
        intro h
        simp [h] at hl
      by_cases hb : back.Type_ ≠ TokenType.NumberLiteral ∧ back.Type_ ≠ TokenType.RightParent
      · simp [hne, hb]
      · simp only [if_true, hb, if_false, hne, false_or, Option.some.injEq, exists_eq_left']
        simp
  · unfold reclassify
    cases hl : ts.getLast? with
    | none =>
      have : ts = [] := List.getLast?_eq_none_iff.mp hl
      simp [this]
    | some back =>
      have hne : ts ≠ [] := by
        intro h
        simp [h] at hl
      by_cases hb : back.Type_ ≠ TokenType.NumberLiteral ∧ back.Type_ ≠ TokenType.RightParent
      · simp [hne, hb]
      · simp only [if_true, hb, if_false, hne, false_or, Option.some.injEq, exists_eq_left']
        simp

/-- C3 (the code departs from the claim): a minus sign between two named
variables is emitted as a `Neg` token, not as a `Sub` token: for all variable
names `a` and `b`, `Scan (a ++ " - " ++ b)` is `[Variable a, Neg, Variable b]`;
and the minus sign of `x - 1` is a `Neg` token too. -/
theorem C3_minus_after_variable_is_neg (a b : String)
    (ha : isVariableName a) (hb : isVariableName b) :
    Scan (a ++ " - " ++ b) =
      .ok [⟨a, TokenType.Variable⟩, ⟨"-", TokenType.Neg⟩, ⟨b, TokenType.Variable⟩] ∧
    Scan "x - 1" = .ok [⟨"x", TokenType.InputX⟩, ⟨"-", TokenType.Neg⟩,
      ⟨"1", TokenType.NumberLiteral⟩] := by
  refine ⟨?_, by decide⟩
  have e : (a ++ " - " ++ b).data = a.data ++ ' ' :: ('-' :: ' ' :: b.data) := by
    simp only [String.data_append, List.append_assoc]
    rfl
  have h := scanFrom_append a.data.length a.data ' ' ('-' :: ' ' :: b.data) [] (le_refl _)
    (by decide) (by decide) (by decide)
  rw [Scan, e, h, scanFrom_letters a.data [] ha.1 ha.2.1, scanIdentifier_variable a ha]
  simp only [List.nil_append]
  rw [scanFrom_cons]
  have hsp : GetCharType ' ' = CharType.Whitespace := by decide
  simp only [hsp]
  rw [scanFrom_minus, scanFrom_cons]
  simp only [hsp]
  rw [scanFrom_letters b.data _ hb.1 hb.2.1, scanIdentifier_variable b hb]
  rfl

/-- C3, at the variable names `a` and `b`. -/
theorem C3_minus_after_variable_is_neg_witness :
    isVariableName "a" ∧ isVariableName "b" ∧
    Scan ("a" ++ " - " ++ "b") =
      .ok [⟨"a", TokenType.Variable⟩, ⟨"-", TokenType.Neg⟩, ⟨"b", TokenType.Variable⟩] :=
  have ha : isVariableName "a" := by
    refine ⟨by decide, by decide, by decide, by decide⟩
  have hb : isVariableName "b" := by
    refine ⟨by decide, by decide, by decide, by decide⟩
  ⟨ha, hb, (C3_minus_after_variable_is_neg "a" "b" ha hb).1⟩

/-- C4: binary operators of equal priority are left-associative, `Pow`
included: for operand tokens `a`, `b`, `c` and binary operator tokens `op1`,
`op2` of the same priority, `parse [a, op1, b, op2, c] = [a, b, op1, c, op2]`;
the value of `2 - 3 - 1` is `-2` and the value of `2 ^ 3 ^ 2` is `64`, not `512`. -/
theorem C4_equal_priority_left_assoc (a b c op1 op2 : Token)
    (ha : a.Type_.isOperand = true) (hb : b.Type_.isOperand = true)
    (hc : c.Type_.isOperand = true)
    (h1 : op1.Type_.isBinaryOperator = true) (h2 : op2.Type_.isBinaryOperator = true)
    (hp : _priority op1.Type_ = _priority op2.Type_) :
    parse [a, op1, b, op2, c] = .ok [a, b, op1, c, op2] ∧
    (∀ (m : Libm) (vars : VariableMap) (x : real_t),
      evaluateExpression m vars "2 - 3 - 1" x = .ok (real_t.fin (-2)) ∧
      evaluateExpression m vars "2 ^ 3 ^ 2" x = .ok (real_t.fin 64) ∧
      evaluateExpression m vars "2 ^ 3 ^ 2" x ≠ .ok (real_t.fin 512)) := by
  constructor
  · simp only [parse, parseLoop, parseStep_operand _ _ _ ha, parseStep_operand _ _ _ hb,
      parseStep_operand _ _ _ hc, parseStep_default _ _ _ (Or.inl h1),
      parseStep_default _ _ _ (Or.inl h2), popHigher_nil,
      popHigher_pop op2 op1 _ _ (le_of_eq hp.symm) (ne_rightParent_of_default _ (Or.inl h1))]
    rfl
  · intro m vars x
    have e : evaluateExpression m vars "2 ^ 3 ^ 2" x = .ok (real_t.fin 64) := by
      with_unfolding_all rfl
    refine ⟨by with_unfolding_all rfl, e, ?_⟩
    rw [e]
    intro h
    injection h with h
    injection h with h
    norm_num at h

/-- C4, at the tokens of `2 - 3 + 1`. -/
theorem C4_equal_priority_left_assoc_witness :
    parse [⟨"2", TokenType.NumberLiteral⟩, ⟨"-", TokenType.Sub⟩, ⟨"3", TokenType.NumberLiteral⟩,
      ⟨"+", TokenType.Add⟩, ⟨"1", TokenType.NumberLiteral⟩] =
    .ok [⟨"2", TokenType.NumberLiteral⟩, ⟨"3", TokenType.NumberLiteral⟩, ⟨"-", TokenType.Sub⟩,
      ⟨"1", TokenType.NumberLiteral⟩, ⟨"+", TokenType.Add⟩] :=
  (C4_equal_priority_left_assoc ⟨"2", TokenType.NumberLiteral⟩ ⟨"3", TokenType.NumberLiteral⟩
    ⟨"1", TokenType.NumberLiteral⟩ ⟨"-", TokenType.Sub⟩ ⟨"+", TokenType.Add⟩
    rfl rfl rfl rfl rfl rfl).1

/-- C5: the parser honours the priorities: for operand tokens `a`, `b`, `c`
and binary operator tokens `lo`, `hi` with the priority of `lo` below the
priority of `hi`, `parse [a, lo, b, hi, c] = [a, b, c, hi, lo]` and
`parse [a, hi, b, lo, c] = [a, b, hi, c, lo]`; the priorities of the table are
add/subtract 1, multiply/divide 2, power 3. -/
theorem C5_priority_order (a b c lo hi : Token)
    (ha : a.Type_.isOperand = true) (hb : b.Type_.isOperand = true)
    (hc : c.Type_.isOperand = true)
    (h1 : lo.Type_.isBinaryOperator = true) (h2 : hi.Type_.isBinaryOperator = true)
    (hp : _priority lo.Type_ < _priority hi.Type_) :
    parse [a, lo, b, hi, c] = .ok [a, b, c, hi, lo] ∧
    parse [a, hi, b, lo, c] = .ok [a, b, hi, c, lo] ∧
    _priority TokenType.Add = 1 ∧ _priority TokenType.Sub = 1 ∧
    _priority TokenType.Mul = 2 ∧ _priority TokenType.Div = 2 ∧
    _priority TokenType.Pow = 3 := by
  refine ⟨?_, ?_, rfl, rfl, rfl, rfl, rfl⟩
  · simp only [parse, parseLoop, parseStep_operand _ _ _ ha, parseStep_operand _ _ _ hb,
      parseStep_operand _ _ _ hc, parseStep_default _ _ _ (Or.inl h1),
      parseStep_default _ _ _ (Or.inl h2), popHigher_nil, popHigher_keep hi lo _ _ hp]
    rfl
  · simp only [parse, parseLoop, parseStep_operand _ _ _ ha, parseStep_operand _ _ _ hb,
      parseStep_operand _ _ _ hc, parseStep_default _ _ _ (Or.inl h1),
      parseStep_default _ _ _ (Or.inl h2), popHigher_nil,
      popHigher_pop lo hi _ _ (le_of_lt hp) (ne_rightParent_of_default _ (Or.inl h2))]
    rfl

/-- C5, at the tokens of `x + 2 * y` and of `x * 2 + y`. -/
theorem C5_priority_order_witness :
    parse [⟨"x", TokenType.InputX⟩, ⟨"+", TokenType.Add⟩, ⟨"2", TokenType.NumberLiteral⟩,
      ⟨"*", TokenType.Mul⟩, ⟨"y", TokenType.Variable⟩] =
    .ok [⟨"x", TokenType.InputX⟩, ⟨"2", TokenType.NumberLiteral⟩, ⟨"y", TokenType.Variable⟩,
      ⟨"*", TokenType.Mul⟩, ⟨"+", TokenType.Add⟩] ∧
    parse [⟨"x", TokenType.InputX⟩, ⟨"*", TokenType.Mul⟩, ⟨"2", TokenType.NumberLiteral⟩,
      ⟨"+", TokenType.Add⟩, ⟨"y", TokenType.Variable⟩] =
    .ok [⟨"x", TokenType.InputX⟩, ⟨"2", TokenType.NumberLiteral⟩, ⟨"*", TokenType.Mul⟩,
      ⟨"y", TokenType.Variable⟩, ⟨"+", TokenType.Add⟩] :=
  have h := C5_priority_order ⟨"x", TokenType.InputX⟩ ⟨"2", TokenType.NumberLiteral⟩
    ⟨"y", TokenType.Variable⟩ ⟨"+", TokenType.Add⟩ ⟨"*", TokenType.Mul⟩
    rfl rfl rfl rfl rfl (by decide)
  ⟨h.1, h.2.1⟩

/-- C6: unary functions bind tighter than `Neg`, and `Neg` binds tighter than
`Pow`: for a function token `f`, operand tokens `a`, `b`, a `Neg` token, a
`Pow` token and the two parentheses, `parse [neg, f, (, a, )] = [a, f, neg]`,
`parse [f, (, neg, a, )] = [a, neg, f]` and
`parse [neg, a, pow, b] = [a, neg, b, pow]`; with a library whose sine maps
each zero to itself, the values of `-sin(0)` and of `sin(-0)` are the negative
zero, which is equal to `0`. -/
theorem C6_function_neg_pow_binding (f neg lp rp pw a b : Token)
    (hf : f.Type_.isFunction = true) (hn : neg.Type_ = TokenType.Neg)
    (hl : lp.Type_ = TokenType.LeftParent) (hr : rp.Type_ = TokenType.RightParent)
    (hpw : pw.Type_ = TokenType.Pow)
    (ha : a.Type_.isOperand = true) (hb : b.Type_.isOperand = true) :
    parse [neg, f, lp, a, rp] = .ok [a, f, neg] ∧
    parse [f, lp, neg, a, rp] = .ok [a, neg, f] ∧
    parse [neg, a, pw, b] = .ok [a, neg, b, pw] ∧
    (∀ (m : Libm) (vars : VariableMap) (x : real_t),
      m.sin (real_t.fin 0) = real_t.fin 0 → m.sin real_t.negZero = real_t.negZero →
      evaluateExpression m vars "-sin(0)" x = .ok real_t.negZero ∧
      evaluateExpression m vars "sin(-0)" x = .ok real_t.negZero ∧
      real_t.eq real_t.negZero (real_t.fin 0) = true) := by
  have dn : neg.Type_.isBinaryOperator = true ∨ neg.Type_ = TokenType.Neg ∨
      neg.Type_.isFunction = true := Or.inr (Or.inl hn)
  have df : f.Type_.isBinaryOperator = true ∨ f.Type_ = TokenType.Neg ∨
      f.Type_.isFunction = true := Or.inr (Or.inr hf)
  have dp : pw.Type_.isBinaryOperator = true ∨ pw.Type_ = TokenType.Neg ∨
      pw.Type_.isFunction = true := Or.inl (by rw [hpw]; rfl)
  have pf : _priority f.Type_ = 5 := priority_function _ hf
  have pn : _priority neg.Type_ = 4 := by rw [hn]; rfl
  have pl : _priority lp.Type_ = 0 := by rw [hl]; rfl
  have pp : _priority pw.Type_ = 3 := by rw [hpw]; rfl
  have nl : neg.Type_ ≠ TokenType.LeftParent := by rw [hn]; decide
  refine ⟨?_, ?_, ?_, ?_⟩
  · simp only [parse, parseLoop, parseStep_default _ _ _ dn, parseStep_default _ _ _ df,
      parseStep_leftParent _ _ _ hl, parseStep_rightParent _ _ _ hr,
      parseStep_operand _ _ _ ha, popHigher_nil,
      popHigher_keep f neg _ _ (by rw [pf, pn]; decide), popToLeftParent_found lp _ _ hl]
    rfl
  · simp only [parse, parseLoop, parseStep_default _ _ _ dn, parseStep_default _ _ _ df,
      parseStep_leftParent _ _ _ hl, parseStep_rightParent _ _ _ hr,
      parseStep_operand _ _ _ ha, popHigher_nil,
      popHigher_keep neg lp _ _ (by rw [pl, pn]; decide), popToLeftParent_pop neg _ _ nl,
      popToLeftParent_found lp _ _ hl]
    rfl
  · simp only [parse, parseLoop, parseStep_default _ _ _ dn, parseStep_default _ _ _ dp,
      parseStep_operand _ _ _ ha, parseStep_operand _ _ _ hb, popHigher_nil,
      popHigher_pop pw neg _ _ (by rw [pp, pn]; decide) (ne_rightParent_of_default _ dn)]
    rfl
  · intro m vars x h0 h1
    have s0 : stod "0" = some (real_t.fin 0) := by decide!
    have s1 : stod "-0" = some real_t.negZero := by decide!
    have s2 : stod ("-" ++ to_string (real_t.fin 0)) = some real_t.negZero := by decide!
    have s3 : stod (to_string real_t.negZero) = some real_t.negZero := by decide!
    have e1 : Scan "-sin(0) " = .ok [⟨"-", TokenType.Neg⟩, ⟨"sin", TokenType.Sine⟩,
        ⟨"(", TokenType.LeftParent⟩, ⟨"0", TokenType.NumberLiteral⟩,
        ⟨")", TokenType.RightParent⟩] := by decide
    have e2 : Scan "sin(-0) " = .ok [⟨"sin", TokenType.Sine⟩,
        ⟨"(", TokenType.LeftParent⟩, ⟨"-", TokenType.Neg⟩, ⟨"0", TokenType.NumberLiteral⟩,
        ⟨")", TokenType.RightParent⟩] := by decide
    have p1 : parse [⟨"-", TokenType.Neg⟩, ⟨"sin", TokenType.Sine⟩,
        ⟨"(", TokenType.LeftParent⟩, ⟨"0", TokenType.NumberLiteral⟩,
        ⟨")", TokenType.RightParent⟩] = .ok [⟨"0", TokenType.NumberLiteral⟩,
        ⟨"sin", TokenType.Sine⟩, ⟨"-", TokenType.Neg⟩] := by decide
    have p2 : parse [⟨"sin", TokenType.Sine⟩,
        ⟨"(", TokenType.LeftParent⟩, ⟨"-", TokenType.Neg⟩, ⟨"0", TokenType.NumberLiteral⟩,
        ⟨")", TokenType.RightParent⟩] = .ok [⟨"0", TokenType.NumberLiteral⟩,
        ⟨"-", TokenType.Neg⟩, ⟨"sin", TokenType.Sine⟩] := by decide
    refine ⟨?_, ?_, by decide!⟩
    · simp [evaluateExpression, e1, p1, evaluate, evaluateLoop, evaluateStep,
        GP_EVAL_FUNCTION_SWITCH, evalNeg, evaluateResult, s0, h0, s2]
    · simp [evaluateExpression, e2, p2, evaluate, evaluateLoop, evaluateStep,
        GP_EVAL_FUNCTION_SWITCH, evalNeg, evaluateResult, s1, h1, s3]

/-- C6, at the tokens of `-sin(x)`, `sin(-x)` and `-x^2`. -/
theorem C6_function_neg_pow_binding_witness :
    parse [⟨"-", TokenType.Neg⟩, ⟨"sin", TokenType.Sine⟩, ⟨"(", TokenType.LeftParent⟩,
      ⟨"x", TokenType.InputX⟩, ⟨")", TokenType.RightParent⟩] =
    .ok [⟨"x", TokenType.InputX⟩, ⟨"sin", TokenType.Sine⟩, ⟨"-", TokenType.Neg⟩] ∧
    evaluateExpression Libm.atZero [] "-sin(0)" (real_t.fin 0) = .ok real_t.negZero :=
  have h := C6_function_neg_pow_binding ⟨"sin", TokenType.Sine⟩ ⟨"-", TokenType.Neg⟩
    ⟨"(", TokenType.LeftParent⟩ ⟨")", TokenType.RightParent⟩ ⟨"^", TokenType.Pow⟩
    ⟨"x", TokenType.InputX⟩ ⟨"2", TokenType.NumberLiteral⟩ rfl rfl rfl rfl rfl rfl rfl
  ⟨h.1, (h.2.2.2 Libm.atZero [] (real_t.fin 0) (by decide!) (by decide!)).1⟩

/-- C7 (the code departs from the claim): `Neg` puts a minus sign in front of
the text of the value, and a text with two minus signs is no number: for every
coordinate `x` whose sign bit is set (a negative number, the negative zero,
minus infinity) the evaluation of `-x` throws `std::invalid_argument`, and so
does the evaluation of the postfix sequence `[v, Neg, Neg]` for every numeric
text `v`. -/
theorem C7_negate_of_negative_fails (m : Libm) (vars : VariableMap) (x : real_t)
    (hx : x.signbit = true) :
    evaluateExpression m vars "-x" x = .error Fault.invalidArgument ∧
    ∀ v : String, evaluate m vars
      [⟨v, TokenType.NumberLiteral⟩, ⟨"-", TokenType.Neg⟩, ⟨"-", TokenType.Neg⟩] x =
        .error Fault.invalidArgument := by
  constructor
  · obtain ⟨cs, hcs⟩ := to_string_signbit x hx
    have e1 : Scan ("-x" ++ " ") = .ok [⟨"-", TokenType.Neg⟩, ⟨"x", TokenType.InputX⟩] := by
      decide
    have p1 : parse [⟨"-", TokenType.Neg⟩, ⟨"x", TokenType.InputX⟩] =
        .ok [⟨"x", TokenType.InputX⟩, ⟨"-", TokenType.Neg⟩] := by decide
    have l1 : evaluateLoop m vars x [⟨"x", TokenType.InputX⟩, ⟨"-", TokenType.Neg⟩] [] =
        .ok [⟨"-" ++ to_string x, TokenType.NumberLiteral⟩] := rfl
    have s1 : stod ("-" ++ to_string x) = none := by
      rw [hcs]
      exact stod_minus_minus cs
    simp only [evaluateExpression, e1, p1, evaluate, l1, evaluateResult, s1]
  · intro v
    have l1 : evaluateLoop m vars x
        [⟨v, TokenType.NumberLiteral⟩, ⟨"-", TokenType.Neg⟩, ⟨"-", TokenType.Neg⟩] [] =
        .ok [⟨"-" ++ ("-" ++ v), TokenType.NumberLiteral⟩] := rfl
    have s1 : stod ("-" ++ ("-" ++ v)) = none := stod_minus_minus v.data
    simp only [evaluate, l1, evaluateResult, s1]

/-- C7, at `x = -1` and at the postfix sequence `[7, Neg, Neg]`. -/
theorem C7_negate_of_negative_fails_witness :
    evaluateExpression Libm.atZero [] "-x" (real_t.fin (-1)) = .error Fault.invalidArgument ∧
    evaluate Libm.atZero []
      [⟨"7", TokenType.NumberLiteral⟩, ⟨"-", TokenType.Neg⟩, ⟨"-", TokenType.Neg⟩]
      (real_t.fin (-1)) = .error Fault.invalidArgument :=
  have h := C7_negate_of_negative_fails Libm.atZero [] (real_t.fin (-1)) (by decide!)
  ⟨h.1, h.2 "7"⟩

/-- C8, as stated, fails: the operands are converted to `int64_t`, and the
conversion of `10000000000000000000` is undefined; the evaluation of
`10000000000000000000 % 7` does not yield the remainder `3`.  The remainder
of the least `int64_t` by `-1` is undefined too. -/
theorem C8_modulo_counterexample :
    stod "10000000000000000000" = some (real_t.fin 10000000000000000000) ∧
    stod "7" = some (real_t.fin 7) ∧
    Int.tmod 10000000000000000000 7 = 3 ∧
    evaluate Libm.atZero [] [⟨"10000000000000000000", TokenType.NumberLiteral⟩,
      ⟨"7", TokenType.NumberLiteral⟩, ⟨"%", TokenType.Mod⟩] (real_t.fin 0) =
        .error Fault.undefinedCast ∧
    evaluateExpression Libm.atZero [] "10000000000000000000 % 7" (real_t.fin 0) =
      .error Fault.undefinedCast ∧
    evaluateExpression Libm.atZero [] "(0-9223372036854775808) % (0-1)" (real_t.fin 0) =
      .error Fault.integerDivide := by
  decide!

/-- C8 (amended): `Mod` pops the right then the left operand, converts both to
`int64_t` (the truncation toward zero) and pushes the text of the truncating
remainder.  For numeric texts `a`, `b` whose values `qa`, `qb` are values of
`double` (so that `std::stod` returns them exactly) with the `int64_t`
truncations `za`, `zb`, `zb` not zero and the remainder not the overflowing
`INT64_MIN % -1`: the evaluation of the postfix sequence `[a, b, Mod]` ends
with the text of `za rem zb` alone on the stack, and `evaluate` returns
`za rem zb` when that is a value of `real_t` (binary32), the final conversion
being exact on such a value.  The conversion of a finite value `q` to `int64_t`
is its truncation toward zero, and is defined exactly when that lies in the
`int64_t` range.  The value of `7 % 2` is `1` and the value of `-7 % 2` is
`-1`. -/
theorem C8_modulo_int64 (m : Libm) (vars : VariableMap) (x : real_t) (ta tb tm : Token)
    (qa qb : ℚ) (za zb : Int)
    (hta : ta.Type_ = TokenType.NumberLiteral) (htb : tb.Type_ = TokenType.NumberLiteral)
    (htm : tm.Type_ = TokenType.Mod)
    (ha : stod ta.Data = some (real_t.fin qa) ∧ isBinary64 qa)
    (hb : stod tb.Data = some (real_t.fin qb) ∧ isBinary64 qb)
    (hza : toInt64 (real_t.fin qa) = some za) (hzb : toInt64 (real_t.fin qb) = some zb)
    (hnz : zb ≠ 0) (hov : ¬ (za = -(2 : Int) ^ 63 ∧ zb = -1)) :
    evaluateLoop m vars x [ta, tb, tm] [] =
      .ok [⟨to_string_int (Int.tmod za zb), TokenType.NumberLiteral⟩] ∧
    (isBinary32 ((Int.tmod za zb : Int) : ℚ) →
      evaluate m vars [ta, tb, tm] x = .ok (real_t.fin (Int.tmod za zb))) ∧
    (∀ (q : ℚ) (z : Int), toInt64 (real_t.fin q) = some z ↔
      (z = (if 0 ≤ q then ⌊q⌋ else ⌈q⌉) ∧ -(2 : Int) ^ 63 ≤ z ∧ z < (2 : Int) ^ 63)) ∧
    evaluateExpression m vars "7 % 2" x = .ok (real_t.fin 1) ∧
    evaluateExpression m vars "-7 % 2" x = .ok (real_t.fin (-1)) := by
  obtain ⟨da, tya⟩ := ta
  obtain ⟨db, tyb⟩ := tb
  obtain ⟨dm, tym⟩ := tm
  obtain ⟨ha, _⟩ := ha
  obtain ⟨hb, _⟩ := hb
  simp only at hta htb htm ha hb
  subst hta htb htm
  have hs := stod_to_string_int (Int.tmod za zb)
  simp only [real_t.ofInt] at hs
  have hm : int64Mod za zb = .ok (Int.tmod za zb) := by
    unfold int64Mod
    rw [if_neg hnz, if_neg hov]
  have hloop : evaluateLoop m vars x [⟨da, TokenType.NumberLiteral⟩,
      ⟨db, TokenType.NumberLiteral⟩, ⟨dm, TokenType.Mod⟩] [] =
      .ok [⟨to_string_int (Int.tmod za zb), TokenType.NumberLiteral⟩] := by
    simp [evaluateLoop, evaluateStep, evalMod, ha, hb, hza, hzb, hm]
  refine ⟨hloop, ?_, toInt64_fin, by with_unfolding_all rfl, by with_unfolding_all rfl⟩
  intro _
  simp only [evaluate, hloop, evaluateResult, hs]

/-- C8 (amended), at the postfix sequence `[7.5, 2, Mod]`: the text `1` is left
on the stack, and the value is `1`. -/
theorem C8_modulo_int64_witness :
    evaluateLoop Libm.atZero [] (real_t.fin 0) [⟨"7.5", TokenType.NumberLiteral⟩,
      ⟨"2", TokenType.NumberLiteral⟩, ⟨"%", TokenType.Mod⟩] [] =
      .ok [⟨to_string_int (Int.tmod 7 2), TokenType.NumberLiteral⟩] ∧
    evaluate Libm.atZero [] [⟨"7.5", TokenType.NumberLiteral⟩, ⟨"2", TokenType.NumberLiteral⟩,
      ⟨"%", TokenType.Mod⟩] (real_t.fin 0) = .ok (real_t.fin (Int.tmod 7 2)) :=
  have h := C8_modulo_int64 Libm.atZero [] (real_t.fin 0) ⟨"7.5", TokenType.NumberLiteral⟩
    ⟨"2", TokenType.NumberLiteral⟩ ⟨"%", TokenType.Mod⟩ (15 / 2) 2 7 2
    rfl rfl rfl
    ⟨by decide!, by decide!, 15, -1, by norm_num, by norm_num⟩
    ⟨by decide!, by decide!, 1, 1, by norm_num, by norm_num⟩
    (by decide!) (by decide!) (by decide) (by decide)
  ⟨h.1, h.2.1 (show isBinary32 ((1 : Int) : ℚ) from
    ⟨Or.inr ⟨by norm_num, by norm_num⟩, 1, 0, by norm_num, by norm_num⟩)⟩

/-- C9: a named-variable token evaluates to the value bound to its text, and
the evaluation fails when the name is absent.  If a postfix sequence holds a
named variable `t` that the map does not bind, `evaluate` fails; when the
tokens before `t` evaluate without fault, the failure is the
`std::out_of_range` of the lookup of `t`.  If every named variable is bound,
`evaluate` gives what it gives, without any map, on the sequence in which each
named variable is replaced by the numeric text of its bound value.
`exec("a + x", 0, 0, 1, {a: 10})` is the single sample `(0, 10)`, and the same
call with an empty map fails in the lookup. -/
theorem C9_named_variable (m : Libm) (vars : VariableMap) (x : real_t)
    (pre post : List Token) (t : Token) (l : List Token)
    (ht : t.Type_ = TokenType.Variable) (hl : vars.lookup t.Data = none)
    (hbound : ∀ u ∈ l, u.Type_ = TokenType.Variable → vars.lookup u.Data ≠ none) :
    (∃ e, evaluate m vars (pre ++ t :: post) x = .error e) ∧
    (∀ s, evaluateLoop m vars x pre [] = .ok s →
      evaluate m vars (pre ++ t :: post) x = .error Fault.outOfRange) ∧
    evaluate m vars l x = evaluate m [] (l.map (bindVariable vars)) x ∧
    (∀ fuel, exec m (fuel + 1) "a + x" (real_t.fin 0) (real_t.fin 0) (real_t.fin 1)
      [("a", real_t.fin 10)] = .ok [⟨real_t.fin 0, real_t.fin 10⟩]) ∧
    (∀ fuel, exec m (fuel + 1) "a + x" (real_t.fin 0) (real_t.fin 0) (real_t.fin 1) [] =
      .error Fault.outOfRange) := by
  have hstep : ∀ s, evaluateLoop m vars x (t :: post) s = .error Fault.outOfRange := by
    intro s
    simp only [evaluateLoop, evaluateStep_unbound m vars x s t ht hl]
  refine ⟨?_, ?_, ?_, ?_, ?_⟩
  · unfold evaluate
    rw [evaluateLoop_append]
    cases evaluateLoop m vars x pre [] with
    | error e => exact ⟨e, rfl⟩
    | ok s => exact ⟨Fault.outOfRange, by simp only [hstep]⟩
  · intro s hs
    unfold evaluate
    rw [evaluateLoop_append, hs]
    simp only [hstep]
  · unfold evaluate
    rw [evaluateLoop_bind m vars x l [] hbound]
  · intro fuel
    cases fuel <;> with_unfolding_all rfl
  · intro fuel
    with_unfolding_all rfl

/-- C9, at the postfix sequence `[a, x, Add]` of `a + x`, with `a` unbound in
the empty map and bound to `10` in the map `{a: 10}`. -/
theorem C9_named_variable_witness :
    evaluate Libm.atZero [] ([] ++ (⟨"a", TokenType.Variable⟩ : Token) ::
      [⟨"x", TokenType.InputX⟩, ⟨"+", TokenType.Add⟩]) (real_t.fin 0) =
      .error Fault.outOfRange :=
  (C9_named_variable Libm.atZero [] (real_t.fin 0) []
    [⟨"x", TokenType.InputX⟩, ⟨"+", TokenType.Add⟩] ⟨"a", TokenType.Variable⟩
    [⟨"x", TokenType.InputX⟩] rfl rfl (by decide)).2.1 [] rfl

/-- C10, as stated, fails: the postfix sequence `[2, x]`, the parse of `2 x`,
leaves two values on the stack, and `evaluate` returns the value of `x`. -/
theorem C10_two_values_counterexample :
    (Scan "2 x" >>= parse) =
      .ok [⟨"2", TokenType.NumberLiteral⟩, ⟨"x", TokenType.InputX⟩] ∧
    evaluateLoop Libm.atZero [] (real_t.fin 5)
      [⟨"2", TokenType.NumberLiteral⟩, ⟨"x", TokenType.InputX⟩] [] =
      .ok [⟨"5.000000", TokenType.NumberLiteral⟩, ⟨"2", TokenType.NumberLiteral⟩] ∧
    evaluate Libm.atZero [] [⟨"2", TokenType.NumberLiteral⟩, ⟨"x", TokenType.InputX⟩]
      (real_t.fin 5) = .ok (real_t.fin 5) := by
  decide!

/-- C10 (amended): `evaluate` asserts only that the stack is not empty after
the last postfix token.  When the loop over the sequence ends without fault
with the stack `stack`: the stack is empty exactly when the sequence is empty,
and `evaluate` then fails on its assertion; otherwise `evaluate` converts the
text on top of the stack, whatever lies below it, and returns that value. -/
theorem C10_final_stack (m : Libm) (vars : VariableMap) (x : real_t)
    (_postfix_ stack : List Token)
    (h : evaluateLoop m vars x _postfix_ [] = .ok stack) :
    (stack = [] ↔ _postfix_ = []) ∧
    (stack = [] → evaluate m vars _postfix_ x = .error Fault.assertion) ∧
    (∀ top below, stack = top :: below →
      evaluate m vars _postfix_ x = evaluateResult [top] ∧
      ∀ v, stod top.Data = some v → evaluate m vars _postfix_ x = .ok v) := by
  refine ⟨?_, ?_, ?_⟩
  · constructor
    · intro hs
      cases _postfix_ with
      | nil => rfl
      | cons t l =>
        exfalso
        simp only [evaluateLoop] at h
        cases hst : evaluateStep m vars x [] t with
        | error e => simp [hst] at h
        | ok s2 =>
          simp only [hst] at h
          exact evaluateLoop_ne_nil m vars x l s2 stack h
            (evaluateStep_ne_nil m vars x [] s2 t hst) hs
    · intro hp
      subst hp
      injection h with h
      exact h.symm
  · intro hs
    subst hs
    simp only [evaluate, h, evaluateResult]
  · intro top below hs
    subst hs
    refine ⟨by simp only [evaluate, h, evaluateResult], ?_⟩
    intro v hv
    simp only [evaluate, h, evaluateResult, hv]

/-- C10 (amended), at the postfix sequence `[2, x]` and `x = 5`. -/
theorem C10_final_stack_witness :
    evaluate Libm.atZero [] [⟨"2", TokenType.NumberLiteral⟩, ⟨"x", TokenType.InputX⟩]
      (real_t.fin 5) = .ok (real_t.fin 5) :=
  ((C10_final_stack Libm.atZero [] (real_t.fin 5)
    [⟨"2", TokenType.NumberLiteral⟩, ⟨"x", TokenType.InputX⟩]
    [⟨"5.000000", TokenType.NumberLiteral⟩, ⟨"2", TokenType.NumberLiteral⟩]
    (by decide!)).2.2 _ _ rfl).2 _ (by decide!)

/-- C11: `exec` samples in the direction given by the sign of the step.  For
finite `xBegin`, `xEnd` and a non-zero `xStep`, with the expression scanned and
parsed once: there is a number `n` such that the coordinates
`xBegin + k * xStep` that satisfy the loop condition (`<= xEnd` for a positive
step, `>= xEnd` for a negative one) are exactly those with `k < n`; with any
budget of at least `n` steps `exec` returns the samples at these `n`
coordinates in this order, or the first fault of `evaluate`; the coordinates
of the returned samples are these, and the value of each is `evaluate` at its
coordinate.  `exec("x", 0, 5, 1, {})` has the coordinates `0, 1, 2, 3, 4, 5`,
`exec("x", 5, 0, -1, {})` has `5, 4, 3, 2, 1, 0`, and the call of the
demonstration program returns 1001 samples, the first at `0`. -/
theorem C11_sampling_direction (m : Libm) (vars : VariableMap) (_expr : String)
    (ts p : List Token) (b e s : ℚ)
    (hscan : Scan (_expr ++ " ") = .ok ts) (hparse : parse ts = .ok p) (hs : s ≠ 0) :
    (∃ n : Nat,
      (∀ k : Nat, k < n ↔ (if 0 < s then b + k * s ≤ e else e ≤ b + k * s)) ∧
      (∀ fuel, n ≤ fuel →
        exec m fuel _expr (real_t.fin b) (real_t.fin e) (real_t.fin s) vars =
          sampleAll m vars p (coordinates b s n)) ∧
      (∀ fuel r, n ≤ fuel →
        exec m fuel _expr (real_t.fin b) (real_t.fin e) (real_t.fin s) vars = .ok r →
        r.map (fun v => v.x) = coordinates b s n ∧
        ∀ v ∈ r, evaluate m vars p v.x = .ok v.y)) ∧
    (∀ fuel, exec m (fuel + 6) "x" (real_t.fin 0) (real_t.fin 5) (real_t.fin 1) [] =
      .ok [⟨real_t.fin 0, real_t.fin 0⟩, ⟨real_t.fin 1, real_t.fin 1⟩,
        ⟨real_t.fin 2, real_t.fin 2⟩, ⟨real_t.fin 3, real_t.fin 3⟩,
        ⟨real_t.fin 4, real_t.fin 4⟩, ⟨real_t.fin 5, real_t.fin 5⟩]) ∧
    (∀ fuel, exec m (fuel + 6) "x" (real_t.fin 5) (real_t.fin 0) (real_t.fin (-1)) [] =
      .ok [⟨real_t.fin 5, real_t.fin 5⟩, ⟨real_t.fin 4, real_t.fin 4⟩,
        ⟨real_t.fin 3, real_t.fin 3⟩, ⟨real_t.fin 2, real_t.fin 2⟩,
        ⟨real_t.fin 1, real_t.fin 1⟩, ⟨real_t.fin 0, real_t.fin 0⟩]) ∧
    (∃ r, (∀ fuel, 1001 ≤ fuel →
        exec m fuel "sin(x / 10.0) * 50.0 + 100" (real_t.fin 0) (real_t.fin 500)
          (real_t.fin (1 / 2)) [] = .ok r) ∧
      r.length = 1001 ∧ (r.map (fun v => v.x)).head? = some (real_t.fin 0)) := by
  refine ⟨?_, ?_, ?_, ?_⟩
  · have hex : ∃ n : Nat, ∀ k : Nat, k < n ↔
        (if 0 < s then b + k * s ≤ e else e ≤ b + k * s) := by
      by_cases hpos : 0 < s
      · obtain ⟨n, hn⟩ := count_up b e s hpos
        exact ⟨n, fun k => by rw [if_pos hpos]; exact hn k⟩
      · have hneg : s < 0 := lt_of_le_of_ne (not_lt.mp hpos) hs
        obtain ⟨n, hn⟩ := count_down b e s hneg
        exact ⟨n, fun k => by rw [if_neg hpos]; exact hn k⟩
    obtain ⟨n, hn⟩ := hex
    refine ⟨n, hn, ?_, ?_⟩
    · intro fuel hf
      exact exec_samples m vars _expr ts p b e s n fuel hscan hparse hn hf
    · intro fuel r hf hr
      rw [exec_samples m vars _expr ts p b e s n fuel hscan hparse hn hf] at hr
      exact sampleAll_ok m vars p _ r hr
  · intro fuel
    have hn : ∀ k : Nat, k < 6 ↔
        (if (0 : ℚ) < 1 then (0 : ℚ) + k * 1 ≤ 5 else (5 : ℚ) ≤ 0 + k * 1) := by
      intro k
      rw [if_pos (by norm_num)]
      constructor
      · intro hk
        have : (k : ℚ) ≤ 5 := by exact_mod_cast (by omega : k ≤ 5)
        linarith
      · intro hk
        have : (k : ℚ) ≤ 5 := by linarith
        have : k ≤ 5 := by exact_mod_cast this
        omega
    rw [exec_samples m [] "x" [⟨"x", TokenType.InputX⟩] [⟨"x", TokenType.InputX⟩] 0 5 1 6
      (fuel + 6) (by decide) (by decide) hn (by omega)]
    with_unfolding_all rfl
  · intro fuel
    have hn : ∀ k : Nat, k < 6 ↔
        (if (0 : ℚ) < -1 then (5 : ℚ) + k * (-1) ≤ 0 else (0 : ℚ) ≤ 5 + k * (-1)) := by
      intro k
      rw [if_neg (by norm_num)]
      constructor
      · intro hk
        have : (k : ℚ) ≤ 5 := by exact_mod_cast (by omega : k ≤ 5)
        linarith
      · intro hk
        have : (k : ℚ) ≤ 5 := by linarith
        have : k ≤ 5 := by exact_mod_cast this
        omega
    rw [exec_samples m [] "x" [⟨"x", TokenType.InputX⟩] [⟨"x", TokenType.InputX⟩] 5 0 (-1) 6
      (fuel + 6) (by decide) (by decide) hn (by omega)]
    with_unfolding_all rfl
  · have hscan1 : Scan ("sin(x / 10.0) * 50.0 + 100" ++ " ") =
        .ok [⟨"sin", TokenType.Sine⟩, ⟨"(", TokenType.LeftParent⟩, ⟨"x", TokenType.InputX⟩,
          ⟨"/", TokenType.Div⟩, ⟨"10.0", TokenType.NumberLiteral⟩,
          ⟨")", TokenType.RightParent⟩, ⟨"*", TokenType.Mul⟩,
          ⟨"50.0", TokenType.NumberLiteral⟩, ⟨"+", TokenType.Add⟩,
          ⟨"100", TokenType.NumberLiteral⟩] := by decide
    obtain ⟨p1, hp1, _⟩ := parseLoop_wellFormed _ Expect.operand 0 [] []
      (show wellFormedFrom Expect.operand 0 [⟨"sin", TokenType.Sine⟩,
          ⟨"(", TokenType.LeftParent⟩, ⟨"x", TokenType.InputX⟩,
          ⟨"/", TokenType.Div⟩, ⟨"10.0", TokenType.NumberLiteral⟩,
          ⟨")", TokenType.RightParent⟩, ⟨"*", TokenType.Mul⟩,
          ⟨"50.0", TokenType.NumberLiteral⟩, ⟨"+", TokenType.Add⟩,
          ⟨"100", TokenType.NumberLiteral⟩] = true by decide)
      ⟨by simp, rfl, rfl, by simp⟩
    have hev : ∀ x, ∃ y, evaluate m [] p1 x = .ok y :=
      evaluate_wellFormed m [] _ _ p1 hscan1 hp1 (by decide) (by decide) (by decide)
    obtain ⟨r, hr, hlen⟩ := sampleAll_total m [] p1 (coordinates 0 (1 / 2) 1001)
      (fun x _ => hev x)
    have hn : ∀ k : Nat, k < 1001 ↔
        (if (0 : ℚ) < 1 / 2 then (0 : ℚ) + k * (1 / 2) ≤ 500
         else (500 : ℚ) ≤ 0 + k * (1 / 2)) := by
      intro k
      rw [if_pos (by norm_num)]
      constructor
      · intro hk
        have : (k : ℚ) ≤ 1000 := by exact_mod_cast (by omega : k ≤ 1000)
        linarith
      · intro hk
        have : (k : ℚ) ≤ 1000 := by linarith
        have : k ≤ 1000 := by exact_mod_cast this
        omega
    refine ⟨r, ?_, ?_, ?_⟩
    · intro fuel hf
      rw [exec_samples m [] _ _ p1 0 500 (1 / 2) 1001 fuel hscan1 hp1 hn hf, hr]
    · rw [hlen]
      simp only [coordinates, List.length_map, List.length_range]
    · rw [(sampleAll_ok m [] p1 _ r hr).1, show (1001 : Nat) = 1000 + 1 from rfl,
        coordinates_succ]
      rfl

/-- C11, at `exec("x", 0, 5, 1, {})`: six samples, at `0, 1, 2, 3, 4, 5`. -/
theorem C11_sampling_direction_witness :
    exec Libm.atZero 6 "x" (real_t.fin 0) (real_t.fin 5) (real_t.fin 1) [] =
      .ok [⟨real_t.fin 0, real_t.fin 0⟩, ⟨real_t.fin 1, real_t.fin 1⟩,
        ⟨real_t.fin 2, real_t.fin 2⟩, ⟨real_t.fin 3, real_t.fin 3⟩,
        ⟨real_t.fin 4, real_t.fin 4⟩, ⟨real_t.fin 5, real_t.fin 5⟩] :=
  (C11_sampling_direction Libm.atZero [] "x" [⟨"x", TokenType.InputX⟩]
    [⟨"x", TokenType.InputX⟩] 0 5 1 (by decide) (by decide) (by norm_num)).2.1 0

/-- C12, as stated, fails: with `xEnd > xBegin` and a zero or a negative step
`exec` returns at once, with no sample, whatever the budget. -/
theorem C12_returns_empty_counterexample :
    exec Libm.atZero 0 "x" (real_t.fin 0) (real_t.fin 5) (real_t.fin 0) [] = .ok [] ∧
    exec Libm.atZero 0 "x" (real_t.fin 0) (real_t.fin 5) (real_t.fin (-1)) [] = .ok [] ∧
    exec Libm.atZero 1000 "x" (real_t.fin 0) (real_t.fin 5) (real_t.fin 0) [] = .ok [] ∧
    exec Libm.atZero 1000 "x" (real_t.fin 0) (real_t.fin 5) (real_t.fin (-1)) [] = .ok [] := by
  decide!

/-- C12 (amended): for a zero or negative `xStep` with `xEnd > xBegin` the
loop `x >= xEnd` of `exec` is not entered, and `exec` returns the empty
sequence.  The loop that does not terminate is the one with `xStep = 0` and
`xBegin >= xEnd`: when `evaluate` returns a value at `xBegin`, no budget is
enough, the loop produces a sample at `xBegin` at every step. -/
theorem C12_nonpositive_step (m : Libm) (vars : VariableMap) (_expr : String)
    (ts p : List Token) (b e s : ℚ)
    (hscan : Scan (_expr ++ " ") = .ok ts) (hparse : parse ts = .ok p) :
    (s ≤ 0 → b < e →
      ∀ fuel, exec m fuel _expr (real_t.fin b) (real_t.fin e) (real_t.fin s) vars = .ok []) ∧
    (e ≤ b → ∀ y, evaluate m vars p (real_t.fin b) = .ok y →
      ∀ fuel, exec m fuel _expr (real_t.fin b) (real_t.fin e) (real_t.fin 0) vars =
        .error Fault.fuel) := by
  constructor
  · intro hs hbe fuel
    have hgt : real_t.gt (real_t.fin s) (real_t.fin 0) = false := by
      simp [real_t.gt, real_t.le, hs]
    have hc : ¬ ((if false = true then real_t.le (real_t.fin b) (real_t.fin e)
        else real_t.le (real_t.fin e) (real_t.fin b)) = true) := by
      simp [real_t.le, hbe]
    simp only [exec, hscan, hparse, hgt]
    unfold execLoop
    rw [if_neg hc]
  · intro hle y hev fuel
    have hgt : real_t.gt (real_t.fin 0) (real_t.fin 0) = false := by
      simp [real_t.gt, real_t.le]
    simp only [exec, hscan, hparse, hgt]
    exact execLoop_zero_step m vars p b e y hle hev fuel []

/-- C12 (amended), at `exec("x", 0, 5, -1, {})`, which returns no sample, and
at `exec("x", 5, 0, 0, {})`, which exhausts the budget of 1000 steps. -/
theorem C12_nonpositive_step_witness :
    exec Libm.atZero 1000 "x" (real_t.fin 0) (real_t.fin 5) (real_t.fin (-1)) [] = .ok [] ∧
    exec Libm.atZero 1000 "x" (real_t.fin 5) (real_t.fin 0) (real_t.fin 0) [] =
      .error Fault.fuel :=
  ⟨(C12_nonpositive_step Libm.atZero [] "x" [⟨"x", TokenType.InputX⟩]
      [⟨"x", TokenType.InputX⟩] 0 5 (-1) (by decide) (by decide)).1
      (by norm_num) (by norm_num) 1000,
   (C12_nonpositive_step Libm.atZero [] "x" [⟨"x", TokenType.InputX⟩]
      [⟨"x", TokenType.InputX⟩] 5 0 0 (by decide) (by decide)).2
      (by norm_num) (real_t.fin 5) (by decide!) 1000⟩

/-- C13: the scanner is total.  For every source `Scan` returns a token
sequence, and so does its loop with any budget of at least one step per
character; each iteration consumes at least one character (the rest after a
number or an identifier is shorter than the source at its first character);
the assertion of the operator case cannot fail (the table has an entry for
each operator character), and no budget makes the loop fail an assertion. -/
theorem C13_scan_total (_src : String) :
    (∃ ts, Scan _src = .ok ts ∧
      ∀ fuel, _src.data.length ≤ fuel → ScanLoop fuel _src.data [] = .ok ts) ∧
    (∀ c rest, GetCharType c = CharType.Number →
      (scanNumber (c :: rest)).2.length < (c :: rest).length) ∧
    (∀ c rest, GetCharType c = CharType.Identifier →
      (scanIdentifier (c :: rest)).2.length < (c :: rest).length) ∧
    (∀ c, GetCharType c = CharType.OperatorAndPunctuator → ∃ t, _opToTokenType c = some t) ∧
    (∀ fuel acc, ScanLoop fuel _src.data acc ≠ .error Fault.assertion) := by
  refine ⟨?_, ?_, ?_, opToTokenType_isSome, fun fuel acc => ScanLoop_no_assertion fuel _ acc⟩
  · obtain ⟨ts, hts⟩ := scanFrom_ok _src.data.length _src.data [] (le_refl _)
    rw [List.nil_append] at hts
    refine ⟨ts, hts, ?_⟩
    intro fuel hf
    rw [(ScanLoop_fuel fuel _src.data.length _src.data [] hf (le_refl _)).1]
    exact hts
  · intro c rest hc
    have := scanNumber_length c rest hc
    simp only [List.length_cons]
    omega
  · intro c rest hc
    have := scanIdentifier_length c rest hc
    simp only [List.length_cons]
    omega

/-- C14: whitespace and unrecognised characters produce no token, and nothing
else is lost: for every source, the texts of the tokens of `Scan`, one after
the other and without the points, are exactly the digits, ASCII letters and
characters `+ - * / % ^ ( )` of the source, in their order; a source without
any such character scans to the empty sequence; `Scan "x @ 1"` is
`[InputX x, NumberLiteral 1]`. -/
theorem C14_nothing_lost (_src : String) :
    (∃ ts, Scan _src = .ok ts ∧
      (tokenText ts).filter notPoint = _src.data.filter isKept) ∧
    ((∀ c ∈ _src.data, isKept c = false) → Scan _src = .ok []) ∧
    (∀ c, isKept c = false ↔
      (GetCharType c = CharType.Whitespace ∨ GetCharType c = CharType.Unknown)) ∧
    Scan "x @ 1" = .ok [⟨"x", TokenType.InputX⟩, ⟨"1", TokenType.NumberLiteral⟩] := by
  refine ⟨?_, ?_, ?_, by decide⟩
  · obtain ⟨ts, hts⟩ := scanFrom_ok _src.data.length _src.data [] (le_refl _)
    rw [List.nil_append] at hts
    refine ⟨ts, hts, ?_⟩
    have := scanFrom_text _src.data.length _src.data [] ts (le_refl _) hts
    simpa [tokenText] using this
  · intro h
    exact scanFrom_not_kept _src.data [] h
  · intro c
    have hk := GetCharType_of_isKept c
    constructor
    · intro h
      cases hc : GetCharType c with
      | Unknown => exact Or.inr rfl
      | Whitespace => exact Or.inl rfl
      | Number => rw [hk.mpr (Or.inl hc)] at h; exact absurd h (by simp)
      | Identifier => rw [hk.mpr (Or.inr (Or.inl hc))] at h; exact absurd h (by simp)
      | OperatorAndPunctuator =>
        rw [hk.mpr (Or.inr (Or.inr hc))] at h; exact absurd h (by simp)
    · intro h
      cases hb : isKept c
      · rfl
      · have := hk.mp hb
        rcases h with h | h <;> simp [h] at this

/-- C16: every token in the result of `Scan` has a kind other than `Unknown`,
for every source. -/
theorem C16_no_unknown_token (_src : String) :
    ∃ ts, Scan _src = .ok ts ∧ ∀ t ∈ ts, t.Type_ ≠ TokenType.Unknown := by
  obtain ⟨ts, hts⟩ := scanFrom_ok _src.data.length _src.data [] (le_refl _)
  rw [List.nil_append] at hts
  exact ⟨ts, hts, scanFrom_known _src.data ts hts⟩

/-- C17: numeric literals are scanned by maximal munch, with an optional
fractional part: for a non-empty digit string `d1` and a digit string `d2`,
empty or not, `Scan (d1 ++ "." ++ d2)` is the single `NumberLiteral` token with
that text, and `Scan d1` is the single `NumberLiteral` token with the text
`d1`; `Scan "3."` is the single token `3.`. -/
theorem C17_number_maximal_munch (d1 d2 : String) (hne : d1.data ≠ [])
    (h1 : ∀ c ∈ d1.data, '0' ≤ c ∧ c ≤ '9') (h2 : ∀ c ∈ d2.data, '0' ≤ c ∧ c ≤ '9') :
    Scan (d1 ++ "." ++ d2) = .ok [⟨d1 ++ "." ++ d2, TokenType.NumberLiteral⟩] ∧
    Scan d1 = .ok [⟨d1, TokenType.NumberLiteral⟩] ∧
    Scan "3." = .ok [⟨"3.", TokenType.NumberLiteral⟩] := by
  have hn1 : ∀ c ∈ d1.data, isNumber c = true := fun c hc => isNumber_of_digit c (h1 c hc)
  have hn2 : ∀ c ∈ d2.data, isNumber c = true := fun c hc => isNumber_of_digit c (h2 c hc)
  refine ⟨?_, ?_, by decide⟩
  · have e : (d1 ++ "." ++ d2).data = d1.data ++ '.' :: d2.data := by
      simp only [String.data_append, List.append_assoc]
      rfl
    have := scanFrom_number_point d1.data d2.data [] hne hn1 hn2
    rw [Scan, e, this, ← e]
    rfl
  · have := scanFrom_number d1.data [] hne hn1
    rw [Scan, this]
    rfl

/-- C17, at the digit strings `12` and `50`, and at `3` with the empty string. -/
theorem C17_number_maximal_munch_witness :
    Scan ("12" ++ "." ++ "50") = .ok [⟨"12" ++ "." ++ "50", TokenType.NumberLiteral⟩] ∧
    Scan ("3" ++ "." ++ "") = .ok [⟨"3" ++ "." ++ "", TokenType.NumberLiteral⟩] :=
  ⟨(C17_number_maximal_munch "12" "50" (by decide) (by decide) (by decide)).1,
   (C17_number_maximal_munch "3" "" (by decide) (by decide) (by decide)).1⟩

/-- C18: `Mod` is not a key of the table `_priority` and is read with the
priority `0`, the priority of a left parenthesis, below `Add` and `Sub`: for
operand tokens `a`, `b`, `c`, an `Add` token and a `Mod` token,
`parse [a, add, b, mod, c] = [a, b, add, c, mod]` and
`parse [a, mod, b, add, c] = [a, b, c, add, mod]`; so `1 + 2 % 3` is computed
as `(1 + 2) % 3`, which is `0`, and `7 % 2 + 1` as `7 % (2 + 1)`, which is `1`. -/
theorem C18_modulo_priority_zero (a b c add mod : Token)
    (ha : a.Type_.isOperand = true) (hb : b.Type_.isOperand = true)
    (hc : c.Type_.isOperand = true)
    (hadd : add.Type_ = TokenType.Add) (hmod : mod.Type_ = TokenType.Mod) :
    _priority TokenType.Mod = 0 ∧
    _priority TokenType.Mod = _priority TokenType.LeftParent ∧
    _priority TokenType.Mod < _priority TokenType.Add ∧
    _priority TokenType.Mod < _priority TokenType.Sub ∧
    parse [a, add, b, mod, c] = .ok [a, b, add, c, mod] ∧
    parse [a, mod, b, add, c] = .ok [a, b, c, add, mod] ∧
    (∀ (m : Libm) (vars : VariableMap) (x : real_t),
      (Scan ("1 + 2 % 3" ++ " ") >>= parse) =
        .ok [⟨"1", TokenType.NumberLiteral⟩, ⟨"2", TokenType.NumberLiteral⟩,
          ⟨"+", TokenType.Add⟩, ⟨"3", TokenType.NumberLiteral⟩, ⟨"%", TokenType.Mod⟩] ∧
      (Scan ("7 % 2 + 1" ++ " ") >>= parse) =
        .ok [⟨"7", TokenType.NumberLiteral⟩, ⟨"2", TokenType.NumberLiteral⟩,
          ⟨"1", TokenType.NumberLiteral⟩, ⟨"+", TokenType.Add⟩, ⟨"%", TokenType.Mod⟩] ∧
      evaluateExpression m vars "1 + 2 % 3" x = .ok (real_t.fin 0) ∧
      evaluateExpression m vars "7 % 2 + 1" x = .ok (real_t.fin 1)) := by
  have da : add.Type_.isBinaryOperator = true ∨ add.Type_ = TokenType.Neg ∨
      add.Type_.isFunction = true := Or.inl (by rw [hadd]; rfl)
  have dm : mod.Type_.isBinaryOperator = true ∨ mod.Type_ = TokenType.Neg ∨
      mod.Type_.isFunction = true := Or.inl (by rw [hmod]; rfl)
  have pa : _priority add.Type_ = 1 := by rw [hadd]; rfl
  have pm : _priority mod.Type_ = 0 := by rw [hmod]; rfl
  refine ⟨rfl, rfl, by decide, by decide, ?_, ?_, ?_⟩
  · simp only [parse, parseLoop, parseStep_operand _ _ _ ha, parseStep_operand _ _ _ hb,
      parseStep_operand _ _ _ hc, parseStep_default _ _ _ da, parseStep_default _ _ _ dm,
      popHigher_nil,
      popHigher_pop mod add _ _ (by rw [pa, pm]; decide) (ne_rightParent_of_default _ da)]
    rfl
  · simp only [parse, parseLoop, parseStep_operand _ _ _ ha, parseStep_operand _ _ _ hb,
      parseStep_operand _ _ _ hc, parseStep_default _ _ _ da, parseStep_default _ _ _ dm,
      popHigher_nil, popHigher_keep add mod _ _ (by rw [pa, pm]; decide)]
    rfl
  · intro m vars x
    exact ⟨by decide, by decide, by with_unfolding_all rfl, by with_unfolding_all rfl⟩

/-- C18, at the tokens of `1 + 2 % 3` and of `7 % 2 + 1`. -/
theorem C18_modulo_priority_zero_witness :
    parse [⟨"1", TokenType.NumberLiteral⟩, ⟨"+", TokenType.Add⟩, ⟨"2", TokenType.NumberLiteral⟩,
      ⟨"%", TokenType.Mod⟩, ⟨"3", TokenType.NumberLiteral⟩] =
    .ok [⟨"1", TokenType.NumberLiteral⟩, ⟨"2", TokenType.NumberLiteral⟩, ⟨"+", TokenType.Add⟩,
      ⟨"3", TokenType.NumberLiteral⟩, ⟨"%", TokenType.Mod⟩] :=
  (C18_modulo_priority_zero ⟨"1", TokenType.NumberLiteral⟩ ⟨"2", TokenType.NumberLiteral⟩
    ⟨"3", TokenType.NumberLiteral⟩ ⟨"+", TokenType.Add⟩ ⟨"%", TokenType.Mod⟩
    rfl rfl rfl rfl rfl).2.2.2.2.1

/-- C20, as stated, fails for a left operand that is no `int64_t`: the
evaluation of `[10000000000000000000, 0, Mod]` stops in the conversion of the
left operand, which is undefined, before any integer remainder is taken. -/
theorem C20_conversion_counterexample :
    stod "10000000000000000000" = some (real_t.fin 10000000000000000000) ∧
    toInt64 (real_t.fin 10000000000000000000) = none ∧
    stod "0" = some (real_t.fin 0) ∧
    toInt64 (real_t.fin 0) = some 0 ∧
    evaluate Libm.atZero [] [⟨"10000000000000000000", TokenType.NumberLiteral⟩,
      ⟨"0", TokenType.NumberLiteral⟩, ⟨"%", TokenType.Mod⟩] (real_t.fin 0) =
        .error Fault.undefinedCast ∧
    evaluate Libm.atZero [] [⟨"10000000000000000000", TokenType.NumberLiteral⟩,
      ⟨"0", TokenType.NumberLiteral⟩, ⟨"%", TokenType.Mod⟩] (real_t.fin 0) ≠
        .error Fault.integerDivide := by
  decide!

/-- C20: a `%` by a right operand that truncates to zero is a failure, not an
infinity or NaN.  For numeric texts `a`, `b` with values `va`, `vb`: when the
conversion of `vb` to `int64_t` is `0`, the evaluation of `[a, b, Mod]` yields
no result; it stops in the integer remainder by zero when the conversion of
`va` is defined, and in the conversion of `va` when it is not.  When `vb` is a
zero, the evaluation of `[a, b, Div]` does not fail, and yields the quotient,
an infinity or NaN.  The finite values that truncate to zero are those
strictly between `-1` and `1` (`0` and `0.5` among them). -/
theorem C20_modulo_by_zero_fails (m : Libm) (vars : VariableMap) (x : real_t)
    (ta tb tm td : Token) (va vb : real_t)
    (hta : ta.Type_ = TokenType.NumberLiteral) (htb : tb.Type_ = TokenType.NumberLiteral)
    (htm : tm.Type_ = TokenType.Mod) (htd : td.Type_ = TokenType.Div)
    (ha : stod ta.Data = some va) (hb : stod tb.Data = some vb) :
    (toInt64 vb = some 0 →
      (∃ e, evaluate m vars [ta, tb, tm] x = .error e) ∧
      (∀ za, toInt64 va = some za →
        evaluate m vars [ta, tb, tm] x = .error Fault.integerDivide) ∧
      (toInt64 va = none →
        evaluate m vars [ta, tb, tm] x = .error Fault.undefinedCast)) ∧
    (vb.isZero = true →
      evaluate m vars [ta, tb, td] x = .ok (real_t.div va vb) ∧
      (real_t.div va vb = real_t.nan ∨ ∃ s, real_t.div va vb = real_t.inf s)) ∧
    (∀ q : ℚ, toInt64 (real_t.fin q) = some 0 ↔ (-1 < q ∧ q < 1)) ∧
    evaluateExpression m vars "7 % 0" x = .error Fault.integerDivide ∧
    evaluateExpression m vars "7 % 0.5" x = .error Fault.integerDivide ∧
    evaluateExpression m vars "7 / 0" x = .ok (real_t.inf false) ∧
    evaluateExpression m vars "0 / 0" x = .ok real_t.nan := by
  obtain ⟨da, tya⟩ := ta
  obtain ⟨db, tyb⟩ := tb
  obtain ⟨dm, tym⟩ := tm
  obtain ⟨dd, tyd⟩ := td
  simp only at hta htb htm htd ha hb
  subst hta htb htm htd
  refine ⟨?_, ?_, toInt64_eq_zero, by with_unfolding_all rfl, by with_unfolding_all rfl,
    by with_unfolding_all rfl, by with_unfolding_all rfl⟩
  · intro hz
    have hdiv : ∀ za, toInt64 va = some za →
        evaluate m vars [⟨da, TokenType.NumberLiteral⟩, ⟨db, TokenType.NumberLiteral⟩,
          ⟨dm, TokenType.Mod⟩] x = .error Fault.integerDivide := by
      intro za hza
      simp [evaluate, evaluateLoop, evaluateStep, evalMod, ha, hb, hza, hz, int64Mod]
    have hcast : toInt64 va = none →
        evaluate m vars [⟨da, TokenType.NumberLiteral⟩, ⟨db, TokenType.NumberLiteral⟩,
          ⟨dm, TokenType.Mod⟩] x = .error Fault.undefinedCast := by
      intro hza
      simp [evaluate, evaluateLoop, evaluateStep, evalMod, ha, hza]
    refine ⟨?_, hdiv, hcast⟩
    cases hza : toInt64 va with
    | none => exact ⟨Fault.undefinedCast, hcast hza⟩
    | some za => exact ⟨Fault.integerDivide, hdiv za hza⟩
  · intro hz
    have hd := div_by_zero va vb hz
    refine ⟨?_, hd⟩
    have hs := stod_to_string_special _ hd
    simp [evaluate, evaluateLoop, evaluateStep, GP_EVAL_OPERATOR_SWITCH, ha, hb,
      evaluateResult, hs]

/-- C20, at the postfix sequences `[7, 0.5, Mod]` and `[7, 0, Div]`. -/
theorem C20_modulo_by_zero_fails_witness :
    evaluate Libm.atZero [] [⟨"7", TokenType.NumberLiteral⟩, ⟨"0.5", TokenType.NumberLiteral⟩,
      ⟨"%", TokenType.Mod⟩] (real_t.fin 0) = .error Fault.integerDivide ∧
    evaluate Libm.atZero [] [⟨"7", TokenType.NumberLiteral⟩, ⟨"0", TokenType.NumberLiteral⟩,
      ⟨"/", TokenType.Div⟩] (real_t.fin 0) = .ok (real_t.div (real_t.fin 7) (real_t.fin 0)) :=
  ⟨((C20_modulo_by_zero_fails Libm.atZero [] (real_t.fin 0) ⟨"7", TokenType.NumberLiteral⟩
      ⟨"0.5", TokenType.NumberLiteral⟩ ⟨"%", TokenType.Mod⟩ ⟨"/", TokenType.Div⟩
      (real_t.fin 7) (real_t.fin (1 / 2)) rfl rfl rfl rfl (by decide!) (by decide!)).1
      (by decide!)).2.1 7 (by decide!),
   ((C20_modulo_by_zero_fails Libm.atZero [] (real_t.fin 0) ⟨"7", TokenType.NumberLiteral⟩
      ⟨"0", TokenType.NumberLiteral⟩ ⟨"%", TokenType.Mod⟩ ⟨"/", TokenType.Div⟩
      (real_t.fin 7) (real_t.fin 0) rfl rfl rfl rfl (by decide!) (by decide!)).2.1
      (by decide!)).1⟩

/-- C15: the left parenthesis does reach the output when a `%` stands between
the parentheses.  For a left parenthesis `lp`, operands `a`, `b`, a `Mod` token
`md` and a right parenthesis `rp`, the sequence `[lp, a, md, b, rp]` is
balanced; the step of `parse` for `md`, with `lp` on the stack and `a` in the
output, moves `lp` to the output (`Mod` has the priority of `LeftParent`); and
the right parenthesis then finds no left parenthesis and pops the empty stack,
so `parse` returns no sequence.  The source `(1 % 2)` scans to such a
sequence. -/
theorem C15_modulo_moves_left_parenthesis (lp a md b rp : Token)
    (hlp : lp.Type_ = TokenType.LeftParent) (ha : a.Type_.isOperand = true)
    (hmd : md.Type_ = TokenType.Mod) (hb : b.Type_.isOperand = true)
    (hrp : rp.Type_ = TokenType.RightParent) :
    balanced [lp, a, md, b, rp] = true ∧
    parseStep [lp] [a] md = .ok ([md], [a, lp]) ∧
    popToLeftParent [md] [a, lp, b] = .error Fault.emptyStack ∧
    parse [lp, a, md, b, rp] = .error Fault.emptyStack ∧
    Scan "(1 % 2)" = .ok [⟨"(", TokenType.LeftParent⟩, ⟨"1", TokenType.NumberLiteral⟩,
      ⟨"%", TokenType.Mod⟩, ⟨"2", TokenType.NumberLiteral⟩, ⟨")", TokenType.RightParent⟩] ∧
    (Scan "(1 % 2)" >>= parse) = .error Fault.emptyStack := by
  have dm : md.Type_.isBinaryOperator = true ∨ md.Type_ = TokenType.Neg ∨
      md.Type_.isFunction = true := Or.inl (by rw [hmd]; rfl)
  have hpop : popHigher md [lp] [a] = .ok ([], [a, lp]) := by
    rw [popHigher_pop md lp [] [a] (by rw [hmd, hlp]; decide) (by rw [hlp]; decide),
      popHigher_nil]
    rfl
  have hstep : parseStep [lp] [a] md = .ok ([md], [a, lp]) := by
    rw [parseStep_default _ _ _ dm, hpop]
  have hright : popToLeftParent [md] [a, lp, b] = .error Fault.emptyStack := by
    rw [popToLeftParent_pop md [] _ (by rw [hmd]; decide)]
    rfl
  refine ⟨?_, hstep, hright, ?_, by decide, by decide⟩
  · have hal : a.Type_ ≠ TokenType.LeftParent := by
      intro h; rw [h] at ha; simp [TokenType.isOperand] at ha
    have har : a.Type_ ≠ TokenType.RightParent := by
      intro h; rw [h] at ha; simp [TokenType.isOperand] at ha
    have hbl : b.Type_ ≠ TokenType.LeftParent := by
      intro h; rw [h] at hb; simp [TokenType.isOperand] at hb
    have hbr : b.Type_ ≠ TokenType.RightParent := by
      intro h; rw [h] at hb; simp [TokenType.isOperand] at hb
    simp [balanced, balancedFrom, hlp, hal, har, hbl, hbr, hmd, hrp]
  · have h1 : parseStep [] [] lp = .ok ([lp], []) := parseStep_leftParent _ _ _ hlp
    have h2 : parseStep [lp] [] a = .ok ([lp], [a]) := parseStep_operand _ _ _ ha
    have h3 : parseStep [md] [a, lp] b = .ok ([md], [a, lp, b]) :=
      parseStep_operand _ _ _ hb
    have h4 : parseStep [md] [a, lp, b] rp = .error Fault.emptyStack := by
      rw [parseStep_rightParent _ _ _ hrp, hright]
    simp only [parse, parseLoop, h1, h2, hstep, h3, h4]

/-- C15, at the tokens of `(1 % 2)`. -/
theorem C15_modulo_moves_left_parenthesis_witness :
    balanced [⟨"(", TokenType.LeftParent⟩, ⟨"1", TokenType.NumberLiteral⟩,
      ⟨"%", TokenType.Mod⟩, ⟨"2", TokenType.NumberLiteral⟩, ⟨")", TokenType.RightParent⟩] = true ∧
    parseStep [⟨"(", TokenType.LeftParent⟩] [⟨"1", TokenType.NumberLiteral⟩]
      ⟨"%", TokenType.Mod⟩ =
      .ok ([⟨"%", TokenType.Mod⟩],
        [⟨"1", TokenType.NumberLiteral⟩, ⟨"(", TokenType.LeftParent⟩]) ∧
    parse [⟨"(", TokenType.LeftParent⟩, ⟨"1", TokenType.NumberLiteral⟩,
      ⟨"%", TokenType.Mod⟩, ⟨"2", TokenType.NumberLiteral⟩, ⟨")", TokenType.RightParent⟩] =
      .error Fault.emptyStack :=
  have h := C15_modulo_moves_left_parenthesis ⟨"(", TokenType.LeftParent⟩
    ⟨"1", TokenType.NumberLiteral⟩ ⟨"%", TokenType.Mod⟩ ⟨"2", TokenType.NumberLiteral⟩
    ⟨")", TokenType.RightParent⟩ rfl rfl rfl rfl rfl
  ⟨h.1, h.2.1, h.2.2.2.1⟩

/-- C19: `parse` neither loses, duplicates nor reorders operands.  `parse` fails
only by popping an empty stack; and for every token sequence on which it
completes, the tokens of the result that are no parentheses are a permutation
of the tokens of the input that are no parentheses, and the operand tokens of
the result are the operand tokens of the input, in the same order. -/
theorem C19_parse_keeps_tokens (ts : List Token) :
    (∀ e, parse ts = .error e → e = Fault.emptyStack) ∧
    (∀ p, parse ts = .ok p →
      (p.filter notParenthesis).Perm (ts.filter notParenthesis) ∧
      p.filter isOperandToken = ts.filter isOperandToken) := by
  refine ⟨fun e h => parseLoop_fault ts [] [] e h (by simp), ?_⟩
  intro p h
  have := parseLoop_perm ts [] [] p h (by simp)
  simpa using this

/-- C19, at the tokens of `(1 + a) * sin(x)`. -/
theorem C19_parse_keeps_tokens_witness :
    parse [⟨"(", TokenType.LeftParent⟩, ⟨"1", TokenType.NumberLiteral⟩, ⟨"+", TokenType.Add⟩,
      ⟨"a", TokenType.Variable⟩, ⟨")", TokenType.RightParent⟩, ⟨"*", TokenType.Mul⟩,
      ⟨"sin", TokenType.Sine⟩, ⟨"(", TokenType.LeftParent⟩, ⟨"x", TokenType.InputX⟩,
      ⟨")", TokenType.RightParent⟩] =
      .ok [⟨"1", TokenType.NumberLiteral⟩, ⟨"a", TokenType.Variable⟩, ⟨"+", TokenType.Add⟩,
        ⟨"x", TokenType.InputX⟩, ⟨"sin", TokenType.Sine⟩, ⟨"*", TokenType.Mul⟩] ∧
    ([⟨"1", TokenType.NumberLiteral⟩, ⟨"a", TokenType.Variable⟩, ⟨"+", TokenType.Add⟩,
        ⟨"x", TokenType.InputX⟩, ⟨"sin", TokenType.Sine⟩, ⟨"*", TokenType.Mul⟩].filter
        isOperandToken : List Token) =
      ([⟨"(", TokenType.LeftParent⟩, ⟨"1", TokenType.NumberLiteral⟩, ⟨"+", TokenType.Add⟩,
      ⟨"a", TokenType.Variable⟩, ⟨")", TokenType.RightParent⟩, ⟨"*", TokenType.Mul⟩,
      ⟨"sin", TokenType.Sine⟩, ⟨"(", TokenType.LeftParent⟩, ⟨"x", TokenType.InputX⟩,
      ⟨")", TokenType.RightParent⟩].filter isOperandToken : List Token) :=
  ⟨by decide, ((C19_parse_keeps_tokens _).2 _ (by decide)).2⟩

end gp
